import Mathlib

/-!
# Receipt processor: points calculator, receipt validator and in-memory store

A shallow embedding of the Go packages `internal/models`, `internal/calculator`,
`pkg/validator` and `internal/store`, followed by theorems about them.

Conventions of the embedding.

* A Go `string` that reaches the program is valid UTF-8 text; it is a Lean `String`,
  read through its list of characters.  `len` is the UTF-8 byte length.
* `float64` is modelled exactly: a finite value is the rational number it denotes, and every
  operation rounds its exact result to the nearest binary64 value, ties to even.  The two
  zeros are identified (the program never observes the sign of a zero).
* `int64` is an `Int` kept in range by `wrapInt64`.
* `time.Time` is an instant in whole Unix seconds; the accessors read it in UTC.
* Whatever the program obtains from outside its own text (the clock, the local time zone,
  the Unicode tables above ASCII, float syntaxes other than plain decimals, and the result
  of converting an out-of-range float to an integer) is a field of `Env`.
* A method with a pointer receiver takes the old state and returns the new one.  The
  messages of the validator are the constructors of `validator.Message`, one for each text.
* The calls on a `MemoryStore` are taken one after another; its lock is not part of the model.

The namespace `spec` holds the rules R1 to R8 as the specification words them, in exact
arithmetic on cents; they are compared with what `CalculatePoints` computes in `float64` and
`int64`.  It also holds the amounts as exact decimals (`decimalValue`, `itemSum`, `round2`),
compared with the float64 cross-check of the validator, and the written form of a date
(`dateString`).
-/

/-! ## binary64 -/

/-- Two to an integer power, as a rational. -/
def pow2 (z : Int) : ℚ :=
  if 0 ≤ z then ((2 ^ z.toNat : Nat) : ℚ) else 1 / ((2 ^ (-z).toNat : Nat) : ℚ)

/-- Count the halvings that bring `n` below 2, at most `fuel` of them. -/
def log2Fuel : Nat → Nat → Nat
  | 0, _ => 0
  | fuel + 1, n => if n < 2 then 0 else log2Fuel fuel (n / 2) + 1

/-- The position of the leading bit of `n`: the `k` with `2^k ≤ n < 2^(k+1)` for `n > 0`. -/
def natLog2 (n : Nat) : Nat := log2Fuel n n

/-- The integer `e` with `2^e ≤ a < 2^(e+1)`, for a positive rational `a`. -/
def ilog2 (a : ℚ) : Int :=
  let k : Int := (natLog2 a.num.natAbs : Int) - (natLog2 a.den : Int)
  if pow2 k ≤ a then k else k - 1

/-- Round a rational to the nearest integer, ties to the even one. -/
def roundHalfEven (x : ℚ) : Int :=
  let f := Int.floor x
  let r := x - (f : ℚ)
  if r < 1 / 2 then f
  else if 1 / 2 < r then f + 1
  else if f % 2 = 0 then f else f + 1

/-- A `float64` value. -/
inductive F64 where
  | fin (q : ℚ)
  | inf (neg : Bool)
  | nan
deriving DecidableEq

namespace F64

/-- The binary64 value nearest to the magnitude `a > 0`, as a rational: 53 significant bits,
least exponent `-1022` (below it the spacing stays `2^-1074`), ties to even. -/
def roundMag (a : ℚ) : ℚ :=
  let e := max (ilog2 a) (-1022)
  let ulp := pow2 (e - 52)
  (roundHalfEven (a / ulp) : ℚ) * ulp

/-- Round an exact result to `float64`: nearest value, ties to even, overflow to infinity. -/
def round (q : ℚ) : F64 :=
  if q = 0 then fin 0
  else
    let r := roundMag |q|
    if pow2 1024 ≤ r then inf (decide (q < 0))
    else fin (if q < 0 then -r else r)

/-- The float64 product `x * y`. -/
def mul : F64 → F64 → F64
  | fin a, fin b => round (a * b)
  | fin a, inf n => if a = 0 then nan else inf (n != decide (a < 0))
  | inf n, fin b => if b = 0 then nan else inf (n != decide (b < 0))
  | inf n, inf k => inf (n != k)
  | _, _ => nan

/-- The float64 sum `x + y`. -/
def add : F64 → F64 → F64
  | fin a, fin b => round (a + b)
  | fin _, inf n => inf n
  | inf n, fin _ => inf n
  | inf n, inf k => if n = k then inf n else nan
  | _, _ => nan

/-- The float64 quotient `x / y`; a zero divisor is taken as `+0` (the program divides only
by the constant 100). -/
def div : F64 → F64 → F64
  | fin a, fin b =>
    if b = 0 then (if a = 0 then nan else inf (decide (a < 0))) else round (a / b)
  | fin _, inf _ => fin 0
  | inf n, fin b => inf (n != decide (b < 0))
  | _, _ => nan

/-- Truncation of a rational toward zero. -/
def truncQ (q : ℚ) : Int := if 0 ≤ q then Int.floor q else Int.ceil q

/-- Go `math.Mod(x, y)`: the remainder of `x / y` with the sign of `x` (exact). -/
def Mod : F64 → F64 → F64
  | fin a, fin b => if b = 0 then nan else fin (a - b * (truncQ (a / b) : ℚ))
  | fin a, inf _ => fin a
  | _, _ => nan

/-- Go `math.Ceil(x)`: the least integer value not below `x` (exact). -/
def Ceil : F64 → F64
  | fin a => fin (Int.ceil a : ℚ)
  | x => x

/-- Go `math.Round(x)`: the nearest integer, halves away from zero (exact). -/
def Round : F64 → F64
  | fin a => fin (if 0 ≤ a then (Int.floor (a + 1 / 2) : ℚ) else -(Int.floor (-a + 1 / 2) : ℚ))
  | x => x

/-- Go `x == y` on float64. -/
def eq : F64 → F64 → Bool
  | fin a, fin b => decide (a = b)
  | inf n, inf k => n == k
  | _, _ => false

/-- Go `x <= y` on float64. -/
def le : F64 → F64 → Bool
  | fin a, fin b => decide (a ≤ b)
  | fin _, inf k => !k
  | inf n, fin _ => n
  | inf n, inf k => n || !k
  | _, _ => false

end F64

/-! ## int64 -/

/-- Reduce an integer to the `int64` range, as Go integer arithmetic does on overflow. -/
def wrapInt64 (z : Int) : Int := (z + 2 ^ 63) % 2 ^ 64 - 2 ^ 63

/-! ## Text -/

/-- An ASCII decimal digit. -/
def isDigit (c : Char) : Bool := decide (48 ≤ c.toNat) && decide (c.toNat ≤ 57)

/-- An ASCII letter. -/
def isAsciiLetter (c : Char) : Bool :=
  (decide (65 ≤ c.toNat) && decide (c.toNat ≤ 90)) ||
    (decide (97 ≤ c.toNat) && decide (c.toNat ≤ 122))

/-- The regular-expression class `\w` of Go (RE2): `[0-9A-Za-z_]`. -/
def isWordChar (c : Char) : Bool := isDigit c || isAsciiLetter c || decide (c.toNat = 95)

/-- The regular-expression class `\s` of Go (RE2): tab, newline, form feed, return, space. -/
def isReSpace (c : Char) : Bool :=
  decide (c.toNat = 9) || decide (c.toNat = 10) || decide (c.toNat = 12) ||
    decide (c.toNat = 13) || decide (c.toNat = 32)

/-- Go `unicode.IsSpace`. -/
def isSpace (c : Char) : Bool :=
  let n := c.toNat
  (decide (9 ≤ n) && decide (n ≤ 13)) || decide (n = 32) || decide (n = 0x85) ||
    decide (n = 0xA0) || decide (n = 0x1680) || (decide (0x2000 ≤ n) && decide (n ≤ 0x200A)) ||
    decide (n = 0x2028) || decide (n = 0x2029) || decide (n = 0x202F) ||
    decide (n = 0x205F) || decide (n = 0x3000)

/-- Go `strings.TrimSpace`, on the characters of a string. -/
def TrimSpace (s : List Char) : List Char :=
  ((s.dropWhile isSpace).reverse.dropWhile isSpace).reverse

/-- Go `len(s)`: the number of bytes of the UTF-8 encoding. -/
def byteLen (s : List Char) : Nat := (s.map Char.utf8Size).sum

/-- Go `strings.HasSuffix`. -/
def HasSuffix (s suffix : List Char) : Bool := suffix.reverse.isPrefixOf s.reverse

/-- The value of a decimal digit. -/
def digitVal (c : Char) : Nat := c.toNat - 48

/-- The number written by a list of decimal digits. -/
def decNat (ds : List Char) : Nat := ds.foldl (fun n c => 10 * n + digitVal c) 0

/-- A plain decimal numeral `ddd`, `ddd.ddd`, `ddd.` or `.ddd` (at least one digit): its digits
read as one natural number, and the count of digits after the point. -/
def plainDecimal (s : List Char) : Option (Nat × Nat) :=
  let ip := s.takeWhile isDigit
  match s.dropWhile isDigit with
  | [] => if ip.isEmpty then none else some (decNat ip, 0)
  | c :: fp =>
    if c.toNat = 46 ∧ fp.all isDigit = true ∧ (ip ++ fp).isEmpty = false then
      some (decNat (ip ++ fp), fp.length)
    else none

/-! ## Time -/

/-- A Gregorian leap year. -/
def isLeap (y : Int) : Bool := decide (y % 4 = 0) && (decide (y % 100 ≠ 0) || decide (y % 400 = 0))

/-- The number of days of month `m` (1 to 12) in year `y`. -/
def daysIn (m y : Int) : Int :=
  if m = 2 then (if isLeap y then 29 else 28)
  else if m = 4 ∨ m = 6 ∨ m = 9 ∨ m = 11 then 30 else 31

/-- Days from March 1 of year 0 to day `doy` (counted from 0) of the twelve months that start
on March 1 of year `y`. -/
def marchDays (y doy : Int) : Int :=
  let era := y / 400
  let yoe := y - era * 400
  era * 146097 + (yoe * 365 + yoe / 4 - yoe / 100 + doy)

/-- The inverse of `marchDays`: the year and the day in it, found by cutting off cycles of
400 years, of 100 years (at most three), of 4 years and of 1 year (at most three). -/
def yearDay (z : Int) : Int × Int :=
  let era := z / 146097
  let doe := z - era * 146097
  let cent := min (doe / 36524) 3
  let doc := doe - cent * 36524
  let quad := doc / 1461
  let doq := doc - quad * 1461
  let yr := min (doq / 365) 3
  (era * 400 + cent * 100 + quad * 4 + yr, doq - yr * 365)

/-- Days from 1970-01-01 to the given proleptic Gregorian date.  The month may lie outside
1 to 12 and the day outside the month; both are normalised as `time.Date` does. -/
def daysFromCivil (year month day : Int) : Int :=
  let y0 := year + (month - 1) / 12
  let m := (month - 1) % 12 + 1
  let y := if m ≤ 2 then y0 - 1 else y0
  let mp := if m > 2 then m - 3 else m + 9
  marchDays y ((153 * mp + 2) / 5 + day - 1) - 719468

/-- The proleptic Gregorian date (year, month, day) of a day count from 1970-01-01. -/
def civilFromDays (z : Int) : Int × Int × Int :=
  let (y, doy) := yearDay (z + 719468)
  let mp := (5 * doy + 2) / 153
  let d := doy - (153 * mp + 2) / 5 + 1
  let m := if mp < 10 then mp + 3 else mp - 9
  (if m ≤ 2 then y + 1 else y, m, d)

/-- A Go `*time.Location`: `lookup` gives, for an instant in Unix seconds, the offset east of
UTC in force and the bounds `start ≤ t < end` of the period the offset holds for. -/
structure Location where
  lookup : Int → Int × Int × Int

/-- A Go `time.Time` with no fraction of a second. -/
structure Time where
  unix : Int
deriving DecidableEq

namespace Time

/-- The location `time.UTC`. -/
def UTC : Location := ⟨fun _ => (0, -9223372036854775808, 9223372036854775807)⟩

/-- Go `time.Date(year, month, day, hour, min, sec, 0, loc)`. -/
def Date (year month day hour min sec : Int) (loc : Location) : Time :=
  let unix := daysFromCivil year month day * 86400 + hour * 3600 + min * 60 + sec
  let (offset, start, stop) := loc.lookup unix
  if offset ≠ 0 then
    let utc := unix - offset
    let offset2 := if utc < start ∨ utc ≥ stop then (loc.lookup utc).1 else offset
    ⟨unix - offset2⟩
  else ⟨unix⟩

/-- Go `t.Year()` of a UTC time. -/
def Year (t : Time) : Int := (civilFromDays (t.unix / 86400)).1

/-- Go `t.Month()` of a UTC time. -/
def Month (t : Time) : Int := (civilFromDays (t.unix / 86400)).2.1

/-- Go `t.Day()` of a UTC time. -/
def Day (t : Time) : Int := (civilFromDays (t.unix / 86400)).2.2

/-- Go `t.Hour()` of a UTC time. -/
def Hour (t : Time) : Int := t.unix % 86400 / 3600

/-- Go `t.Minute()` of a UTC time. -/
def Minute (t : Time) : Int := t.unix % 3600 / 60

/-- Go `t.Before(u)`. -/
def Before (t u : Time) : Bool := decide (t.unix < u.unix)

/-- Go `t.After(time.Now())`, the clock reading given in Unix seconds rounded down: `t` has
no fraction of a second, so it is after the reading exactly when its second is later. -/
def AfterNow (t : Time) (now : Int) : Bool := decide (now < t.unix)

/-- The zero `time.Time`: January 1 of year 1, 00:00 UTC. -/
def zero : Time := Date 1 1 1 0 0 0 UTC

/-- Go `time.Parse("2006-01-02", s)`: four digits, `-`, two digits, `-`, two digits, the month
in 1 to 12 and the day within the month; `none` for an error. -/
def ParseDate (s : String) : Option Time :=
  match s.data with
  | [y1, y2, y3, y4, s1, m1, m2, s2, d1, d2] =>
    if [y1, y2, y3, y4, m1, m2, d1, d2].all isDigit = true ∧ s1.toNat = 45 ∧ s2.toNat = 45 then
      let year : Int := decNat [y1, y2, y3, y4]
      let month : Int := decNat [m1, m2]
      let day : Int := decNat [d1, d2]
      if month ≤ 0 ∨ 12 < month then none
      else if day < 1 ∨ day > daysIn month year then none
      else some (Date year month day 0 0 0 UTC)
    else none
  | _ => none

/-- Go `time.Parse("15:04", s)`: one or two digits of hour (below 24), `:`, two digits of
minute (below 60); the result is on January 1 of year 0. -/
def ParseClock (s : String) : Option Time :=
  match s.data with
  | [h1, c, m1, m2] =>
    if [h1, m1, m2].all isDigit = true ∧ c.toNat = 58 then
      let hour : Int := decNat [h1]
      let min : Int := decNat [m1, m2]
      if 60 ≤ min then none else some (Date 0 1 1 hour min 0 UTC)
    else none
  | [h1, h2, c, m1, m2] =>
    if [h1, h2, m1, m2].all isDigit = true ∧ c.toNat = 58 then
      let hour : Int := decNat [h1, h2]
      let min : Int := decNat [m1, m2]
      if 24 ≤ hour then none
      else if 60 ≤ min then none else some (Date 0 1 1 hour min 0 UTC)
    else none
  | _ => none

end Time

/-! ## The environment -/

/-- What the program reads from outside its own text. -/
structure Env where
  /-- The reading of `time.Now()`, in Unix seconds rounded down; one validation is taken to
  see one reading. -/
  now : Int
  /-- The location `time.Now().Location()`. -/
  zone : Location
  /-- Go `unicode.IsLetter` on the characters above ASCII. -/
  letterTable : Char → Bool
  /-- Go `unicode.IsNumber` on the characters above ASCII. -/
  numberTable : Char → Bool
  /-- Go `strconv.ParseFloat(s, 64)` on a string that is not a plain decimal numeral: the value
  returned, and whether the error is non-nil. -/
  parseFloatOther : String → F64 × Bool
  /-- The implementation-dependent result of converting to `int64` a float64 that is not
  finite or whose integer part is out of range. -/
  int64OutOfRange : F64 → Int

/-- Go `unicode.IsLetter`. -/
def IsLetter (env : Env) (c : Char) : Bool :=
  if c.toNat < 128 then isAsciiLetter c else env.letterTable c

/-- Go `unicode.IsNumber`. -/
def IsNumber (env : Env) (c : Char) : Bool :=
  if c.toNat < 128 then isDigit c else env.numberTable c

/-- Go `strconv.ParseFloat(s, 64)`: the value and whether the error is non-nil.  A plain decimal
numeral is rounded correctly; when it rounds to infinity the error is the range error. -/
def ParseFloat (env : Env) (s : String) : F64 × Bool :=
  match plainDecimal s.data with
  | some (n, k) =>
    match F64.round ((n : ℚ) / (10 ^ k : Nat)) with
    | F64.inf neg => (F64.inf neg, true)
    | x => (x, false)
  | none => env.parseFloatOther s

/-- Go `int64(x)` for a float64 `x`: truncation toward zero when the result is in range. -/
def F64.toInt64 (env : Env) (x : F64) : Int :=
  match x with
  | F64.fin q =>
    let t := F64.truncQ q
    if -2 ^ 63 ≤ t ∧ t < 2 ^ 63 then t else wrapInt64 (env.int64OutOfRange x)
  | _ => wrapInt64 (env.int64OutOfRange x)

/-! ## internal/models -/

namespace models

/-- The Go struct `Item`. -/
structure Item where
  ShortDescription : String
  Price : String
deriving DecidableEq

/-- The Go struct `Receipt`. -/
structure Receipt where
  Retailer : String
  PurchaseDate : String
  PurchaseTime : String
  Items : List Item
  Total : String
deriving DecidableEq

end models

/-! ## internal/calculator -/

namespace calculator

open models

/-- Go `countAlphanumeric`. -/
def countAlphanumeric (env : Env) (s : String) : Int :=
  ((s.data.filter (fun char => IsLetter env char || IsNumber env char)).length : Int)

/-- Rule 2 of `CalculatePoints`: the points added for a total ending in `.00`. -/
def rule2 (total : String) : Int :=
  if HasSuffix total.data ".00".data then 50 else 0

/-- Rule 3 of `CalculatePoints`: the points added for a total that is a multiple of 0.25. -/
def rule3 (env : Env) (total : String) : Int :=
  match ParseFloat env total with
  | (t, false) =>
    if F64.eq (F64.Mod (F64.mul t (F64.fin 100)) (F64.fin 25)) (F64.fin 0) then 25 else 0
  | (_, true) => 0

/-- Rule 5 of `CalculatePoints`, one turn of the loop: the points added for one item. -/
def rule5 (env : Env) (item : Item) : Int :=
  let trimDesc := TrimSpace item.ShortDescription.data
  if byteLen trimDesc % 3 = 0 then
    match ParseFloat env item.Price with
    | (price, false) => F64.toInt64 env (F64.Ceil (F64.mul price (F64.round (2 / 10))))
    | (_, true) => 0
  else 0

/-- Rule 7 of `CalculatePoints`: the points added for an odd day of the month. -/
def rule7 (date : String) : Int :=
  match Time.ParseDate date with
  | some purchaseDate => if purchaseDate.Day % 2 = 1 then 6 else 0
  | none => 0

/-- Rule 8 of `CalculatePoints`: the points added for a time from 14:00 to before 16:00. -/
def rule8 (time : String) : Int :=
  match Time.ParseClock time with
  | some purchaseTime =>
    let startTime := (Time.ParseClock "14:00").getD Time.zero
    let endTime := (Time.ParseClock "16:00").getD Time.zero
    if !purchaseTime.Before startTime && purchaseTime.Before endTime then 10 else 0
  | none => 0

/-- Go `CalculatePoints`: `points` starts at zero and every rule adds to it in `int64`. -/
def CalculatePoints (env : Env) (receipt : Receipt) : Int :=
  let points : Int := 0
  let points := wrapInt64 (points + countAlphanumeric env receipt.Retailer)
  let points := wrapInt64 (points + rule2 receipt.Total)
  let points := wrapInt64 (points + rule3 env receipt.Total)
  let points := wrapInt64 (points + wrapInt64 ((receipt.Items.length / 2 * 5 : Nat) : Int))
  let points := receipt.Items.foldl (fun points item => wrapInt64 (points + rule5 env item)) points
  let points := wrapInt64 (points + rule7 receipt.PurchaseDate)
  let points := wrapInt64 (points + rule8 receipt.PurchaseTime)
  points

end calculator

/-! ## pkg/validator -/

namespace validator

open models

/-- The messages the validator records: one constructor for each message text or format
string of the source, carrying the arguments of the format. -/
inductive Message where
  /-- The text "Retailer cannot be empty". -/
  | retailerEmpty
  /-- The text "Retailer contains invalid characters". -/
  | retailerInvalidChars
  /-- The text "Retailer name must contain at least one alphanumeric character". -/
  | retailerNoAlphanumeric
  /-- The text "Invalid purchase date.". -/
  | invalidPurchaseDate
  /-- The text "Purchase date cannot be in the future". -/
  | purchaseDateInFuture
  /-- The format "Invalid day for month (max %d)". -/
  | invalidDayForMonth (lastDay : Int)
  /-- The text "Invalid time format (should be HH:MM in 24-hour format)". -/
  | invalidTimeFormat
  /-- The text "Purchase time cannot be in the future for today's date". -/
  | purchaseTimeInFuture
  /-- The text "Purchase time hours must be between 0 and 23". -/
  | hoursOutOfRange
  /-- The text "Purchase time minutes must be between 0 and 59". -/
  | minutesOutOfRange
  /-- The text "Receipt must include at least one item". -/
  | noItems
  /-- The text "Item short description cannot be empty". -/
  | descriptionEmpty
  /-- The text "Item short description contains invalid characters". -/
  | descriptionInvalidChars
  /-- The text "Invalid price format for item (should be X.XX)". -/
  | invalidPriceFormat
  /-- The text "Invalid price value for item". -/
  | invalidPriceValue
  /-- The text "Item price must be greater than 0". -/
  | priceNotPositive
  /-- The format "Total (%.2f) does not match sum of items (%.2f)". -/
  | totalMismatch (totalFloat sum : F64)
  /-- The text "id must not contain whitespace or be empty". -/
  | idInvalid
deriving DecidableEq

/-- The Go struct `ValidationError`. -/
structure ValidationError where
  ErrorMessage : Message
deriving DecidableEq

/-- The Go struct `Validator`. -/
structure Validator where
  errors : List ValidationError
deriving DecidableEq

/-- Go `validator.New`. -/
def New : Validator := ⟨[]⟩

/-- Go `(*Validator).HasErrors`. -/
def Validator.HasErrors (v : Validator) : Bool := decide (v.errors.length > 0)

/-- Go `(*Validator).Errors`. -/
def Validator.Errors (v : Validator) : List ValidationError := v.errors

/-- Go `(*Validator).addError`. -/
def Validator.addError (v : Validator) (message : Message) : Validator :=
  ⟨v.errors ++ [⟨message⟩]⟩

/-- The regular expression `^[\w\s\-&]+$`. -/
def validRetailer (s : List Char) : Bool :=
  !s.isEmpty &&
    s.all (fun c => isWordChar c || isReSpace c || decide (c.toNat = 45) || decide (c.toNat = 38))

/-- The regular expression `^[\w\s\-]+$`. -/
def validDesc (s : List Char) : Bool :=
  !s.isEmpty && s.all (fun c => isWordChar c || isReSpace c || decide (c.toNat = 45))

/-- The regular expression `^\d+\.\d{2}$`. -/
def validPrice (s : List Char) : Bool :=
  match s.dropWhile isDigit with
  | [c, d1, d2] => !(s.takeWhile isDigit).isEmpty && decide (c.toNat = 46) && isDigit d1 && isDigit d2
  | _ => false

/-- The regular expression `^\S+$`. -/
def validID (s : List Char) : Bool := !s.isEmpty && s.all (fun c => !isReSpace c)

/-- Go `(*Validator).validateRetailer`. -/
def Validator.validateRetailer (env : Env) (v : Validator) (retailer : String) : Validator :=
  if retailer.data = [] then v.addError Message.retailerEmpty
  else
    let v := if !validRetailer retailer.data then v.addError Message.retailerInvalidChars else v
    let hasAlphanumeric := retailer.data.any (fun char => IsLetter env char || IsNumber env char)
    if !hasAlphanumeric then v.addError Message.retailerNoAlphanumeric else v

/-- Go `(*Validator).validatePurchaseDate`. -/
def Validator.validatePurchaseDate (env : Env) (v : Validator) (date : String) : Validator :=
  match Time.ParseDate date with
  | none => v.addError Message.invalidPurchaseDate
  | some purchaseDate =>
    if purchaseDate.AfterNow env.now then v.addError Message.purchaseDateInFuture
    else
      let year := purchaseDate.Year
      let month := purchaseDate.Month
      let day := purchaseDate.Day
      let lastDay := (Time.Date year (month + 1) 0 0 0 0 Time.UTC).Day
      if day > lastDay then v.addError (Message.invalidDayForMonth lastDay) else v

/-- Go `(*Validator).validatePurchaseTime`. -/
def Validator.validatePurchaseTime (env : Env) (v : Validator) (timeStr date : String) :
    Validator :=
  match Time.ParseClock timeStr with
  | none => v.addError Message.invalidTimeFormat
  | some purchaseTime =>
    let now := env.now
    let purchaseDate := (Time.ParseDate date).getD Time.zero
    let v :=
      if !v.HasErrors then
        let purchaseDateTime := Time.Date purchaseDate.Year purchaseDate.Month purchaseDate.Day
          purchaseTime.Hour purchaseTime.Minute 0 env.zone
        if purchaseDateTime.AfterNow now then v.addError Message.purchaseTimeInFuture else v
      else v
    let hour := purchaseTime.Hour
    let minute := purchaseTime.Minute
    let v := if hour < 0 ∨ hour > 23 then v.addError Message.hoursOutOfRange else v
    if minute < 0 ∨ minute > 59 then v.addError Message.minutesOutOfRange else v

/-- Go `(*Validator).validatePrice`; the argument `field` is not used by the source either. -/
def Validator.validatePrice (env : Env) (v : Validator) (price : String) (_field : String) :
    Validator :=
  if !validPrice price.data then v.addError Message.invalidPriceFormat
  else
    match ParseFloat env price with
    | (_, true) => v.addError Message.invalidPriceValue
    | (priceFloat, false) =>
      if F64.le priceFloat (F64.fin 0) then v.addError Message.priceNotPositive else v

/-- Go `(*Validator).validateItems`. -/
def Validator.validateItems (env : Env) (v : Validator) (items : List Item) : Validator :=
  if items.length = 0 then v.addError Message.noItems
  else
    items.enum.foldl (fun v p =>
      let i := p.1
      let item := p.2
      let v := if TrimSpace item.ShortDescription.data = [] then
        v.addError Message.descriptionEmpty else v
      let v := if !validDesc item.ShortDescription.data then
        v.addError Message.descriptionInvalidChars else v
      v.validatePrice env item.Price ("items[" ++ toString i ++ "].price")) v

/-- Go `(*Validator).validateTotal`. -/
def Validator.validateTotal (env : Env) (v : Validator) (total : String) : Validator :=
  v.validatePrice env total "total"

/-- Go `(*Validator).validateTotalMatchesItems`. -/
def Validator.validateTotalMatchesItems (env : Env) (v : Validator) (total : String)
    (items : List Item) : Validator :=
  let totalFloat := (ParseFloat env total).1
  let sum := items.foldl (fun sum item => F64.add sum (ParseFloat env item.Price).1) (F64.fin 0)
  let sum := F64.div (F64.Round (F64.mul sum (F64.fin 100))) (F64.fin 100)
  let totalFloat := F64.div (F64.Round (F64.mul totalFloat (F64.fin 100))) (F64.fin 100)
  if !F64.eq sum totalFloat then v.addError (Message.totalMismatch totalFloat sum) else v

/-- Go `(*Validator).ValidateReceipt`: the validator after the call. -/
def Validator.runReceipt (env : Env) (v : Validator) (receipt : Receipt) : Validator :=
  let v := v.validateRetailer env receipt.Retailer
  let v := v.validatePurchaseDate env receipt.PurchaseDate
  let v := v.validatePurchaseTime env receipt.PurchaseTime receipt.PurchaseDate
  let v := v.validateItems env receipt.Items
  let v := v.validateTotal env receipt.Total
  v.validateTotalMatchesItems env receipt.Total receipt.Items

/-- Go `(*Validator).ValidateReceipt`: the result of the call. -/
def Validator.ValidateReceipt (env : Env) (v : Validator) (receipt : Receipt) : Bool :=
  !(v.runReceipt env receipt).HasErrors

/-- Go `(*Validator).ValidateReceiptID`: the result and the validator after the call. -/
def Validator.ValidateReceiptID (v : Validator) (id : String) : Bool × Validator :=
  if !validID id.data then (false, v.addError Message.idInvalid) else (true, v)

end validator

/-! ## internal/store -/

namespace store

open models

/-- The Go struct `MemoryStore`: the two maps (the lock orders the calls, which are taken
here one after another). -/
structure MemoryStore where
  receipts : String → Option Receipt
  points : String → Option Int

/-- Go `NewMemoryStore`. -/
def NewMemoryStore : MemoryStore := ⟨fun _ => none, fun _ => none⟩

/-- Go `(*MemoryStore).SaveReceipt`. -/
def MemoryStore.SaveReceipt (s : MemoryStore) (id : String) (receipt : Receipt) (points : Int) :
    MemoryStore :=
  { receipts := fun k => if k = id then some receipt else s.receipts k
    points := fun k => if k = id then some points else s.points k }

/-- Go `(*MemoryStore).GetPoints`: the points and whether the id is a key of the map. -/
def MemoryStore.GetPoints (s : MemoryStore) (id : String) : Int × Bool :=
  match s.points id with
  | some points => (points, true)
  | none => (0, false)

end store

/-! ## The rules in exact arithmetic -/

namespace F64

/-- The integer `math.Ceil(x)` denotes, without the limits of `int64`. -/
def ceilUnbounded : F64 → Int
  | fin q => Int.ceil q
  | _ => 0

end F64

namespace calculator

open models

/-- Rule 5 for one item, without the limits of `int64`: as `rule5`, but the rounded-up value is
kept as the integer it is instead of being converted to `int64`. -/
def rule5Unbounded (env : Env) (item : Item) : Int :=
  let trimDesc := TrimSpace item.ShortDescription.data
  if byteLen trimDesc % 3 = 0 then
    match ParseFloat env item.Price with
    | (price, false) => F64.ceilUnbounded (F64.mul price (F64.round (2 / 10)))
    | (_, true) => 0
  else 0

/-- The points of `CalculatePoints` added as unbounded integers: the contributions the code
computes, summed without wrapping around. -/
def pointsUnbounded (env : Env) (receipt : Receipt) : Int :=
  countAlphanumeric env receipt.Retailer + rule2 receipt.Total + rule3 env receipt.Total
    + ((receipt.Items.length / 2 * 5 : Nat) : Int)
    + (receipt.Items.map (rule5Unbounded env)).sum
    + rule7 receipt.PurchaseDate + rule8 receipt.PurchaseTime

end calculator

namespace spec

open models

/-- The amount a money string `ddd.dd` writes, in cents: its digits read as one number. -/
def cents (s : String) : Nat := decNat (s.data.filter isDigit)

/-- R1: one point for every letter or digit of the retailer. -/
def R1 (retailer : String) : Int :=
  ((retailer.data.filter (fun c => isAsciiLetter c || isDigit c)).length : Int)

/-- R2: 50 points if the total string ends in ".00". -/
def R2 (total : String) : Int := if HasSuffix total.data ".00".data then 50 else 0

/-- R3: 25 points if the total in cents is a multiple of 25. -/
def R3 (total : String) : Int := if cents total % 25 = 0 then 25 else 0

/-- R4: 5 points for every two items. -/
def R4 (items : List Item) : Int := ((5 * (items.length / 2) : Nat) : Int)

/-- R5 for one item: the price in cents over 500, rounded up, if the length of the trimmed
short description is a multiple of 3. -/
def R5item (item : Item) : Int :=
  if (TrimSpace item.ShortDescription.data).length % 3 = 0 then
    (((cents item.Price + 499) / 500 : Nat) : Int)
  else 0

/-- R5: the sum over the items. -/
def R5 (items : List Item) : Int := (items.map R5item).sum

/-- R7: 6 points if the day of the month, the last two characters of `YYYY-MM-DD`, is odd. -/
def R7 (date : String) : Int := if decNat (date.data.drop 8) % 2 = 1 then 6 else 0

/-- The hour a time `HH:MM` (or `H:MM`) writes: the digits before the colon. -/
def hour (time : String) : Nat := decNat (time.data.takeWhile isDigit)

/-- R8: 10 points if the time is from 14:00 to before 16:00, that is, the hour is 14 or 15. -/
def R8 (time : String) : Int := if hour time = 14 ∨ hour time = 15 then 10 else 0

/-- The sum of the rule contributions R1 to R8 (R6 contributes nothing). -/
def points (receipt : Receipt) : Int :=
  R1 receipt.Retailer + R2 receipt.Total + R3 receipt.Total + R4 receipt.Items
    + R5 receipt.Items + R7 receipt.PurchaseDate + R8 receipt.PurchaseTime

end spec

/-! ## Sample data -/

/-- A sample environment: the clock reads 2023-11-14 22:13:20 UTC, the zone is UTC, no
character above ASCII is a letter or a number, other float syntaxes are errors, and an
out-of-range conversion gives the least `int64` (as on amd64). -/
def sampleEnv : Env where
  now := 1700000000
  zone := Time.UTC
  letterTable := fun _ => false
  numberTable := fun _ => false
  parseFloatOther := fun _ => (F64.fin 0, true)
  int64OutOfRange := fun _ => -9223372036854775808

/-- The canonical receipt of the challenge (Scenario A). -/
def receiptA : models.Receipt where
  Retailer := "Target"
  PurchaseDate := "2022-01-01"
  PurchaseTime := "13:01"
  Items := [⟨"Mountain Dew 12PK", "6.49"⟩, ⟨"Emils Cheese Pizza", "12.25"⟩,
    ⟨"Knorr Creamy Chicken", "1.26"⟩, ⟨"Doritos Nacho Cheese", "3.35"⟩,
    ⟨"   Klarbrunn 12-PK 12 FL OZ  ", "12.00"⟩]
  Total := "35.35"


/-- A receipt with an empty retailer and a purchase date after the sample clock. -/
def receiptEmptyFuture : models.Receipt where
  Retailer := ""
  PurchaseDate := "2030-01-01"
  PurchaseTime := "13:01"
  Items := [⟨"Gatorade", "2.25"⟩]
  Total := "2.25"

/-- The store reached from a fresh one by a sequence of `SaveReceipt` calls, each given by its
id, receipt and points. -/
def store.afterSaves (ops : List (String × models.Receipt × Int)) : store.MemoryStore :=
  ops.foldl (fun s op => s.SaveReceipt op.1 op.2.1 op.2.2) store.NewMemoryStore

/-- Whether Go defines `int64(x)`: `x` is finite and its integer part is in the `int64` range. -/
def F64.fitsInt64 : F64 → Bool
  | F64.fin q => decide (-2 ^ 63 ≤ F64.truncQ q ∧ F64.truncQ q < 2 ^ 63)
  | _ => false

/-- Whether `CalculatePoints` reads nothing of the environment on this receipt: the retailer is
ASCII, the total and the prices are plain decimal numerals, and every `math.Ceil(price * 0.2)`
converts to `int64` within range. -/
def calculator.envFree (r : models.Receipt) : Bool :=
  r.Retailer.data.all (fun c => decide (c.toNat < 128)) &&
    (plainDecimal r.Total.data).isSome &&
    r.Items.all (fun item => (plainDecimal item.Price.data).isSome &&
      F64.fitsInt64 (F64.Ceil (F64.mul (ParseFloat sampleEnv item.Price).1 (F64.round (2 / 10)))))

/-- Scenario B: four Gatorade at 2.25, total 9.00, bought on 2022-03-20 at 14:33. -/
def receiptB : models.Receipt where
  Retailer := "M&M Corner Market"
  PurchaseDate := "2022-03-20"
  PurchaseTime := "14:33"
  Items := [⟨"Gatorade", "2.25"⟩, ⟨"Gatorade", "2.25"⟩, ⟨"Gatorade", "2.25"⟩,
    ⟨"Gatorade", "2.25"⟩]
  Total := "9.00"

/-- A receipt with one item priced at a hundred quadrillion and one cent, more digits than a
float64 holds. -/
def receiptLargePrice : models.Receipt where
  Retailer := "abc"
  PurchaseDate := "2022-01-02"
  PurchaseTime := "13:01"
  Items := [⟨"abc", "100000000000000000.01"⟩]
  Total := "100000000000000000.01"

/-- A receipt with two items priced at `5 * 2^62` each, and their sum `5 * 2^63` as total. -/
def receiptOverflow : models.Receipt where
  Retailer := "abc"
  PurchaseDate := "2022-01-02"
  PurchaseTime := "13:01"
  Items := [⟨"abc", "23058430092136939520.00"⟩, ⟨"abc", "23058430092136939520.00"⟩]
  Total := "46116860184273879040.00"

/-- A total of a hundred quintillion and thirteen cents. -/
def totalLarge : String := "100000000000000000000.13"

/-- A receipt bought at 16:00 whose points come to `2^63 - 10`: the first item earns
`2^63 - 1024` points, the second 931, and retailer, total and item count 83. -/
def receiptBoundary : models.Receipt where
  Retailer := "abc"
  PurchaseDate := "2022-01-02"
  PurchaseTime := "16:00"
  Items := [⟨"abc", "46116860184273870848.00"⟩, ⟨"abc", "4655.00"⟩]
  Total := "46116860184273875503.00"

/-- The character of the last decimal digit of `n`. -/
def digitChar (n : Nat) : Char := Char.ofNat (48 + n % 10)

/-- A date written `YYYY-MM-DD`, each field padded with zeros. -/
def spec.dateString (y m d : Nat) : String :=
  String.mk [digitChar (y / 1000), digitChar (y / 100), digitChar (y / 10), digitChar y,
    Char.ofNat 45, digitChar (m / 10), digitChar m, Char.ofNat 45, digitChar (d / 10),
    digitChar d]

/-- The sample environment with a later clock, 2027-01-15 08:00:00 UTC. -/
def laterEnv : Env := { sampleEnv with now := 1800000000 }

/-- A receipt bought at 23:59 on the day of the sample clock, which reads 22:13:20, with an
empty retailer. -/
def receiptLateEmpty : models.Receipt where
  Retailer := ""
  PurchaseDate := "2023-11-14"
  PurchaseTime := "23:59"
  Items := [⟨"Gatorade", "2.25"⟩]
  Total := "2.25"

/-- The receipt `receiptLateEmpty` with the retailer filled in. -/
def receiptLate : models.Receipt := { receiptLateEmpty with Retailer := "Target" }

/-- The receipt `receiptLateEmpty` with a retailer that holds a character outside the
pattern. -/
def receiptLateInvalid : models.Receipt := { receiptLateEmpty with Retailer := "A+B" }

namespace spec

/-- The summed item prices in cents. -/
def itemCents (items : List models.Item) : Nat := (items.map (fun item => cents item.Price)).sum

/-- The number a plain decimal numeral writes, exactly; zero for any other string. -/
def decimalValue (s : String) : ℚ :=
  match plainDecimal s.data with
  | some (n, k) => (n : ℚ) / ((10 ^ k : Nat) : ℚ)
  | none => 0

/-- The summed item prices, exactly. -/
def itemSum (items : List models.Item) : ℚ := (items.map (fun item => decimalValue item.Price)).sum

/-- Rounding to 2 decimal places, halves away from zero. -/
def round2 (q : ℚ) : ℚ :=
  if 0 ≤ q then (Int.floor (q * 100 + 1 / 2) : ℚ) / 100
  else -((Int.floor (-q * 100 + 1 / 2) : ℚ) / 100)

end spec

/-- A receipt whose single price exceeds its total by one cent, at a hundred quadrillion. -/
def receiptAbsorbed : models.Receipt where
  Retailer := "abc"
  PurchaseDate := "2022-01-02"
  PurchaseTime := "13:01"
  Items := [⟨"abc", "100000000000000000.01"⟩]
  Total := "100000000000000000.00"

/-- A price of 1 followed by 309 zeros and no cents: more than a float64 holds. -/
def priceHuge : String :=
  String.mk (Char.ofNat 49 :: List.replicate 309 (Char.ofNat 48)
    ++ [Char.ofNat 46, Char.ofNat 48, Char.ofNat 48])

/-! ## What the validator checks -/

/-- The facts `validatePrice` checks of a price string. -/
def validator.PriceOk (env : Env) (price : String) : Prop :=
  validator.validPrice price.data = true ∧
    ∃ p : F64, ParseFloat env price = (p, false) ∧ F64.le p (F64.fin 0) = false

/-- The facts `validateItems` checks of an item. -/
def validator.ItemOk (env : Env) (item : models.Item) : Prop :=
  TrimSpace item.ShortDescription.data ≠ [] ∧ validator.validDesc item.ShortDescription.data = true ∧
    validator.PriceOk env item.Price


/-! # Theorems -/

/-! ## Rounding to binary64 -/

theorem pow2_eq (z : Int) : pow2 z = (2 : ℚ) ^ z := by
  unfold pow2
  split
  · rename_i h
    have : z = (z.toNat : Int) := (Int.toNat_of_nonneg h).symm
    conv_rhs => rw [this]
    rw [zpow_natCast]
    push_cast
    rfl
  · rename_i h
    have h2 : (-z) = ((-z).toNat : Int) := (Int.toNat_of_nonneg (by omega)).symm
    have : z = -((-z).toNat : Int) := by omega
    conv_rhs => rw [this]
    rw [zpow_neg, zpow_natCast]
    push_cast
    rw [one_div]

theorem pow2_pos (z : Int) : 0 < pow2 z := by
  rw [pow2_eq]; positivity

theorem pow2_add (a b : Int) : pow2 (a + b) = pow2 a * pow2 b := by
  simp only [pow2_eq]
  exact zpow_add₀ (by norm_num) a b

theorem pow2_sub (a b : Int) : pow2 (a - b) = pow2 a / pow2 b := by
  simp only [pow2_eq]
  exact zpow_sub₀ (by norm_num) a b

theorem pow2_le_iff (a b : Int) : pow2 a ≤ pow2 b ↔ a ≤ b := by
  simp only [pow2_eq]
  exact zpow_le_zpow_iff_right₀ (by norm_num)

theorem pow2_lt_iff (a b : Int) : pow2 a < pow2 b ↔ a < b := by
  simp only [pow2_eq]
  exact zpow_lt_zpow_iff_right₀ (by norm_num)

theorem pow2_natCast (n : Nat) : pow2 (n : Int) = (2 : ℚ) ^ n := by
  rw [pow2_eq, zpow_natCast]

theorem log2Fuel_spec (fuel n : Nat) (h : n ≤ fuel) (hn : n ≠ 0) :
    2 ^ log2Fuel fuel n ≤ n ∧ n < 2 ^ (log2Fuel fuel n + 1) := by
  induction fuel generalizing n with
  | zero => omega
  | succ fuel ih =>
    unfold log2Fuel
    split
    · rename_i h2
      simp
      omega
    · rename_i h2
      have := ih (n / 2) (by omega) (by omega)
      obtain ⟨h3, h4⟩ := this
      constructor
      · rw [pow_succ]; omega
      · rw [pow_succ]; omega

theorem natLog2_spec (n : Nat) (hn : n ≠ 0) :
    2 ^ natLog2 n ≤ n ∧ n < 2 ^ (natLog2 n + 1) :=
  log2Fuel_spec n n (le_refl n) hn

theorem ilog2_spec (a : ℚ) (ha : 0 < a) : pow2 (ilog2 a) ≤ a ∧ a < pow2 (ilog2 a + 1) := by
  have hnum : 0 < a.num := Rat.num_pos.mpr ha
  have hn0 : a.num.natAbs ≠ 0 := by omega
  have hd0 : a.den ≠ 0 := a.den_nz
  obtain ⟨n1, n2⟩ := natLog2_spec _ hn0
  obtain ⟨d1, d2⟩ := natLog2_spec _ hd0
  have hcast : (a.num.natAbs : ℚ) = (a.num : ℚ) := by
    have h : ((a.num.natAbs : Int)) = a.num := Int.natAbs_of_nonneg hnum.le
    calc (a.num.natAbs : ℚ) = ((a.num.natAbs : Int) : ℚ) := (Int.cast_natCast _).symm
      _ = (a.num : ℚ) := by rw [h]
  have ha_eq : a = (a.num.natAbs : ℚ) / (a.den : ℚ) := by
    rw [hcast]; exact (Rat.num_div_den a).symm
  have hdpos : (0 : ℚ) < a.den := by exact_mod_cast Nat.pos_of_ne_zero hd0
  have N1 : (2 : ℚ) ^ natLog2 a.num.natAbs ≤ a.num.natAbs := by exact_mod_cast n1
  have N2 : (a.num.natAbs : ℚ) < 2 ^ (natLog2 a.num.natAbs + 1) := by exact_mod_cast n2
  have D1 : (2 : ℚ) ^ natLog2 a.den ≤ a.den := by exact_mod_cast d1
  have D2 : (a.den : ℚ) < 2 ^ (natLog2 a.den + 1) := by exact_mod_cast d2
  set ln := natLog2 a.num.natAbs with hln
  set ld := natLog2 a.den with hld
  have hk : ilog2 a = if pow2 ((ln : Int) - (ld : Int)) ≤ a then (ln : Int) - ld
      else (ln : Int) - ld - 1 := rfl
  have up : a < pow2 ((ln : Int) - ld + 1) := by
    have e : pow2 ((ln : Int) - ld + 1) = (2 : ℚ) ^ (ln + 1) / 2 ^ ld := by
      have : (ln : Int) - ld + 1 = ((ln + 1 : Nat) : Int) - (ld : Nat) := by push_cast; ring
      rw [this, pow2_sub, pow2_natCast, pow2_natCast]
    rw [e, ha_eq, div_lt_div_iff₀ hdpos (by positivity)]
    calc (a.num.natAbs : ℚ) * 2 ^ ld ≤ a.num.natAbs * a.den := by
          apply mul_le_mul_of_nonneg_left D1; positivity
      _ < 2 ^ (ln + 1) * a.den := by
          apply mul_lt_mul_of_pos_right N2 hdpos
  have lo : pow2 ((ln : Int) - ld - 1) ≤ a := by
    have e : pow2 ((ln : Int) - ld - 1) = (2 : ℚ) ^ ln / 2 ^ (ld + 1) := by
      have : (ln : Int) - ld - 1 = ((ln : Nat) : Int) - ((ld + 1 : Nat) : Int) := by
        push_cast; ring
      rw [this, pow2_sub, pow2_natCast, pow2_natCast]
    rw [e, ha_eq, div_le_div_iff₀ (by positivity) hdpos]
    calc (2 : ℚ) ^ ln * a.den ≤ a.num.natAbs * a.den := by
          apply mul_le_mul_of_nonneg_right N1 hdpos.le
      _ ≤ a.num.natAbs * 2 ^ (ld + 1) := by
          apply mul_le_mul_of_nonneg_left D2.le; positivity
  rw [hk]
  split
  · rename_i h; exact ⟨h, up⟩
  · rename_i h
    refine ⟨lo, ?_⟩
    have : (ln : Int) - ld - 1 + 1 = (ln : Int) - ld := by ring
    rw [this]
    exact not_le.mp h

theorem ilog2_unique (a : ℚ) (e : Int) (h1 : pow2 e ≤ a) (h2 : a < pow2 (e + 1)) :
    ilog2 a = e := by
  have ha : 0 < a := lt_of_lt_of_le (pow2_pos e) h1
  obtain ⟨s1, s2⟩ := ilog2_spec a ha
  have a1 : ilog2 a < e + 1 := (pow2_lt_iff _ _).mp (lt_of_le_of_lt s1 h2)
  have a2 : e < ilog2 a + 1 := (pow2_lt_iff _ _).mp (lt_of_le_of_lt h1 s2)
  omega

theorem roundHalfEven_err (x : ℚ) : |(roundHalfEven x : ℚ) - x| ≤ 1 / 2 := by
  have h1 : (Int.floor x : ℚ) ≤ x := Int.floor_le x
  have h2 : x < (Int.floor x : ℚ) + 1 := Int.lt_floor_add_one x
  unfold roundHalfEven
  simp only
  rw [abs_le]
  split_ifs with c1 c2 c3
  · constructor <;> linarith
  · push_cast; constructor <;> linarith
  · have : x - (Int.floor x : ℚ) = 1 / 2 := le_antisymm (not_lt.mp c2) (not_lt.mp c1)
    constructor <;> linarith
  · have : x - (Int.floor x : ℚ) = 1 / 2 := le_antisymm (not_lt.mp c2) (not_lt.mp c1)
    push_cast; constructor <;> linarith

theorem roundHalfEven_of_near (M : Int) (x : ℚ) (h0 : (M : ℚ) ≤ x) (h1 : x < M + 1 / 2) :
    roundHalfEven x = M := by
  have hf : Int.floor x = M := by
    rw [Int.floor_eq_iff]; constructor <;> linarith
  unfold roundHalfEven
  simp only [hf]
  have : x - (M : ℚ) < 1 / 2 := by linarith
  rw [if_pos this]

theorem roundHalfEven_intCast (M : Int) : roundHalfEven (M : ℚ) = M :=
  roundHalfEven_of_near M _ (le_refl _) (by linarith)

namespace F64

theorem roundMag_eq (a : ℚ) (e : Int) (h1 : pow2 e ≤ a) (h2 : a < pow2 (e + 1))
    (he : -1022 ≤ e) :
    roundMag a = (roundHalfEven (a / pow2 (e - 52)) : ℚ) * pow2 (e - 52) := by
  unfold roundMag
  simp only [ilog2_unique a e h1 h2, max_eq_left he]

theorem ilog2_ge_of_normal (a : ℚ) (h : pow2 (-1022) ≤ a) : -1022 ≤ ilog2 a := by
  have ha : 0 < a := lt_of_lt_of_le (pow2_pos _) h
  obtain ⟨_, s2⟩ := ilog2_spec a ha
  have : (-1022 : Int) < ilog2 a + 1 := (pow2_lt_iff _ _).mp (lt_of_le_of_lt h s2)
  omega

theorem roundMag_near (a : ℚ) (e M : Int) (h1 : pow2 e ≤ a) (h2 : a < pow2 (e + 1))
    (he : -1022 ≤ e) (hM0 : (M : ℚ) * pow2 (e - 52) ≤ a)
    (hM1 : a < ((M : ℚ) + 1 / 2) * pow2 (e - 52)) :
    roundMag a = (M : ℚ) * pow2 (e - 52) := by
  have hu := pow2_pos (e - 52)
  rw [roundMag_eq a e h1 h2 he, roundHalfEven_of_near M]
  · exact (le_div_iff₀ hu).mpr hM0
  · exact (div_lt_iff₀ hu).mpr hM1

theorem roundMag_err (a : ℚ) (h : pow2 (-1022) ≤ a) : |roundMag a - a| ≤ a / 2 ^ 53 := by
  have ha : 0 < a := lt_of_lt_of_le (pow2_pos _) h
  obtain ⟨s1, s2⟩ := ilog2_spec a ha
  have he := ilog2_ge_of_normal a h
  have hu := pow2_pos (ilog2 a - 52)
  rw [roundMag_eq a _ s1 s2 he]
  have herr := roundHalfEven_err (a / pow2 (ilog2 a - 52))
  have e1 : (roundHalfEven (a / pow2 (ilog2 a - 52)) : ℚ) * pow2 (ilog2 a - 52) - a
      = ((roundHalfEven (a / pow2 (ilog2 a - 52)) : ℚ) - a / pow2 (ilog2 a - 52))
        * pow2 (ilog2 a - 52) := by
    field_simp
  rw [e1, abs_mul, abs_of_pos hu]
  have e2 : pow2 (ilog2 a - 52) = pow2 (ilog2 a) / 2 ^ 52 := by
    rw [pow2_sub]
    congr 1
  calc |(roundHalfEven (a / pow2 (ilog2 a - 52)) : ℚ) - a / pow2 (ilog2 a - 52)|
        * pow2 (ilog2 a - 52) ≤ 1 / 2 * pow2 (ilog2 a - 52) :=
        mul_le_mul_of_nonneg_right herr hu.le
    _ = pow2 (ilog2 a) / 2 ^ 53 := by rw [e2]; ring
    _ ≤ a / 2 ^ 53 := by
        apply div_le_div_of_nonneg_right s1; positivity

theorem roundMag_exact (n : Nat) (j : Int) (hn : n < 2 ^ 53)
    (ha : pow2 (-1022) ≤ (n : ℚ) * pow2 j) : roundMag ((n : ℚ) * pow2 j) = (n : ℚ) * pow2 j := by
  have hpos : 0 < (n : ℚ) * pow2 j := lt_of_lt_of_le (pow2_pos _) ha
  obtain ⟨s1, s2⟩ := ilog2_spec _ hpos
  have he := ilog2_ge_of_normal _ ha
  set e := ilog2 ((n : ℚ) * pow2 j) with he_def
  have hlt : (n : ℚ) * pow2 j < pow2 (53 + j) := by
    rw [pow2_add]
    apply mul_lt_mul_of_pos_right _ (pow2_pos j)
    rw [show (53 : Int) = ((53 : Nat) : Int) from rfl, pow2_natCast]
    exact_mod_cast hn
  have het : e < 53 + j := (pow2_lt_iff _ _).mp (lt_of_le_of_lt s1 hlt)
  obtain ⟨t, ht⟩ : ∃ t : Nat, j - (e - 52) = (t : Int) := ⟨(j - (e - 52)).toNat, by omega⟩
  have hdiv : (n : ℚ) * pow2 j / pow2 (e - 52) = (((n * 2 ^ t : Nat) : Int) : ℚ) := by
    rw [mul_div_assoc, ← pow2_sub, ht, pow2_natCast]
    push_cast
    ring
  rw [roundMag_eq _ e s1 s2 he, hdiv, roundHalfEven_intCast, ← hdiv]
  have hu := pow2_pos (e - 52)
  field_simp

theorem roundHalfEven_nonneg (x : ℚ) (hx : 0 ≤ x) : 0 ≤ roundHalfEven x := by
  have hf : 0 ≤ Int.floor x := Int.floor_nonneg.mpr hx
  unfold roundHalfEven
  simp only
  split_ifs <;> omega

theorem roundMag_nonneg (a : ℚ) (ha : 0 ≤ a) : 0 ≤ roundMag a := by
  unfold roundMag
  simp only
  have hu := pow2_pos (max (ilog2 a) (-1022) - 52)
  have : 0 ≤ roundHalfEven (a / pow2 (max (ilog2 a) (-1022) - 52)) :=
    roundHalfEven_nonneg _ (div_nonneg ha hu.le)
  have h2 : (0 : ℚ) ≤ (roundHalfEven (a / pow2 (max (ilog2 a) (-1022) - 52)) : ℚ) := by
    exact_mod_cast this
  exact mul_nonneg h2 hu.le

theorem pow2_1024 : pow2 1024 = 2 * pow2 1023 := by
  rw [show (1024 : Int) = 1 + 1023 by norm_num, pow2_add]
  congr 1

theorem round_of_normal (q : ℚ) (h0 : pow2 (-1022) ≤ q) (h1 : q < pow2 1023) :
    round q = fin (roundMag q) := by
  have hq : 0 < q := lt_of_lt_of_le (pow2_pos _) h0
  have herr := roundMag_err q h0
  have hb : roundMag q < pow2 1024 := by
    have := (abs_le.mp herr).2
    have h3 : q / 2 ^ 53 ≤ q := div_le_self hq.le (by norm_num)
    rw [pow2_1024]
    linarith
  unfold round
  rw [if_neg hq.ne', abs_of_pos hq]
  simp only
  rw [if_neg (not_le.mpr hb), if_neg (not_lt.mpr hq.le)]

theorem roundMag_pos (q : ℚ) (h0 : pow2 (-1022) ≤ q) : 0 < roundMag q := by
  have hq : 0 < q := lt_of_lt_of_le (pow2_pos _) h0
  have herr := roundMag_err q h0
  have := (abs_le.mp herr).1
  have h3 : q / 2 ^ 53 < q := div_lt_self hq (by norm_num)
  linarith

theorem truncQ_intCast (t : Int) : truncQ (t : ℚ) = t := by
  unfold truncQ
  split <;> simp

theorem mod_eq_zero_iff (r b : ℚ) (hb : b ≠ 0) :
    r - b * (truncQ (r / b) : ℚ) = 0 ↔ ∃ t : Int, r = b * t := by
  constructor
  · intro h
    exact ⟨truncQ (r / b), by linarith⟩
  · rintro ⟨t, rfl⟩
    rw [mul_div_cancel_left₀ _ hb, truncQ_intCast]
    ring

theorem pow2_neg1022_le : pow2 (-1022) ≤ 1 / 200 := by decide!

theorem lt_pow2_1023 : (10 : ℚ) ^ 16 < pow2 1023 := by decide!

theorem pow2_zero : pow2 0 = 1 := by decide!

theorem pow2_neg2 : pow2 (-2) = 1 / 4 := by decide!

/-- The float64 nearest to `c/100`, for a number of cents `0 < c < 10^15`. -/
theorem cents_float (c : Nat) (h0 : 0 < c) (h1 : c < 10 ^ 15) :
    round ((c : ℚ) / 100) = fin (roundMag ((c : ℚ) / 100)) ∧
    |roundMag ((c : ℚ) / 100) - (c : ℚ) / 100| ≤ (c : ℚ) / 100 / 2 ^ 53 ∧
    pow2 (-1022) ≤ (c : ℚ) / 100 := by
  have hc0 : (1 : ℚ) ≤ c := by exact_mod_cast h0
  have hc1 : (c : ℚ) < 10 ^ 15 := by exact_mod_cast h1
  have hn : pow2 (-1022) ≤ (c : ℚ) / 100 := by
    have := pow2_neg1022_le
    linarith
  have hlt : (c : ℚ) / 100 < pow2 1023 := by
    have := lt_pow2_1023
    have : (c : ℚ) / 100 < 10 ^ 16 := by linarith
    linarith
  exact ⟨round_of_normal _ hn hlt, roundMag_err _ hn, hn⟩

theorem cents_float_exact (k : Nat) (h0 : 0 < k) (h1 : k < 2 ^ 53) :
    roundMag ((k : ℚ) / 4) = (k : ℚ) / 4 := by
  have hk0 : (1 : ℚ) ≤ k := by exact_mod_cast h0
  have e : (k : ℚ) / 4 = (k : ℚ) * pow2 (-2) := by rw [pow2_neg2]; ring
  rw [e]
  apply roundMag_exact k (-2) h1
  rw [pow2_neg2]
  have := pow2_neg1022_le
  linarith

theorem nat_float_exact (n : Nat) (h0 : 0 < n) (h1 : n < 2 ^ 53) :
    roundMag (n : ℚ) = (n : ℚ) := by
  have hk0 : (1 : ℚ) ≤ n := by exact_mod_cast h0
  have e : (n : ℚ) = (n : ℚ) * pow2 0 := by rw [pow2_zero]; ring
  rw [e]
  apply roundMag_exact n 0 h1
  rw [pow2_zero]
  have := pow2_neg1022_le
  linarith

/-- Rule 3 on the float64 of `c` cents, `c < 10^15`: `math.Mod(total*100, 25) == 0` exactly when
`c` is a multiple of 25. -/
theorem mod25_cents (c : Nat) (h1 : c < 10 ^ 15) :
    ∃ x : ℚ, round ((c : ℚ) / 100) = fin x ∧ 0 ≤ x ∧ (0 < c → 0 < x) ∧
      (F64.eq (Mod (mul (fin x) (fin 100)) (fin 25)) (fin 0) = true ↔ c % 25 = 0) := by
  rcases Nat.eq_zero_or_pos c with hz | h0
  · subst hz
    refine ⟨0, by simp [round], le_refl _, fun h => absurd h (lt_irrefl _), ?_⟩
    simp [mul, round, Mod, F64.eq, truncQ]
  · obtain ⟨hr, herr, hn⟩ := cents_float c h0 h1
    have hc0 : (1 : ℚ) ≤ c := by exact_mod_cast h0
    have hc1 : (c : ℚ) < 10 ^ 15 := by exact_mod_cast h1
    set a : ℚ := (c : ℚ) / 100 with ha
    set x : ℚ := roundMag a with hx
    have hxpos : 0 < x := roundMag_pos a hn
    obtain ⟨hx1, hx2⟩ := abs_le.mp herr
    have hu : (0 : ℚ) < 1 / 2 ^ 53 := by positivity
    -- the product
    have hyn : pow2 (-1022) ≤ x * 100 := by
      have := pow2_neg1022_le
      have h3 : a / 2 ^ 53 ≤ a / 2 := by
        apply div_le_div_of_nonneg_left <;> norm_num
        linarith
      nlinarith
    have hylt : x * 100 < pow2 1023 := by
      have := lt_pow2_1023
      have h3 : a / 2 ^ 53 ≤ a := div_le_self (by linarith) (by norm_num)
      nlinarith
    have hmul : mul (fin x) (fin 100) = fin (roundMag (x * 100)) := round_of_normal _ hyn hylt
    have herr2 := roundMag_err _ hyn
    obtain ⟨hr1, hr2⟩ := abs_le.mp herr2
    refine ⟨x, hr, hxpos.le, fun _ => hxpos, ?_⟩
    rw [hmul]
    have hmod : Mod (fin (roundMag (x * 100))) (fin 25)
        = fin (roundMag (x * 100) - 25 * (truncQ (roundMag (x * 100) / 25) : ℚ)) := by
      simp [Mod]
    rw [hmod]
    have heq : F64.eq (fin (roundMag (x * 100) - 25 * (truncQ (roundMag (x * 100) / 25) : ℚ)))
        (fin 0) = true ↔ ∃ t : Int, roundMag (x * 100) = 25 * t := by
      rw [← mod_eq_zero_iff _ _ (by norm_num : (25 : ℚ) ≠ 0)]
      simp [F64.eq]
    rw [heq]
    constructor
    · rintro ⟨t, ht⟩
      -- |r - c| < 1
      have hclose : |roundMag (x * 100) - (c : ℚ)| < 1 := by
        have hc : (c : ℚ) = a * 100 := by rw [ha]; ring
        have hsmall : a / 2 ^ 53 * 100 < 1 / 4 := by
          rw [ha]; norm_num; linarith
        have hx3 : x * 100 / 2 ^ 53 < 1 / 2 := by
          have : x * 100 ≤ a * 100 + a / 2 ^ 53 * 100 := by linarith
          have h5 : x * 100 / 2 ^ 53 ≤ (a * 100 + a / 2 ^ 53 * 100) / 2 ^ 53 :=
            div_le_div_of_nonneg_right this (by positivity)
          have h6 : (a * 100 + a / 2 ^ 53 * 100) / 2 ^ 53 < 1 / 2 := by
            rw [ha]; norm_num; linarith
          linarith
        rw [abs_lt]
        constructor <;> linarith
      rw [ht] at hclose
      have hint : |((25 * t - (c : Int) : Int) : ℚ)| < 1 := by
        push_cast; exact hclose
      have hint2 : |25 * t - (c : Int)| < 1 := by exact_mod_cast hint
      have : 25 * t - (c : Int) = 0 := Int.abs_lt_one_iff.mp hint2
      omega
    · intro hmod25
      obtain ⟨k, hk⟩ : ∃ k, c = 25 * k := ⟨c / 25, by omega⟩
      have hk0 : 0 < k := by omega
      have hk1 : k < 2 ^ 53 := by
        have : (10 : Nat) ^ 15 < 2 ^ 53 := by norm_num
        omega
      have hc53 : c < 2 ^ 53 := by
        have : (10 : Nat) ^ 15 < 2 ^ 53 := by norm_num
        omega
      have hak : a = (k : ℚ) / 4 := by rw [ha, hk]; push_cast; ring
      have hxa : x = a := by rw [hx, hak]; exact cents_float_exact k hk0 hk1
      have hxc : x * 100 = (c : ℚ) := by rw [hxa, ha]; ring
      refine ⟨k, ?_⟩
      rw [hxc, nat_float_exact c h0 hc53, hk]
      push_cast; ring

theorem round_fifth : round (2 / 10) = fin (3602879701896397 / 18014398509481984) := by
  decide!

theorem pow2_neg1022_le_small : pow2 (-1022) ≤ 1 / 2000 := by decide!

/-- Rule 5 on the float64 of `c` cents, `0 < c < 10^15`: `math.Ceil(price * 0.2)` is `c / 500`
rounded up. -/
theorem ceil_fifth_core (c : Nat) (h0 : 0 < c) (h1 : c < 10 ^ 15) (a x f : ℚ)
    (ha : a = (c : ℚ) / 100) (hf5 : f = 1 / 5 + 1 / (5 * 2 ^ 54))
    (hx1 : -(a / 2 ^ 53) ≤ x - a) (hx2 : x - a ≤ a / 2 ^ 53)
    (hex : ∀ k : Nat, c = 500 * k → x = ((5 * k : Nat) : ℚ)) :
    ∃ q : ℚ, round (x * f) = fin q ∧
      Int.ceil q = (((c + 499) / 500 : Nat) : Int) := by
  have hc0 : (1 : ℚ) ≤ c := by exact_mod_cast h0
  have hc1 : (c : ℚ) < 10 ^ 15 := by exact_mod_cast h1
  have ha0 : 1 / 100 ≤ a := by rw [ha]; linarith
  have ha1 : a < 10 ^ 13 := by rw [ha]; linarith
  have hau : a / 2 ^ 53 ≤ a / 4 := by
    apply div_le_div_of_nonneg_left <;> norm_num
    linarith
  have hxlo : a * (3 / 4) ≤ x := by linarith
  have hxhi : x ≤ a * (5 / 4) := by linarith
  have hfpos : 0 < f := by rw [hf5]; norm_num
  have hflo : 1 / 5 ≤ f := by rw [hf5]; norm_num
  have hfhi : f ≤ 1 / 4 := by rw [hf5]; norm_num
  have hyn : pow2 (-1022) ≤ x * f := by
    have := pow2_neg1022_le_small
    have : 1 / 2000 ≤ x * f := by nlinarith
    linarith
  have hylt : x * f < pow2 1023 := by
    have := lt_pow2_1023
    have : x * f < 10 ^ 16 := by nlinarith
    linarith
  have hmul : round (x * f) = fin (roundMag (x * f)) := round_of_normal _ hyn hylt
  refine ⟨roundMag (x * f), hmul, ?_⟩
  by_cases hdiv : c % 500 = 0
  · -- the price is a whole multiple of 5.00
    obtain ⟨k, hk⟩ : ∃ k, c = 500 * k := ⟨c / 500, by omega⟩
    have hk0 : 0 < k := by omega
    have hk1 : k < 2 ^ 50 := by
      have : (10 : Nat) ^ 15 < 2 ^ 50 := by norm_num
      omega
    have hkq0 : (1 : ℚ) ≤ k := by exact_mod_cast hk0
    have h5k : 5 * k < 2 ^ 53 := by omega
    have hxa : x = ((5 * k : Nat) : ℚ) := hex k hk
    have hy : x * f = (k : ℚ) + (k : ℚ) / 2 ^ 54 := by
      rw [hxa, hf5]; push_cast; field_simp; ring
    obtain ⟨e, l1, l2⟩ : ∃ e : Nat, 2 ^ e ≤ k ∧ k < 2 ^ (e + 1) :=
      ⟨natLog2 k, natLog2_spec k (by omega)⟩
    have he52 : e ≤ 49 := by
      by_contra hcon
      have : 2 ^ 50 ≤ 2 ^ e := Nat.pow_le_pow_right (by norm_num) (by omega)
      omega
    have L1 : (2 : ℚ) ^ e ≤ k := by exact_mod_cast l1
    have L2 : (k : ℚ) + 1 ≤ 2 ^ (e + 1) := by exact_mod_cast l2
    have hksmall : (k : ℚ) / 2 ^ 54 < 1 / 2 := by
      have : (k : ℚ) < 2 ^ 50 := by exact_mod_cast hk1
      rw [div_lt_iff₀ (by positivity)]
      linarith
    have hp1 : pow2 (e : Int) ≤ x * f := by
      rw [pow2_natCast, hy]
      have : (0 : ℚ) ≤ (k : ℚ) / 2 ^ 54 := by positivity
      linarith
    have hp2 : x * f < pow2 ((e : Int) + 1) := by
      rw [show ((e : Int) + 1) = ((e + 1 : Nat) : Int) by push_cast; ring, pow2_natCast, hy]
      linarith
    have hulp : pow2 ((e : Int) - 52) = 2 ^ e / 2 ^ 52 := by
      rw [pow2_sub, pow2_natCast]; congr 1
    have hM : ((((k * 2 ^ (52 - e) : Nat) : Int) : ℚ)) * pow2 ((e : Int) - 52) = (k : ℚ) := by
      rw [hulp]
      push_cast
      have : (2 : ℚ) ^ 52 = 2 ^ (52 - e) * 2 ^ e := by
        rw [← pow_add]; congr 1; omega
      rw [this]
      field_simp
      ring
    have hnear := roundMag_near (x * f) (e : Int) ((k * 2 ^ (52 - e) : Nat) : Int) hp1 hp2
      (by omega)
      (by rw [hM, hy]; have : (0 : ℚ) ≤ (k : ℚ) / 2 ^ 54 := by positivity
          linarith)
      (by
        rw [add_mul, hM, hy, hulp]
        have h2 : (k : ℚ) / 2 ^ 54 < 1 / 2 * (2 ^ e / 2 ^ 52) := by
          rw [div_lt_iff₀ (by positivity)]
          have : (1 : ℚ) / 2 * (2 ^ e / 2 ^ 52) * 2 ^ 54 = 2 ^ (e + 1) := by
            rw [pow_succ]; field_simp; ring
          rw [this]; linarith
        linarith)
    rw [hnear, hM]
    have : ((c + 499) / 500 : Nat) = k := by omega
    rw [this]
    exact_mod_cast Int.ceil_intCast (k : Int)
  · -- otherwise `c/500` is at least `1/500` away from the integers around it
    have herr2 := roundMag_err _ hyn
    obtain ⟨hq1, hq2⟩ := abs_le.mp herr2
    obtain ⟨F, ρ, hcF, hρ1, hρ2⟩ : ∃ F ρ : Nat, c = 500 * F + ρ ∧ 1 ≤ ρ ∧ ρ ≤ 499 :=
      ⟨c / 500, c % 500, by omega, by omega, by omega⟩
    have hA : a / 5 = (F : ℚ) + (ρ : ℚ) / 500 := by
      rw [ha, hcF]; push_cast; ring
    have hρq1 : (1 : ℚ) ≤ ρ := by exact_mod_cast hρ1
    have hρq2 : (ρ : ℚ) ≤ 499 := by exact_mod_cast hρ2
    -- the three roundings move the value by less than 1/500
    have hu : a / 2 ^ 53 < 1 / 900 := by
      rw [div_lt_iff₀ (by positivity)]
      norm_num
      linarith
    have hy1 : x * f ≤ a / 5 + 1 / 2000 := by
      have h1 : x * f ≤ (a + a / 2 ^ 53) * f := mul_le_mul_of_nonneg_right (by linarith) hfpos.le
      have h2 : (a + a / 2 ^ 53) * f = a / 5 + a / 2 ^ 53 / 10 + a / 2 ^ 53 / 5
          + a / 2 ^ 53 / (5 * 2 ^ 54) := by
        rw [hf5]; ring
      have h3 : a / 2 ^ 53 / (5 * 2 ^ 54) ≤ a / 2 ^ 53 / 5 := by
        apply div_le_div_of_nonneg_left <;> norm_num
        positivity
      have h4 : 0 ≤ a / 2 ^ 53 := by positivity
      linarith
    have hy0 : a / 5 - 1 / 2000 ≤ x * f := by
      have h1 : (a - a / 2 ^ 53) * f ≤ x * f := mul_le_mul_of_nonneg_right (by linarith) hfpos.le
      have h2 : (a - a / 2 ^ 53) * (1 / 5) ≤ (a - a / 2 ^ 53) * f :=
        mul_le_mul_of_nonneg_left hflo (by linarith)
      linarith
    have hyu : x * f / 2 ^ 53 ≤ 1 / 2000 := by
      have h1 : x * f ≤ a * (5 / 4) * (1 / 4) := by
        calc x * f ≤ a * (5 / 4) * f := mul_le_mul_of_nonneg_right hxhi hfpos.le
          _ ≤ a * (5 / 4) * (1 / 4) := mul_le_mul_of_nonneg_left hfhi (by linarith)
      have h2 : x * f / 2 ^ 53 ≤ a * (5 / 4) * (1 / 4) / 2 ^ 53 :=
        div_le_div_of_nonneg_right h1 (by positivity)
      have h3 : a * (5 / 4) * (1 / 4) / 2 ^ 53 = a / 2 ^ 53 * (5 / 16) := by ring
      linarith
    have : ((c + 499) / 500 : Nat) = F + 1 := by omega
    rw [this, Int.ceil_eq_iff]
    push_cast
    constructor <;> linarith

theorem ceil_fifth_cents (c : Nat) (h0 : 0 < c) (h1 : c < 10 ^ 15) :
    ∃ q : ℚ, mul (fin (roundMag ((c : ℚ) / 100))) (round (2 / 10)) = fin q ∧
      Int.ceil q = (((c + 499) / 500 : Nat) : Int) := by
  rw [round_fifth]
  obtain ⟨_, herr, _⟩ := cents_float c h0 h1
  obtain ⟨hx1, hx2⟩ := abs_le.mp herr
  refine ceil_fifth_core c h0 h1 _ _ _ rfl (by norm_num) hx1 hx2 (fun k hk => ?_)
  have h5k : 5 * k < 2 ^ 53 := by
    have : (10 : Nat) ^ 15 < 2 ^ 53 := by norm_num
    omega
  have hak : (c : ℚ) / 100 = ((5 * k : Nat) : ℚ) := by rw [hk]; push_cast; ring
  rw [hak]
  exact nat_float_exact (5 * k) (by omega) h5k

end F64

/-! ## Calendar -/

theorem yearDay_marchDays (y doy : Int) (h0 : 0 ≤ doy) (h1 : doy ≤ 365)
    (hl : doy = 365 → (y + 1) % 4 = 0 ∧ ((y + 1) % 100 ≠ 0 ∨ (y + 1) % 400 = 0)) :
    yearDay (marchDays y doy) = (y, doy) := by
  obtain ⟨era, c, q, r, hy, hc0, hc1, hq0, hq1, hr0, hr1⟩ :
      ∃ era c q r : Int, y = era * 400 + c * 100 + q * 4 + r ∧ 0 ≤ c ∧ c ≤ 3 ∧ 0 ≤ q ∧ q ≤ 24 ∧
        0 ≤ r ∧ r ≤ 3 :=
    ⟨y / 400, y % 400 / 100, y % 100 / 4, y % 4, by omega, by omega, by omega, by omega,
      by omega, by omega, by omega⟩
  have e1 : y / 400 = era := by omega
  have e2 : (y - era * 400) / 4 = 25 * c + q := by omega
  have e3 : (y - era * 400) / 100 = c := by omega
  have hz : marchDays y doy = era * 146097 + (c * 36524 + q * 1461 + r * 365 + doy) := by
    unfold marchDays
    simp only [e1, e2, e3]
    omega
  have hfull : doy = 365 → r = 3 ∧ (q ≠ 24 ∨ c = 3) := by
    intro h
    have := hl h
    omega
  rw [hz]
  unfold yearDay
  have f1 : (era * 146097 + (c * 36524 + q * 1461 + r * 365 + doy)) / 146097 = era := by omega
  simp only [f1]
  have f2 : era * 146097 + (c * 36524 + q * 1461 + r * 365 + doy) - era * 146097
      = c * 36524 + q * 1461 + r * 365 + doy := by omega
  simp only [f2]
  have f3 : min ((c * 36524 + q * 1461 + r * 365 + doy) / 36524) 3 = c := by omega
  simp only [f3]
  have f4 : c * 36524 + q * 1461 + r * 365 + doy - c * 36524 = q * 1461 + r * 365 + doy := by
    omega
  simp only [f4]
  have f5 : (q * 1461 + r * 365 + doy) / 1461 = q := by omega
  simp only [f5]
  have f6 : q * 1461 + r * 365 + doy - q * 1461 = r * 365 + doy := by omega
  simp only [f6]
  have f7 : min ((r * 365 + doy) / 365) 3 = r := by omega
  simp only [f7]
  refine Prod.ext ?_ ?_
  · simp only; omega
  · simp only; omega


theorem sub_add_719468 (x : Int) : x - 719468 + 719468 = x := by omega

theorem civil_roundtrip (y m d : Int) (hm0 : 1 ≤ m) (hm1 : m ≤ 12)
    (hd0 : 1 ≤ d) (hd1 : d ≤ daysIn m y) : civilFromDays (daysFromCivil y m d) = (y, m, d) := by
  have hleap : isLeap y = true ↔ (y % 4 = 0 ∧ (y % 100 ≠ 0 ∨ y % 400 = 0)) := by
    simp [isLeap]
  have hdl : d ≤ 31 ∧ (m = 4 ∨ m = 6 ∨ m = 9 ∨ m = 11 → d ≤ 30) ∧ (m = 2 → d ≤ 29) ∧
      (m = 2 → d = 29 → (y % 4 = 0 ∧ (y % 100 ≠ 0 ∨ y % 400 = 0))) := by
    unfold daysIn at hd1
    by_cases hl : isLeap y = true
    · have := hleap.mp hl
      simp only [hl, if_true] at hd1
      split_ifs at hd1 <;> omega
    · have hn : ¬ (y % 4 = 0 ∧ (y % 100 ≠ 0 ∨ y % 400 = 0)) := fun h => hl (hleap.mpr h)
      simp only [hl, if_false] at hd1
      split_ifs at hd1 <;> first | contradiction | omega
  obtain ⟨hd31, hd30, hd29, hfeb⟩ := hdl
  have e1 : (m - 1) / 12 = 0 := by omega
  have e2 : (m - 1) % 12 + 1 = m := by omega
  unfold civilFromDays daysFromCivil
  simp only [e1, e2, add_zero, sub_add_719468]
  by_cases hm2 : m ≤ 2
  · have hgt : ¬ m > 2 := by omega
    simp only [hm2, hgt, if_true, if_false]
    rw [yearDay_marchDays _ _ (by omega) (by omega) (by omega)]
    simp only
    have g1 : (5 * ((153 * (m + 9) + 2) / 5 + d - 1) + 2) / 153 = m + 9 := by
      have hm : m = 1 ∨ m = 2 := by omega
      rcases hm with h | h <;> subst h <;> omega
    simp only [g1]
    have g2 : ¬ (m + 9 < 10) := by omega
    simp only [g2, if_false]
    have g3 : m + 9 - 9 ≤ 2 := by omega
    simp only [g3, if_true]
    refine Prod.ext ?_ (Prod.ext ?_ ?_) <;> simp only <;> omega
  · have hgt : m > 2 := by omega
    simp only [hm2, hgt, if_true, if_false]
    rw [yearDay_marchDays _ _ (by omega) (by omega) (by omega)]
    simp only
    have g1 : (5 * ((153 * (m - 3) + 2) / 5 + d - 1) + 2) / 153 = m - 3 := by
      have hm : m = 3 ∨ m = 4 ∨ m = 5 ∨ m = 6 ∨ m = 7 ∨ m = 8 ∨ m = 9 ∨ m = 10 ∨ m = 11 ∨
          m = 12 := by omega
      rcases hm with h | h | h | h | h | h | h | h | h | h <;> subst h <;> omega
    simp only [g1]
    have g2 : m - 3 < 10 := by omega
    simp only [g2, if_true]
    have g3 : ¬ (m - 3 + 3 ≤ 2) := by omega
    simp only [g3, if_false]
    refine Prod.ext ?_ (Prod.ext ?_ ?_) <;> simp only <;> omega

/-! ## Money strings -/

theorem char_eq_of_toNat (c : Char) (n : Nat) (h : c.toNat = n) : c = Char.ofNat n := by
  rw [← h, Char.ofNat_toNat]

theorem isDigit_toNat (c : Char) (h : isDigit c = true) : 48 ≤ c.toNat ∧ c.toNat ≤ 57 := by
  simpa [isDigit] using h

theorem digitVal_lt (c : Char) (h : isDigit c = true) : digitVal c < 10 := by
  have := isDigit_toNat c h
  unfold digitVal
  omega

theorem decNat_append_two (l : List Char) (d1 d2 : Char) :
    decNat (l ++ [d1, d2]) = 100 * decNat l + 10 * digitVal d1 + digitVal d2 := by
  unfold decNat
  rw [List.foldl_append]
  simp only [List.foldl_cons, List.foldl_nil]
  ring

theorem validPrice_shape (s : List Char) (h : validator.validPrice s = true) :
    ∃ ip c d1 d2, s = ip ++ [c, d1, d2] ∧ ip ≠ [] ∧ (∀ x ∈ ip, isDigit x = true) ∧
      c.toNat = 46 ∧ isDigit d1 = true ∧ isDigit d2 = true ∧
      s.takeWhile isDigit = ip ∧ s.dropWhile isDigit = [c, d1, d2] := by
  unfold validator.validPrice at h
  split at h
  · rename_i c d1 d2 hdrop
    simp only [Bool.and_eq_true, Bool.not_eq_true', decide_eq_true_eq] at h
    obtain ⟨⟨⟨h1, h2⟩, h3⟩, h4⟩ := h
    refine ⟨s.takeWhile isDigit, c, d1, d2, ?_, ?_, ?_, h2, h3, h4, rfl, hdrop⟩
    · rw [← hdrop, List.takeWhile_append_dropWhile]
    · intro he; rw [he] at h1; simp at h1
    · intro x hx; exact (List.mem_takeWhile_imp hx)
  · exact absurd h (by simp)

theorem plainDecimal_of_shape (ip : List Char) (c d1 d2 : Char)
    (hall : ∀ x ∈ ip, isDigit x = true) (hc : c.toNat = 46) (h1 : isDigit d1 = true)
    (h2 : isDigit d2 = true) :
    plainDecimal (ip ++ [c, d1, d2]) = some (decNat (ip ++ [d1, d2]), 2) ∧
    (ip ++ [c, d1, d2]).filter isDigit = ip ++ [d1, d2] := by
  have hcn : isDigit c = false := by simp [isDigit, hc]
  have htake : (ip ++ [c, d1, d2]).takeWhile isDigit = ip := by
    rw [List.takeWhile_append_of_pos hall]
    simp [List.takeWhile, hcn]
  have hdrop : (ip ++ [c, d1, d2]).dropWhile isDigit = [c, d1, d2] := by
    rw [List.dropWhile_append_of_pos hall]
    simp [List.dropWhile, hcn]
  constructor
  · unfold plainDecimal
    simp only [htake, hdrop]
    simp [hc, h1, h2]
  · rw [List.filter_append, List.filter_eq_self.mpr hall]
    simp [List.filter, hcn, h1, h2]

theorem hasSuffix_00 (ip : List Char) (c d1 d2 : Char) (hc : c.toNat = 46) :
    HasSuffix (ip ++ [c, d1, d2]) ".00".data = true ↔ d1.toNat = 48 ∧ d2.toNat = 48 := by
  have hc2 : c = '.' := char_eq_of_toNat c 46 hc
  subst hc2
  unfold HasSuffix
  simp only [List.reverse_append, List.reverse_cons, List.reverse_nil, List.nil_append,
    List.cons_append, List.isPrefixOf]
  simp only [Bool.and_true, Bool.and_eq_true, beq_iff_eq, beq_self_eq_true, and_true]
  constructor
  · rintro ⟨h1, h2⟩
    subst h1; subst h2
    exact ⟨rfl, rfl⟩
  · rintro ⟨h1, h2⟩
    have e1 := char_eq_of_toNat _ _ h1
    have e2 := char_eq_of_toNat _ _ h2
    subst e1; subst e2
    exact ⟨rfl, rfl⟩

/-! ## The validator only adds violations -/

namespace validator

open models

theorem addError_grows (v : Validator) (m : Message) : v.errors <+: (v.addError m).errors :=
  List.prefix_append _ _

theorem ite_addError_grows (v : Validator) (c : Prop) [Decidable c] (m : Message) :
    v.errors <+: (if c then v.addError m else v).errors := by
  split
  · exact addError_grows v m
  · exact List.prefix_refl _

theorem validatePurchaseTime_grows (env : Env) (v : Validator) (t d : String) :
    v.errors <+: (v.validatePurchaseTime env t d).errors := by
  unfold Validator.validatePurchaseTime
  split
  · exact addError_grows v _
  · refine List.IsPrefix.trans (List.IsPrefix.trans ?_ (ite_addError_grows _ _ _))
      (ite_addError_grows _ _ _)
    split
    · exact ite_addError_grows _ _ _
    · exact List.prefix_refl _

theorem validatePrice_grows (env : Env) (v : Validator) (price field : String) :
    v.errors <+: (v.validatePrice env price field).errors := by
  unfold Validator.validatePrice
  split
  · exact addError_grows v _
  · split
    · exact addError_grows v _
    · exact ite_addError_grows _ _ _

theorem foldl_grows {α : Type} (f : Validator → α → Validator)
    (hf : ∀ v a, v.errors <+: (f v a).errors) (l : List α) (v : Validator) :
    v.errors <+: (l.foldl f v).errors := by
  induction l generalizing v with
  | nil => exact List.prefix_refl _
  | cons a l ih => exact List.IsPrefix.trans (hf v a) (ih (f v a))

theorem validateItems_grows (env : Env) (v : Validator) (items : List Item) :
    v.errors <+: (v.validateItems env items).errors := by
  unfold Validator.validateItems
  split
  · exact addError_grows v _
  · refine foldl_grows _ (fun w p => ?_) _ v
    exact List.IsPrefix.trans (List.IsPrefix.trans (ite_addError_grows _ _ _)
      (ite_addError_grows _ _ _)) (validatePrice_grows _ _ _ _)

theorem validateTotalMatchesItems_grows (env : Env) (v : Validator) (total : String)
    (items : List Item) : v.errors <+: (v.validateTotalMatchesItems env total items).errors := by
  unfold Validator.validateTotalMatchesItems
  exact ite_addError_grows _ _ _

end validator

/-! ## The total: rules 2 and 3 -/

theorem cents_of_shape (s : String) (ip : List Char) (c d1 d2 : Char)
    (hs : s.data = ip ++ [c, d1, d2]) (hall : ∀ x ∈ ip, isDigit x = true) (hc : c.toNat = 46)
    (h1 : isDigit d1 = true) (h2 : isDigit d2 = true) :
    plainDecimal s.data = some (spec.cents s, 2) ∧
    spec.cents s = 100 * decNat ip + 10 * digitVal d1 + digitVal d2 := by
  obtain ⟨hp, hf⟩ := plainDecimal_of_shape ip c d1 d2 hall hc h1 h2
  unfold spec.cents
  rw [hs, hf, hp, decNat_append_two]
  exact ⟨rfl, rfl⟩

theorem plainDecimal_of_valid (s : String) (hv : validator.validPrice s.data = true) :
    plainDecimal s.data = some (spec.cents s, 2) := by
  obtain ⟨ip, c, d1, d2, hs, _, hall, hc, h1, h2, _, _⟩ := validPrice_shape s.data hv
  exact (cents_of_shape s ip c d1 d2 hs hall hc h1 h2).1

theorem ParseFloat_of_valid (env : Env) (s : String)
    (hv : validator.validPrice s.data = true) :
    (∀ x : ℚ, F64.round ((spec.cents s : ℚ) / 100) = F64.fin x →
      ParseFloat env s = (F64.fin x, false)) ∧
    (∀ neg : Bool, F64.round ((spec.cents s : ℚ) / 100) = F64.inf neg →
      ParseFloat env s = (F64.inf neg, true)) := by
  have h100 : ((spec.cents s : ℚ) / ((10 ^ 2 : Nat) : ℚ)) = (spec.cents s : ℚ) / 100 := by
    norm_num
  constructor
  · intro x hx
    unfold ParseFloat
    rw [plainDecimal_of_valid s hv]
    simp only
    rw [h100, hx]
  · intro neg hx
    unfold ParseFloat
    rw [plainDecimal_of_valid s hv]
    simp only
    rw [h100, hx]

theorem rule2_of_valid (s : String) (hv : validator.validPrice s.data = true) :
    calculator.rule2 s = if spec.cents s % 100 = 0 then 50 else 0 := by
  obtain ⟨ip, c, d1, d2, hs, _, hall, hc, h1, h2, _, _⟩ := validPrice_shape s.data hv
  obtain ⟨_, hcents⟩ := cents_of_shape s ip c d1 d2 hs hall hc h1 h2
  have hs00 := hasSuffix_00 ip c d1 d2 hc
  have b1 := isDigit_toNat d1 h1
  have b2 := isDigit_toNat d2 h2
  have hiff : HasSuffix s.data ".00".data = true ↔ spec.cents s % 100 = 0 := by
    rw [hs, hs00, hcents]
    unfold digitVal
    omega
  unfold calculator.rule2
  by_cases h : HasSuffix s.data ".00".data = true
  · rw [if_pos h, if_pos (hiff.mp h)]
  · rw [if_neg h, if_neg (fun h2 => h (hiff.mpr h2))]

theorem rule3_of_valid (env : Env) (s : String) (hv : validator.validPrice s.data = true)
    (hb : spec.cents s < 10 ^ 15) :
    calculator.rule3 env s = if spec.cents s % 25 = 0 then 25 else 0 := by
  obtain ⟨x, hx, _, _, hiff⟩ := F64.mod25_cents (spec.cents s) hb
  unfold calculator.rule3
  rw [(ParseFloat_of_valid env s hv).1 x hx]
  simp only
  by_cases h : spec.cents s % 25 = 0
  · rw [if_pos (hiff.mpr h), if_pos h]
  · rw [if_neg (fun h2 => h (hiff.mp h2)), if_neg h]

/-! ## What an accepted receipt satisfies -/

namespace validator

open models

theorem nil_of_grows {v w : Validator} (h : v.errors <+: w.errors) (hw : w.errors = []) :
    v.errors = [] := by
  rw [hw] at h
  exact List.prefix_nil.mp h

theorem addError_ne_nil (v : Validator) (m : Message) : (v.addError m).errors ≠ [] := by
  simp [Validator.addError]

theorem ite_addError_nil (v : Validator) (c : Prop) [Decidable c] (m : Message)
    (h : (if c then v.addError m else v).errors = []) : ¬ c ∧ v.errors = [] := by
  by_cases hc : c
  · rw [if_pos hc] at h
    exact absurd h (addError_ne_nil v m)
  · rw [if_neg hc] at h
    exact ⟨hc, h⟩

theorem validateRetailer_ok (env : Env) (v : Validator) (retailer : String)
    (h : (v.validateRetailer env retailer).errors = []) :
    v.errors = [] ∧ validRetailer retailer.data = true := by
  unfold Validator.validateRetailer at h
  by_cases h0 : retailer.data = []
  · rw [if_pos h0] at h
    exact absurd h (addError_ne_nil v _)
  · rw [if_neg h0] at h
    simp only at h
    obtain ⟨_, h1⟩ := ite_addError_nil _ _ _ h
    obtain ⟨h2, h3⟩ := ite_addError_nil _ _ _ h1
    refine ⟨h3, ?_⟩
    simpa using h2

theorem validatePurchaseDate_ok (env : Env) (v : Validator) (date : String)
    (h : (v.validatePurchaseDate env date).errors = []) :
    v.errors = [] ∧ ∃ t, Time.ParseDate date = some t := by
  unfold Validator.validatePurchaseDate at h
  cases hp : Time.ParseDate date with
  | none =>
    rw [hp] at h
    exact absurd h (addError_ne_nil v _)
  | some t =>
    rw [hp] at h
    simp only at h
    refine ⟨?_, t, rfl⟩
    by_cases hf : t.AfterNow env.now = true
    · rw [if_pos hf] at h
      exact absurd h (addError_ne_nil v _)
    · rw [if_neg hf] at h
      exact (ite_addError_nil _ _ _ h).2

theorem validatePurchaseTime_ok (env : Env) (v : Validator) (timeStr date : String)
    (h : (v.validatePurchaseTime env timeStr date).errors = []) :
    v.errors = [] ∧ ∃ t, Time.ParseClock timeStr = some t := by
  refine ⟨nil_of_grows (validatePurchaseTime_grows env v timeStr date) h, ?_⟩
  unfold Validator.validatePurchaseTime at h
  cases hp : Time.ParseClock timeStr with
  | none =>
    rw [hp] at h
    exact absurd h (addError_ne_nil v _)
  | some t => exact ⟨t, rfl⟩

theorem validatePrice_ok (env : Env) (v : Validator) (price field : String)
    (h : (v.validatePrice env price field).errors = []) :
    v.errors = [] ∧ PriceOk env price := by
  refine ⟨nil_of_grows (validatePrice_grows env v price field) h, ?_⟩
  unfold Validator.validatePrice at h
  by_cases hv : validPrice price.data = true
  · rw [if_neg (by simp [hv])] at h
    refine ⟨hv, ?_⟩
    rcases hpf : ParseFloat env price with ⟨p, err⟩
    rw [hpf] at h
    cases err with
    | true => exact absurd h (addError_ne_nil v _)
    | false =>
      simp only at h
      refine ⟨p, rfl, ?_⟩
      have := (ite_addError_nil _ _ _ h).1
      simpa using this
  · rw [if_pos (by simp [hv])] at h
    exact absurd h (addError_ne_nil v _)

theorem validateItems_step_ok (env : Env) (l : List (Nat × Item)) (v : Validator)
    (h : (l.foldl (fun v p =>
      let i := p.1
      let item := p.2
      let v := if TrimSpace item.ShortDescription.data = [] then
        v.addError Message.descriptionEmpty else v
      let v := if !validDesc item.ShortDescription.data then
        v.addError Message.descriptionInvalidChars else v
      v.validatePrice env item.Price ("items[" ++ toString i ++ "].price")) v).errors = []) :
    v.errors = [] ∧ ∀ p ∈ l, ItemOk env p.2 := by
  induction l generalizing v with
  | nil => exact ⟨h, fun p hp => absurd hp (List.not_mem_nil p)⟩
  | cons a l ih =>
    rw [List.foldl_cons] at h
    obtain ⟨h1, hrest⟩ := ih _ h
    simp only at h1
    obtain ⟨h2, hprice⟩ := validatePrice_ok env _ _ _ h1
    obtain ⟨h3, h4⟩ := ite_addError_nil _ _ _ h2
    obtain ⟨h5, h6⟩ := ite_addError_nil _ _ _ h4
    refine ⟨h6, fun p hp => ?_⟩
    rcases List.mem_cons.mp hp with e | e
    · subst e
      exact ⟨h5, by simpa using h3, hprice⟩
    · exact hrest p e

theorem validateItems_ok (env : Env) (v : Validator) (items : List Item)
    (h : (v.validateItems env items).errors = []) :
    v.errors = [] ∧ items ≠ [] ∧ ∀ item ∈ items, ItemOk env item := by
  unfold Validator.validateItems at h
  by_cases h0 : items.length = 0
  · rw [if_pos h0] at h
    exact absurd h (addError_ne_nil v _)
  · rw [if_neg h0] at h
    obtain ⟨h1, h2⟩ := validateItems_step_ok env _ v h
    refine ⟨h1, fun e => h0 (by rw [e]; rfl), fun item hi => ?_⟩
    obtain ⟨i, hi2⟩ := List.mem_iff_getElem.mp hi
    obtain ⟨hlt, hget⟩ := hi2
    have : (i, item) ∈ items.enum := by
      rw [List.mem_iff_getElem]
      refine ⟨i, by simpa using hlt, ?_⟩
      simp [hget]
    exact h2 (i, item) this

/-- What `ValidateReceipt` on a fresh validator has checked when it returns true. -/
theorem accepted_facts (env : Env) (r : Receipt)
    (h : New.ValidateReceipt env r = true) :
    validRetailer r.Retailer.data = true ∧
    (∃ t, Time.ParseDate r.PurchaseDate = some t) ∧
    (∃ t, Time.ParseClock r.PurchaseTime = some t) ∧
    r.Items ≠ [] ∧ (∀ item ∈ r.Items, ItemOk env item) ∧
    PriceOk env r.Total := by
  have hnil : (New.runReceipt env r).errors = [] := by
    unfold Validator.ValidateReceipt Validator.HasErrors at h
    simp only [Bool.not_eq_true', decide_eq_false_iff_not, not_lt, Nat.le_zero_eq,
      List.length_eq_zero, gt_iff_lt] at h
    exact h
  unfold Validator.runReceipt at hnil
  simp only at hnil
  have h5 := nil_of_grows (validateTotalMatchesItems_grows env _ _ _) hnil
  obtain ⟨h4, htotal⟩ := validatePrice_ok env _ _ _ h5
  obtain ⟨h3, hne, hitems⟩ := validateItems_ok env _ _ h4
  obtain ⟨h2, htime⟩ := validatePurchaseTime_ok env _ _ _ h3
  obtain ⟨h1, hdate⟩ := validatePurchaseDate_ok env _ _ h2
  obtain ⟨_, hret⟩ := validateRetailer_ok env _ _ h1
  exact ⟨hret, hdate, htime, hne, hitems, htotal⟩

end validator

/-! ## Rule 5 and the absence of overflow -/

theorem round_ne_nan (q : ℚ) : F64.round q ≠ F64.nan := by
  unfold F64.round
  simp only
  split_ifs <;> simp

theorem round_fin_lt (q x : ℚ) (hq : 0 < q) (h : F64.round q = F64.fin x) :
    x = F64.roundMag q ∧ x < pow2 1024 := by
  unfold F64.round at h
  rw [if_neg hq.ne', abs_of_pos hq] at h
  simp only at h
  by_cases hb : pow2 1024 ≤ F64.roundMag q
  · rw [if_pos hb] at h
    exact absurd h (by simp)
  · rw [if_neg hb, if_neg (not_lt.mpr hq.le)] at h
    have : F64.roundMag q = x := by injection h
    exact ⟨this.symm, by rw [← this]; exact not_le.mp hb⟩

/-- The float64 of an accepted price: finite, positive, the nearest to the amount written. -/
theorem priceOk_float (env : Env) (s : String) (h : validator.PriceOk env s) :
    0 < spec.cents s ∧ ∃ x : ℚ, ParseFloat env s = (F64.fin x, false) ∧
      x = F64.roundMag ((spec.cents s : ℚ) / 100) ∧ x < pow2 1024 ∧
      pow2 (-1022) ≤ (spec.cents s : ℚ) / 100 := by
  obtain ⟨hv, p, hp, hle⟩ := h
  obtain ⟨hfin, hinf⟩ := ParseFloat_of_valid env s hv
  cases hr : F64.round ((spec.cents s : ℚ) / 100) with
  | nan => exact absurd hr (round_ne_nan _)
  | inf neg =>
    rw [hinf neg hr] at hp
    simp at hp
  | fin x =>
    have hpf := hfin x hr
    rw [hpf] at hp
    have hpx : p = F64.fin x := by
      have := congrArg Prod.fst hp
      exact this.symm
    rw [hpx] at hle
    have hx0 : 0 < x := by
      simpa [F64.le] using hle
    have hc : 0 < spec.cents s := by
      rcases Nat.eq_zero_or_pos (spec.cents s) with hz | hz
      · rw [hz] at hr
        simp [F64.round] at hr
        rw [← hr] at hx0
        exact absurd hx0 (lt_irrefl _)
      · exact hz
    have hcq : (1 : ℚ) ≤ spec.cents s := by exact_mod_cast hc
    have hq : (0 : ℚ) < (spec.cents s : ℚ) / 100 := by positivity
    obtain ⟨e1, e2⟩ := round_fin_lt _ x hq hr
    refine ⟨hc, x, hpf, e1, e2, ?_⟩
    have := F64.pow2_neg1022_le
    linarith

theorem pow2_1022_lt : pow2 1024 * (1 / 4) < pow2 1023 := by decide!

/-- For an accepted price, `math.Ceil(price * 0.2)` is finite and not negative. -/
theorem fifth_finite (env : Env) (s : String) (h : validator.PriceOk env s) :
    ∃ x q : ℚ, ParseFloat env s = (F64.fin x, false) ∧
      F64.mul (F64.fin x) (F64.round (2 / 10)) = F64.fin q ∧ 0 ≤ q := by
  obtain ⟨_, x, hp, hx, hlt, hn⟩ := priceOk_float env s h
  refine ⟨x, F64.roundMag (x * (3602879701896397 / 18014398509481984)), hp, ?_, ?_⟩
  · rw [F64.round_fifth]
    have herr := F64.roundMag_err _ hn
    rw [← hx] at herr
    obtain ⟨h1, _⟩ := abs_le.mp herr
    have hpos : 0 < (spec.cents s : ℚ) / 100 := lt_of_lt_of_le (pow2_pos _) hn
    have hsmall : (spec.cents s : ℚ) / 100 / 2 ^ 53 ≤ (spec.cents s : ℚ) / 100 / 2 := by
      apply div_le_div_of_nonneg_left <;> norm_num
      exact hpos.le
    have hxlo : pow2 (-1022) / 2 ≤ x := by linarith
    have hx0 : 0 < x := lt_of_lt_of_le (by have := pow2_pos (-1022); linarith) hxlo
    apply F64.round_of_normal
    · have h4 : (1 : ℚ) / 200 * (1 / 5) ≤ x * (3602879701896397 / 18014398509481984) := by
        have hc1 : (1 : ℚ) / 100 ≤ (spec.cents s : ℚ) / 100 := by
          have : 0 < spec.cents s := (priceOk_float env s h).1
          have : (1 : ℚ) ≤ spec.cents s := by exact_mod_cast this
          linarith
        have hx2 : (1 : ℚ) / 200 ≤ x := by linarith
        calc (1 : ℚ) / 200 * (1 / 5) ≤ x * (1 / 5) := by linarith
          _ ≤ x * (3602879701896397 / 18014398509481984) := by
            apply mul_le_mul_of_nonneg_left _ hx0.le
            norm_num
      have := F64.pow2_neg1022_le_small
      linarith
    · have h5 : x * (3602879701896397 / 18014398509481984) ≤ x * (1 / 4) := by
        apply mul_le_mul_of_nonneg_left _ hx0.le
        norm_num
      have := pow2_1022_lt
      linarith
  · apply F64.roundMag_nonneg
    have : 0 ≤ x := by
      rw [hx]; apply F64.roundMag_nonneg
      positivity
    positivity

theorem wrapInt64_of_range (z : Int) (h0 : -2 ^ 63 ≤ z) (h1 : z < 2 ^ 63) : wrapInt64 z = z := by
  unfold wrapInt64
  omega

namespace calculator

open models

theorem rule5Unbounded_nonneg (env : Env) (item : Item) (h : validator.ItemOk env item) :
    0 ≤ rule5Unbounded env item := by
  obtain ⟨x, q, hp, hm, hq⟩ := fifth_finite env item.Price h.2.2
  unfold rule5Unbounded
  simp only [hp, hm, F64.ceilUnbounded]
  split_ifs
  · exact Int.ceil_nonneg hq
  · exact le_refl _

theorem rule5_eq_unbounded (env : Env) (item : Item) (h : validator.ItemOk env item)
    (hb : rule5Unbounded env item < 2 ^ 63) : rule5 env item = rule5Unbounded env item := by
  have h0 := rule5Unbounded_nonneg env item h
  obtain ⟨x, q, hp, hm, hq⟩ := fifth_finite env item.Price h.2.2
  unfold rule5Unbounded at hb h0 ⊢
  unfold rule5
  simp only [hp, hm, F64.ceilUnbounded, F64.Ceil, F64.toInt64, F64.truncQ_intCast] at hb h0 ⊢
  split_ifs at hb h0 ⊢
  · rfl
  · omega
  · rfl

theorem foldl_rule5 (env : Env) (items : List Item) (p0 : Int) (h0 : 0 ≤ p0)
    (hok : ∀ item ∈ items, validator.ItemOk env item)
    (hb : p0 + (items.map (rule5Unbounded env)).sum < 2 ^ 63) :
    items.foldl (fun points item => wrapInt64 (points + rule5 env item)) p0
      = p0 + (items.map (rule5Unbounded env)).sum := by
  induction items generalizing p0 with
  | nil => simp
  | cons a l ih =>
    have ha := hok a (List.mem_cons_self _ _)
    have hl : ∀ item ∈ l, validator.ItemOk env item :=
      fun item hi => hok item (List.mem_cons_of_mem _ hi)
    have hsum : 0 ≤ (l.map (rule5Unbounded env)).sum :=
      List.sum_nonneg (fun x hx => by
        obtain ⟨i, hi, e⟩ := List.mem_map.mp hx
        rw [← e]; exact rule5Unbounded_nonneg env i (hl i hi))
    have ha0 := rule5Unbounded_nonneg env a ha
    simp only [List.map_cons, List.sum_cons] at hb
    have hab : rule5Unbounded env a < 2 ^ 63 := by omega
    rw [List.foldl_cons, rule5_eq_unbounded env a ha hab,
      wrapInt64_of_range _ (by omega) (by omega), ih _ (by omega) hl (by omega)]
    simp only [List.map_cons, List.sum_cons]
    ring

theorem countAlphanumeric_nonneg (env : Env) (s : String) : 0 ≤ countAlphanumeric env s := by
  unfold countAlphanumeric
  exact Int.natCast_nonneg _

theorem rule2_range (s : String) : 0 ≤ rule2 s ∧ rule2 s ≤ 50 := by
  unfold rule2; split_ifs <;> omega

theorem rule3_range (env : Env) (s : String) : 0 ≤ rule3 env s ∧ rule3 env s ≤ 25 := by
  unfold rule3
  split
  · split_ifs <;> omega
  · omega

theorem rule7_range (s : String) : 0 ≤ rule7 s ∧ rule7 s ≤ 6 := by
  unfold rule7
  split
  · split_ifs <;> omega
  · omega

theorem rule8_range (s : String) : 0 ≤ rule8 s ∧ rule8 s ≤ 10 := by
  unfold rule8
  split
  · simp only; split_ifs <;> omega
  · omega

/-- When the contributions, added as unbounded integers, stay below `2^63`, no addition of
`CalculatePoints` wraps around. -/
theorem CalculatePoints_eq_unbounded (env : Env) (r : Receipt)
    (hok : ∀ item ∈ r.Items, validator.ItemOk env item)
    (hb : pointsUnbounded env r < 2 ^ 63) :
    CalculatePoints env r = pointsUnbounded env r ∧ 0 ≤ pointsUnbounded env r := by
  have c1 := countAlphanumeric_nonneg env r.Retailer
  obtain ⟨a2, b2⟩ := rule2_range r.Total
  obtain ⟨a3, b3⟩ := rule3_range env r.Total
  obtain ⟨a7, b7⟩ := rule7_range r.PurchaseDate
  obtain ⟨a8, b8⟩ := rule8_range r.PurchaseTime
  have c4 : (0 : Int) ≤ ((r.Items.length / 2 * 5 : Nat) : Int) := Int.natCast_nonneg _
  have c5 : 0 ≤ (r.Items.map (rule5Unbounded env)).sum :=
    List.sum_nonneg (fun x hx => by
      obtain ⟨i, hi, e⟩ := List.mem_map.mp hx
      rw [← e]; exact rule5Unbounded_nonneg env i (hok i hi))
  unfold pointsUnbounded at hb ⊢
  refine ⟨?_, by omega⟩
  unfold CalculatePoints
  simp only [zero_add]
  rw [wrapInt64_of_range (countAlphanumeric env r.Retailer) (by omega) (by omega),
    wrapInt64_of_range (_ + rule2 r.Total) (by omega) (by omega),
    wrapInt64_of_range (_ + rule3 env r.Total) (by omega) (by omega),
    wrapInt64_of_range (((r.Items.length / 2 * 5 : Nat) : Int)) (by omega) (by omega),
    wrapInt64_of_range (_ + ((r.Items.length / 2 * 5 : Nat) : Int)) (by omega) (by omega),
    foldl_rule5 env r.Items _ (by omega) hok (by omega),
    wrapInt64_of_range (_ + rule7 r.PurchaseDate) (by omega) (by omega),
    wrapInt64_of_range (_ + rule8 r.PurchaseTime) (by omega) (by omega)]

end calculator

/-! ## The code's rules against the rules in exact arithmetic -/

theorem utf8Size_ascii (c : Char) (h : c.toNat < 128) : c.utf8Size = 1 := by
  unfold Char.utf8Size
  have hv : c.val.toNat = c.toNat := rfl
  simp only
  split
  · rfl
  · rename_i hn
    refine absurd ?_ hn
    show c.val.toNat ≤ 127
    omega

theorem byteLen_ascii (l : List Char) (h : ∀ c ∈ l, c.toNat < 128) : byteLen l = l.length := by
  unfold byteLen
  induction l with
  | nil => rfl
  | cons a l ih =>
    simp only [List.map_cons, List.sum_cons, List.length_cons]
    rw [utf8Size_ascii a (h a (List.mem_cons_self _ _)),
      ih (fun c hc => h c (List.mem_cons_of_mem _ hc))]
    omega

theorem mem_TrimSpace (l : List Char) (c : Char) (h : c ∈ TrimSpace l) : c ∈ l := by
  unfold TrimSpace at h
  have h1 := List.mem_reverse.mp h
  have h2 := (List.dropWhile_sublist _).subset h1
  have h3 := List.mem_reverse.mp h2
  exact (List.dropWhile_sublist _).subset h3

theorem class_ascii (c : Char)
    (h : (isWordChar c || isReSpace c || decide (c.toNat = 45) || decide (c.toNat = 38)) = true) :
    c.toNat < 128 := by
  simp only [isWordChar, isDigit, isAsciiLetter, isReSpace, Bool.or_eq_true, Bool.and_eq_true,
    decide_eq_true_eq] at h
  omega

namespace calculator

open models

theorem countAlphanumeric_of_valid (env : Env) (s : String)
    (h : validator.validRetailer s.data = true) : countAlphanumeric env s = spec.R1 s := by
  unfold validator.validRetailer at h
  simp only [Bool.and_eq_true, List.all_eq_true] at h
  obtain ⟨_, hall⟩ := h
  unfold countAlphanumeric spec.R1
  congr 2
  apply List.filter_congr
  intro c hc
  have := class_ascii c (hall c hc)
  simp only [IsLetter, IsNumber, if_pos this]

theorem Date_UTC (y m d hh mm : Int) :
    Time.Date y m d hh mm 0 Time.UTC = ⟨daysFromCivil y m d * 86400 + hh * 3600 + mm * 60 + 0⟩ := by
  unfold Time.Date Time.UTC
  simp

theorem ParseDate_some (s : String) (t : Time) (h : Time.ParseDate s = some t) :
    ∃ y1 y2 y3 y4 s1 m1 m2 s2 d1 d2 : Char,
      s.data = [y1, y2, y3, y4, s1, m1, m2, s2, d1, d2] ∧
      [y1, y2, y3, y4, m1, m2, d1, d2].all isDigit = true ∧ s1.toNat = 45 ∧ s2.toNat = 45 ∧
      1 ≤ decNat [m1, m2] ∧ decNat [m1, m2] ≤ 12 ∧ 1 ≤ decNat [d1, d2] ∧
      (decNat [d1, d2] : Int) ≤ daysIn (decNat [m1, m2]) (decNat [y1, y2, y3, y4]) ∧
      t = Time.Date (decNat [y1, y2, y3, y4]) (decNat [m1, m2]) (decNat [d1, d2]) 0 0 0
        Time.UTC := by
  unfold Time.ParseDate at h
  split at h
  · rename_i y1 y2 y3 y4 s1 m1 m2 s2 d1 d2 hdata
    by_cases c1 : [y1, y2, y3, y4, m1, m2, d1, d2].all isDigit = true ∧ s1.toNat = 45 ∧
        s2.toNat = 45
    · rw [if_pos c1] at h
      simp only at h
      by_cases c2 : (decNat [m1, m2] : Int) ≤ 0 ∨ 12 < (decNat [m1, m2] : Int)
      · rw [if_pos c2] at h
        exact absurd h (by simp)
      · rw [if_neg c2] at h
        by_cases c3 : (decNat [d1, d2] : Int) < 1 ∨
            (decNat [d1, d2] : Int) > daysIn (decNat [m1, m2]) (decNat [y1, y2, y3, y4])
        · rw [if_pos c3] at h
          exact absurd h (by simp)
        · rw [if_neg c3] at h
          simp only [Option.some.injEq] at h
          exact ⟨y1, y2, y3, y4, s1, m1, m2, s2, d1, d2, hdata, c1.1, c1.2.1, c1.2.2,
            by omega, by omega, by omega, by omega, h.symm⟩
    · rw [if_neg c1] at h
      exact absurd h (by simp)
  · exact absurd h (by simp)

theorem rule7_of_parse (date : String) (t : Time) (h : Time.ParseDate date = some t) :
    rule7 date = spec.R7 date := by
  unfold rule7
  rw [h]
  simp only
  obtain ⟨y1, y2, y3, y4, s1, m1, m2, s2, d1, d2, hdata, _, _, _, hm1, hm2, hd1, hd2, ht⟩ :=
    ParseDate_some date t h
  have hday : t.Day = (decNat [d1, d2] : Int) := by
    rw [ht, Date_UTC]
    unfold Time.Day
    simp only
    have e : (daysFromCivil (decNat [y1, y2, y3, y4]) (decNat [m1, m2]) (decNat [d1, d2]) * 86400
        + 0 * 3600 + 0 * 60 + 0) / 86400
        = daysFromCivil (decNat [y1, y2, y3, y4]) (decNat [m1, m2]) (decNat [d1, d2]) := by
      omega
    rw [e, civil_roundtrip _ _ _ (by omega) (by omega) (by omega) hd2]
  unfold spec.R7
  rw [hday, hdata]
  simp only [List.drop_succ_cons, List.drop_zero]
  by_cases hodd : decNat [d1, d2] % 2 = 1
  · rw [if_pos hodd, if_pos (by omega)]
  · rw [if_neg hodd, if_neg (by omega)]

end calculator

/-! ## The purchase time: rule 8 -/

namespace calculator

open models

theorem decNat_one (a : Char) : decNat [a] = digitVal a := by
  simp [decNat]

theorem decNat_two (a b : Char) : decNat [a, b] = 10 * digitVal a + digitVal b := by
  simp [decNat]

theorem colon_not_digit (c : Char) (h : c.toNat = 58) : isDigit c = false := by
  simp [isDigit, h]

theorem days_year0 : daysFromCivil 0 1 1 = -719528 := by decide!

theorem clock_start : (Time.ParseClock "14:00").getD Time.zero = ⟨-62167168800⟩ := by decide!

theorem clock_end : (Time.ParseClock "16:00").getD Time.zero = ⟨-62167161600⟩ := by decide!

/-- What `time.Parse("15:04", s)` returns when it succeeds: the time of day written by the
digits before and after the colon, on January 1 of year 0. -/
theorem ParseClock_some (s : String) (t : Time) (h : Time.ParseClock s = some t) :
    ∃ hour min : Nat, hour < 24 ∧ min < 60 ∧ spec.hour s = hour ∧
      t = ⟨-62167219200 + hour * 3600 + min * 60⟩ := by
  unfold Time.ParseClock at h
  split at h
  · rename_i h1 c m1 m2 hdata
    by_cases c1 : [h1, m1, m2].all isDigit = true ∧ c.toNat = 58
    · rw [if_pos c1] at h
      simp only at h
      by_cases c2 : (60 : Int) ≤ (decNat [m1, m2] : Int)
      · rw [if_pos c2] at h
        exact absurd h (by simp)
      · rw [if_neg c2] at h
        simp only [Option.some.injEq] at h
        obtain ⟨hd, hc⟩ := c1
        simp only [List.all_cons, List.all_nil, Bool.and_true, Bool.and_eq_true] at hd
        have hh := digitVal_lt h1 hd.1
        refine ⟨decNat [h1], decNat [m1, m2], by rw [decNat_one]; omega, by omega, ?_, ?_⟩
        · unfold spec.hour
          rw [hdata]
          simp [List.takeWhile, hd.1, colon_not_digit c hc]
        · rw [← h, Date_UTC, days_year0]
          congr 1
          omega
    · rw [if_neg c1] at h
      exact absurd h (by simp)
  · rename_i h1 h2 c m1 m2 hdata
    by_cases c1 : [h1, h2, m1, m2].all isDigit = true ∧ c.toNat = 58
    · rw [if_pos c1] at h
      simp only at h
      by_cases c2 : (24 : Int) ≤ (decNat [h1, h2] : Int)
      · rw [if_pos c2] at h
        exact absurd h (by simp)
      · rw [if_neg c2] at h
        by_cases c3 : (60 : Int) ≤ (decNat [m1, m2] : Int)
        · rw [if_pos c3] at h
          exact absurd h (by simp)
        · rw [if_neg c3] at h
          simp only [Option.some.injEq] at h
          obtain ⟨hd, hc⟩ := c1
          simp only [List.all_cons, List.all_nil, Bool.and_true, Bool.and_eq_true] at hd
          refine ⟨decNat [h1, h2], decNat [m1, m2], by omega, by omega, ?_, ?_⟩
          · unfold spec.hour
            rw [hdata]
            simp [List.takeWhile, hd.1, hd.2.1, colon_not_digit c hc]
          · rw [← h, Date_UTC, days_year0]
            congr 1
            omega
    · rw [if_neg c1] at h
      exact absurd h (by simp)
  · exact absurd h (by simp)

/-- Rule 8 awards its 10 points exactly when the hour of the parsed time is 14 or 15. -/
theorem rule8_of_parse (s : String) (t : Time) (h : Time.ParseClock s = some t) :
    rule8 s = spec.R8 s ∧ (t.Hour : Int) = spec.hour s ∧
      (14 * 60 ≤ t.Hour * 60 + t.Minute ∧ t.Hour * 60 + t.Minute < 16 * 60 ↔
        spec.hour s = 14 ∨ spec.hour s = 15) := by
  obtain ⟨hour, min, hh, hm, hsp, ht⟩ := ParseClock_some s t h
  have hHour : t.Hour = (hour : Int) := by
    rw [ht]; unfold Time.Hour; simp only; omega
  have hMin : t.Minute = (min : Int) := by
    rw [ht]; unfold Time.Minute; simp only; omega
  refine ⟨?_, by rw [hHour, hsp], by rw [hHour, hMin, hsp]; omega⟩
  unfold rule8 spec.R8
  rw [h, hsp]
  simp only [clock_start, clock_end, Time.Before, ht]
  by_cases hw : hour = 14 ∨ hour = 15
  · rw [if_pos hw, if_pos]
    simp only [Bool.and_eq_true, Bool.not_eq_true', decide_eq_false_iff_not, decide_eq_true_eq]
    omega
  · rw [if_neg hw, if_neg]
    simp only [Bool.and_eq_true, Bool.not_eq_true', decide_eq_false_iff_not, decide_eq_true_eq]
    omega

end calculator

/-! ## Rule 5 in exact arithmetic, and the whole sum -/

namespace calculator

open models

theorem desc_class_ascii (c : Char)
    (h : (isWordChar c || isReSpace c || decide (c.toNat = 45)) = true) : c.toNat < 128 := by
  simp only [isWordChar, isDigit, isAsciiLetter, isReSpace, Bool.or_eq_true, Bool.and_eq_true,
    decide_eq_true_eq] at h
  omega

theorem byteLen_TrimSpace_of_valid (s : String) (h : validator.validDesc s.data = true) :
    byteLen (TrimSpace s.data) = (TrimSpace s.data).length := by
  unfold validator.validDesc at h
  simp only [Bool.and_eq_true, List.all_eq_true] at h
  exact byteLen_ascii _ (fun c hc => desc_class_ascii c (h.2 c (mem_TrimSpace _ _ hc)))

theorem rule5Unbounded_of_valid (env : Env) (item : Item) (h : validator.ItemOk env item)
    (hb : spec.cents item.Price < 10 ^ 15) : rule5Unbounded env item = spec.R5item item := by
  obtain ⟨hc, x, hp, hx, _, _⟩ := priceOk_float env item.Price h.2.2
  obtain ⟨q, hq, hceil⟩ := F64.ceil_fifth_cents (spec.cents item.Price) hc hb
  rw [← hx] at hq
  unfold rule5Unbounded spec.R5item
  simp only [hp, hq, F64.ceilUnbounded, hceil, byteLen_TrimSpace_of_valid _ h.2.1]

theorem sum_map_congr {α : Type} (f g : α → Int) (l : List α) (h : ∀ a ∈ l, f a = g a) :
    (l.map f).sum = (l.map g).sum := by
  rw [List.map_congr_left h]

/-- For an accepted receipt with the total and every price below `10^13`, the contributions the
code computes are the rule contributions in exact arithmetic. -/
theorem pointsUnbounded_eq_spec (env : Env) (r : Receipt)
    (h : validator.New.ValidateReceipt env r = true)
    (hprice : ∀ item ∈ r.Items, spec.cents item.Price < 10 ^ 15)
    (htotal : spec.cents r.Total < 10 ^ 15) :
    pointsUnbounded env r = spec.points r := by
  obtain ⟨hret, ⟨d, hd⟩, ⟨t, ht⟩, _, hitems, htot⟩ := validator.accepted_facts env r h
  unfold pointsUnbounded spec.points
  rw [countAlphanumeric_of_valid env _ hret, rule3_of_valid env _ htot.1 htotal,
    rule7_of_parse _ d hd, (rule8_of_parse _ t ht).1,
    sum_map_congr _ _ _ (fun item hi => rule5Unbounded_of_valid env item (hitems item hi)
      (hprice item hi))]
  unfold spec.R2 spec.R3 spec.R4 spec.R5 rule2
  have : ((r.Items.length / 2 * 5 : Nat) : Int) = ((5 * (r.Items.length / 2) : Nat) : Int) := by
    rw [Nat.mul_comm]
  rw [this]

end calculator

/-! ## Independence of the environment -/

namespace calculator

open models

theorem ParseFloat_plain (env env2 : Env) (s : String)
    (h : (plainDecimal s.data).isSome = true) : ParseFloat env s = ParseFloat env2 s := by
  unfold ParseFloat
  cases hp : plainDecimal s.data with
  | none => rw [hp] at h; exact absurd h (by simp)
  | some p => rfl

theorem toInt64_fits (env env2 : Env) (x : F64) (h : F64.fitsInt64 x = true) :
    F64.toInt64 env x = F64.toInt64 env2 x := by
  cases x with
  | fin q =>
    simp only [F64.fitsInt64, decide_eq_true_eq] at h
    unfold F64.toInt64
    simp only
    rw [if_pos h, if_pos h]
  | inf n => exact absurd h (by simp [F64.fitsInt64])
  | nan => exact absurd h (by simp [F64.fitsInt64])

theorem rule5_envFree (env : Env) (item : Item)
    (h : ((plainDecimal item.Price.data).isSome &&
      F64.fitsInt64 (F64.Ceil (F64.mul (ParseFloat sampleEnv item.Price).1
        (F64.round (2 / 10))))) = true) :
    rule5 env item = rule5 sampleEnv item := by
  simp only [Bool.and_eq_true] at h
  obtain ⟨h1, h2⟩ := h
  unfold rule5
  rw [ParseFloat_plain env sampleEnv _ h1]
  rcases hp : ParseFloat sampleEnv item.Price with ⟨p, err⟩
  rw [hp] at h2
  simp only at h2
  cases err with
  | true => rfl
  | false =>
    simp only
    rw [toInt64_fits env sampleEnv _ h2]

theorem foldl_rule5_envFree (env : Env) (items : List Item) (p0 : Int)
    (h : items.all (fun item => (plainDecimal item.Price.data).isSome &&
      F64.fitsInt64 (F64.Ceil (F64.mul (ParseFloat sampleEnv item.Price).1
        (F64.round (2 / 10))))) = true) :
    items.foldl (fun points item => wrapInt64 (points + rule5 env item)) p0
      = items.foldl (fun points item => wrapInt64 (points + rule5 sampleEnv item)) p0 := by
  induction items generalizing p0 with
  | nil => rfl
  | cons a l ih =>
    simp only [List.all_cons, Bool.and_eq_true] at h
    rw [List.foldl_cons, List.foldl_cons, rule5_envFree env a (by simpa using h.1), ih _ h.2]

/-- On a receipt that reads nothing of the environment, `CalculatePoints` is the same in
every environment. -/
theorem CalculatePoints_envFree (env : Env) (r : Receipt) (h : envFree r = true) :
    CalculatePoints env r = CalculatePoints sampleEnv r := by
  unfold envFree at h
  simp only [Bool.and_eq_true, List.all_eq_true, decide_eq_true_eq] at h
  obtain ⟨⟨h1, h2⟩, h3⟩ := h
  have hc : countAlphanumeric env r.Retailer = countAlphanumeric sampleEnv r.Retailer := by
    unfold countAlphanumeric
    congr 2
    apply List.filter_congr
    intro c hc
    simp only [IsLetter, IsNumber, if_pos (h1 c hc)]
  have h3r : rule3 env r.Total = rule3 sampleEnv r.Total := by
    unfold rule3
    rw [ParseFloat_plain env sampleEnv _ h2]
  unfold CalculatePoints
  simp only
  rw [hc, h3r, foldl_rule5_envFree env r.Items _ (by
    simp only [List.all_eq_true, Bool.and_eq_true]; exact h3)]

end calculator

/-! ## The claims -/

/-- On a receipt with nothing but a total, `CalculatePoints` returns what rules 2 and 3 add
for the total. -/
theorem calculator.CalculatePoints_total_only (env : Env) (total : String) :
    calculator.CalculatePoints env ⟨"", "", "", [], total⟩
      = calculator.rule2 total + calculator.rule3 env total := by
  obtain ⟨a2, b2⟩ := calculator.rule2_range total
  obtain ⟨a3, b3⟩ := calculator.rule3_range env total
  have h1 : calculator.countAlphanumeric env "" = 0 := rfl
  have h7 : calculator.rule7 "" = 0 := rfl
  have h8 : calculator.rule8 "" = 0 := rfl
  unfold calculator.CalculatePoints
  simp only [h1, h7, h8, List.foldl_nil, List.length_nil, zero_add, add_zero]
  rw [wrapInt64_of_range 0 (by norm_num) (by norm_num)]
  simp only [zero_add, add_zero, Nat.zero_div, Nat.zero_mul, Nat.cast_zero]
  rw [wrapInt64_of_range 0 (by norm_num) (by norm_num)]
  simp only [zero_add, add_zero]
  rw [wrapInt64_of_range (calculator.rule2 total) (by omega) (by omega),
    wrapInt64_of_range (calculator.rule2 total + calculator.rule3 env total) (by omega)
      (by omega),
    wrapInt64_of_range (calculator.rule2 total + calculator.rule3 env total) (by omega)
      (by omega)]
  rw [wrapInt64_of_range (calculator.rule2 total + calculator.rule3 env total) (by omega)
      (by omega),
    wrapInt64_of_range (calculator.rule2 total + calculator.rule3 env total) (by omega)
      (by omega)]

/-- C1: on the canonical receipt (retailer "Target", total "35.35", the five items, date
2022-01-01, time 13:01) `CalculatePoints` returns exactly 28, in every environment. -/
theorem scenarioA_points (env : Env) : calculator.CalculatePoints env receiptA = 28 := by
  rw [calculator.CalculatePoints_envFree env receiptA (by decide!)]
  decide!

/-- C2 (as amended): for every receipt that `ValidateReceipt` accepts, whose total and item
prices are below `10^13` and whose rule contributions sum to less than `2^63`,
`CalculatePoints` returns exactly the sum of the rule contributions R1 to R8 computed in exact
arithmetic. -/
theorem points_eq_rule_sum (env : Env) (r : models.Receipt)
    (h : validator.New.ValidateReceipt env r = true)
    (hprice : ∀ item ∈ r.Items, spec.cents item.Price < 10 ^ 15)
    (htotal : spec.cents r.Total < 10 ^ 15)
    (hsum : spec.points r < 2 ^ 63) :
    calculator.CalculatePoints env r = spec.points r := by
  have hu := calculator.pointsUnbounded_eq_spec env r h hprice htotal
  have hok := (validator.accepted_facts env r h).2.2.2.2.1
  rw [(calculator.CalculatePoints_eq_unbounded env r hok (by rw [hu]; exact hsum)).1, hu]

theorem points_eq_rule_sum_witness :
    validator.New.ValidateReceipt sampleEnv receiptB = true ∧
    (∀ item ∈ receiptB.Items, spec.cents item.Price < 10 ^ 15) ∧
    spec.cents receiptB.Total < 10 ^ 15 ∧ spec.points receiptB < 2 ^ 63 ∧
    calculator.CalculatePoints sampleEnv receiptB = spec.points receiptB ∧
    spec.points receiptB = 109 ∧ calculator.CalculatePoints sampleEnv receiptB = 109 :=
  have h1 : validator.New.ValidateReceipt sampleEnv receiptB = true := by decide!
  have h2 : ∀ item ∈ receiptB.Items, spec.cents item.Price < 10 ^ 15 := by decide!
  have h3 : spec.cents receiptB.Total < 10 ^ 15 := by decide!
  have h4 : spec.points receiptB < 2 ^ 63 := by decide!
  ⟨h1, h2, h3, h4, points_eq_rule_sum sampleEnv receiptB h1 h2 h3 h4, by decide!, by decide!⟩

/-- C2 as stated fails: the receipt with one item priced "100000000000000000.01" is accepted,
the rule contributions sum to 20000000000000004, and `CalculatePoints` returns
20000000000000028. -/
theorem points_ne_rule_sum_large :
    validator.New.ValidateReceipt sampleEnv receiptLargePrice = true ∧
    spec.points receiptLargePrice = 20000000000000004 ∧
    calculator.CalculatePoints sampleEnv receiptLargePrice = 20000000000000028 ∧
    calculator.CalculatePoints sampleEnv receiptLargePrice ≠ spec.points receiptLargePrice := by
  decide!

/-- C3 (as amended): for every receipt that `ValidateReceipt` accepts and whose contributions,
added as unbounded integers, stay below `2^63`, the result of `CalculatePoints` is that sum
and is greater than or equal to 0. -/
theorem points_nonneg_of_no_overflow (env : Env) (r : models.Receipt)
    (h : validator.New.ValidateReceipt env r = true)
    (hb : calculator.pointsUnbounded env r < 2 ^ 63) :
    0 ≤ calculator.CalculatePoints env r ∧
    calculator.CalculatePoints env r = calculator.pointsUnbounded env r := by
  have hok := (validator.accepted_facts env r h).2.2.2.2.1
  obtain ⟨h1, h2⟩ := calculator.CalculatePoints_eq_unbounded env r hok hb
  exact ⟨by rw [h1]; exact h2, h1⟩

theorem points_nonneg_of_no_overflow_witness :
    validator.New.ValidateReceipt sampleEnv receiptA = true ∧
    calculator.pointsUnbounded sampleEnv receiptA < 2 ^ 63 ∧
    0 ≤ calculator.CalculatePoints sampleEnv receiptA :=
  have h1 : validator.New.ValidateReceipt sampleEnv receiptA = true := by decide!
  have h2 : calculator.pointsUnbounded sampleEnv receiptA < 2 ^ 63 := by decide!
  ⟨h1, h2, (points_nonneg_of_no_overflow sampleEnv receiptA h1 h2).1⟩

/-- C3 as stated fails: the receipt with two items priced `5 * 2^62` is accepted, each item
earns `2^62` points, and the `int64` sum wraps around to a negative result. -/
theorem points_negative_on_overflow :
    validator.New.ValidateReceipt sampleEnv receiptOverflow = true ∧
    calculator.CalculatePoints sampleEnv receiptOverflow = -9223372036854775725 ∧
    calculator.CalculatePoints sampleEnv receiptOverflow < 0 := by
  decide!

/-- C5 (as amended): for every total string that matches the money pattern and is below
`10^13`, the points `CalculatePoints` awards for the total (all it returns when the receipt
holds nothing else) are 75 when the cents are 00, 25 when the cents are 25, 50 or 75, and 0
otherwise; rule 2 awards exactly when the cents are 00 and rule 3 exactly when the total in
cents is a multiple of 25. -/
theorem total_rules_bounded (env : Env) (total : String)
    (hv : validator.validPrice total.data = true) (hb : spec.cents total < 10 ^ 15) :
    (calculator.CalculatePoints env ⟨"", "", "", [], total⟩ =
      if spec.cents total % 100 = 0 then 75
      else if spec.cents total % 100 = 25 ∨ spec.cents total % 100 = 50 ∨
        spec.cents total % 100 = 75 then 25 else 0) ∧
    (calculator.rule2 total + calculator.rule3 env total =
      if spec.cents total % 100 = 0 then 75
      else if spec.cents total % 100 = 25 ∨ spec.cents total % 100 = 50 ∨
        spec.cents total % 100 = 75 then 25 else 0) ∧
    (calculator.rule2 total = 50 ↔ spec.cents total % 100 = 0) ∧
    (calculator.rule3 env total = 25 ↔ spec.cents total % 25 = 0) := by
  rw [calculator.CalculatePoints_total_only, rule2_of_valid total hv,
    rule3_of_valid env total hv hb]
  refine ⟨?_, ?_, ?_, ?_⟩
  · split_ifs <;> omega
  · split_ifs <;> omega
  · split_ifs <;> simp_all
  · split_ifs <;> simp_all

theorem total_rules_bounded_witness :
    validator.validPrice "9.00".data = true ∧ spec.cents "9.00" < 10 ^ 15 ∧
    calculator.rule2 "9.00" + calculator.rule3 sampleEnv "9.00" = 75 :=
  have h1 : validator.validPrice "9.00".data = true := by decide!
  have h2 : spec.cents "9.00" < 10 ^ 15 := by decide!
  ⟨h1, h2, (total_rules_bounded sampleEnv "9.00" h1 h2).2.1⟩

/-- C5 as stated fails: the total "100000000000000000000.13" matches the money pattern, its
cents are 13, and rule 3 still awards 25 points (alone, and inside `CalculatePoints`). -/
theorem total_rules_large :
    validator.validPrice totalLarge.data = true ∧ spec.cents totalLarge % 100 = 13 ∧
    spec.cents totalLarge % 25 ≠ 0 ∧
    calculator.rule3 sampleEnv totalLarge = 25 ∧
    calculator.rule2 totalLarge + calculator.rule3 sampleEnv totalLarge ≠ 0 ∧
    calculator.CalculatePoints sampleEnv ⟨"", "", "", [], totalLarge⟩ = 25 := by
  decide!

theorem wrapInt64_range (z : Int) : -2 ^ 63 ≤ wrapInt64 z ∧ wrapInt64 z < 2 ^ 63 := by
  unfold wrapInt64
  omega

/-- The score as a function of the purchase time alone: the points before rule 8, a value of
`int64`, plus what rule 8 adds. -/
theorem CalculatePoints_time (env : Env) (r : models.Receipt) :
    ∃ pre : Int, -2 ^ 63 ≤ pre ∧ pre < 2 ^ 63 ∧ ∀ time : String,
      calculator.CalculatePoints env { r with PurchaseTime := time }
        = wrapInt64 (pre + calculator.rule8 time) := by
  refine ⟨wrapInt64 (r.Items.foldl
      (fun points item => wrapInt64 (points + calculator.rule5 env item))
      (wrapInt64 (wrapInt64 (wrapInt64 (wrapInt64 (0 + calculator.countAlphanumeric env r.Retailer)
        + calculator.rule2 r.Total) + calculator.rule3 env r.Total)
        + wrapInt64 ((r.Items.length / 2 * 5 : Nat) : Int)))
      + calculator.rule7 r.PurchaseDate), (wrapInt64_range _).1, (wrapInt64_range _).2,
    fun time => rfl⟩

/-- C4 (as amended): for a purchase time that parses as HH:MM, rule 8 adds its 10 points
exactly when 14:00 <= time < 16:00, that is, when the hour (the digits before the colon) is 14
or 15; with every other field fixed, the score for such a time is the score for "16:00" or "13:59" plus 10 in `int64`, and
the score for any other time is equal to that one.  In particular "14:00" and "15:59" score
exactly 10 more than "16:00" and "13:59" whenever that sum stays below `2^63`. -/
theorem rule8_window (env : Env) (r : models.Receipt) (time : String) (t : Time)
    (h : Time.ParseClock time = some t) :
    (calculator.rule8 time =
      if 14 * 60 ≤ t.Hour * 60 + t.Minute ∧ t.Hour * 60 + t.Minute < 16 * 60 then 10 else 0) ∧
    (14 * 60 ≤ t.Hour * 60 + t.Minute ∧ t.Hour * 60 + t.Minute < 16 * 60 ↔
      t.Hour = 14 ∨ t.Hour = 15) ∧
    t.Hour = (spec.hour time : Int) ∧
    (∀ out ∈ ["16:00", "13:59"],
      calculator.CalculatePoints env { r with PurchaseTime := time } =
        (if t.Hour = 14 ∨ t.Hour = 15 then
          wrapInt64 (calculator.CalculatePoints env { r with PurchaseTime := out } + 10)
        else calculator.CalculatePoints env { r with PurchaseTime := out })) ∧
    (∀ win ∈ ["14:00", "15:59"], ∀ out ∈ ["16:00", "13:59"],
      calculator.CalculatePoints env { r with PurchaseTime := win } =
        wrapInt64 (calculator.CalculatePoints env { r with PurchaseTime := out } + 10) ∧
      (calculator.CalculatePoints env { r with PurchaseTime := out } + 10 < 2 ^ 63 →
        calculator.CalculatePoints env { r with PurchaseTime := win } =
          calculator.CalculatePoints env { r with PurchaseTime := out } + 10)) := by
  obtain ⟨h8, hH, hiff⟩ := calculator.rule8_of_parse time t h
  have hwin : (14 * 60 ≤ t.Hour * 60 + t.Minute ∧ t.Hour * 60 + t.Minute < 16 * 60 ↔
      t.Hour = 14 ∨ t.Hour = 15) := by
    rw [hiff, hH]; omega
  have hrule : calculator.rule8 time = if t.Hour = 14 ∨ t.Hour = 15 then 10 else 0 := by
    rw [h8]; unfold spec.R8
    by_cases hw : spec.hour time = 14 ∨ spec.hour time = 15
    · rw [if_pos hw, if_pos (by rw [hH]; omega)]
    · rw [if_neg hw, if_neg (by rw [hH]; omega)]
  obtain ⟨pre, p0, p1, hpre⟩ := CalculatePoints_time env r
  have hout : ∀ out ∈ ["16:00", "13:59"],
      calculator.CalculatePoints env { r with PurchaseTime := out } = pre := by
    intro out ho
    have h0 : calculator.rule8 out = 0 := by
      simp only [List.mem_cons, List.mem_singleton, List.not_mem_nil, or_false] at ho
      rcases ho with e | e <;> subst e <;> decide!
    rw [hpre, h0, add_zero, wrapInt64_of_range pre p0 p1]
  have hin : ∀ win ∈ ["14:00", "15:59"], calculator.rule8 win = 10 := by
    intro win hw
    simp only [List.mem_cons, List.mem_singleton, List.not_mem_nil, or_false] at hw
    rcases hw with e | e <;> subst e <;> decide!
  refine ⟨?_, hwin, hH, ?_, ?_⟩
  · rw [hrule]
    by_cases hw : t.Hour = 14 ∨ t.Hour = 15
    · rw [if_pos hw, if_pos (hwin.mpr hw)]
    · rw [if_neg hw, if_neg (fun c => hw (hwin.mp c))]
  · intro out ho
    rw [hout out ho, hpre, hrule]
    by_cases hw : t.Hour = 14 ∨ t.Hour = 15
    · rw [if_pos hw, if_pos hw]
    · rw [if_neg hw, if_neg hw, add_zero, wrapInt64_of_range pre p0 p1]
  · intro win hw out ho
    rw [hout out ho, hpre, hin win hw]
    exact ⟨rfl, fun hlt => wrapInt64_of_range _ (by omega) hlt⟩

theorem rule8_window_witness :
    Time.ParseClock "14:33" = some ⟨-62167166820⟩ ∧
    calculator.rule8 "14:33" = 10 ∧
    calculator.CalculatePoints sampleEnv { receiptB with PurchaseTime := "14:00" } =
      calculator.CalculatePoints sampleEnv { receiptB with PurchaseTime := "16:00" } + 10 :=
  have h1 : Time.ParseClock "14:33" = some ⟨-62167166820⟩ := by decide!
  have h := rule8_window sampleEnv receiptB "14:33" ⟨-62167166820⟩ h1
  ⟨h1, h.1, (h.2.2.2.2 "14:00" (by decide) "16:00" (by decide)).2 (by decide!)⟩

/-- C4 as stated fails where the `int64` sum wraps around: an accepted receipt scores
`2^63 - 10` at "16:00" and `-2^63`, not 10 more, at "14:00". -/
theorem rule8_window_wraps :
    validator.New.ValidateReceipt sampleEnv receiptBoundary = true ∧
    validator.New.ValidateReceipt sampleEnv { receiptBoundary with PurchaseTime := "14:00" }
      = true ∧
    calculator.CalculatePoints sampleEnv receiptBoundary = 9223372036854775798 ∧
    calculator.CalculatePoints sampleEnv { receiptBoundary with PurchaseTime := "14:00" }
      = -9223372036854775808 ∧
    calculator.CalculatePoints sampleEnv { receiptBoundary with PurchaseTime := "14:00" }
      ≠ calculator.CalculatePoints sampleEnv receiptBoundary + 10 := by
  decide!

/-! ## The store -/

namespace store

open models

theorem getPoints_save_other (s : MemoryStore) (id k : String) (r : Receipt) (p : Int)
    (h : k ≠ id) : (s.SaveReceipt id r p).GetPoints k = s.GetPoints k := by
  simp [MemoryStore.SaveReceipt, MemoryStore.GetPoints, h]

theorem getPoints_foldl_other (ops : List (String × Receipt × Int)) (id : String)
    (h : ∀ op ∈ ops, op.1 ≠ id) (s : MemoryStore) :
    (ops.foldl (fun s op => s.SaveReceipt op.1 op.2.1 op.2.2) s).GetPoints id
      = s.GetPoints id := by
  induction ops generalizing s with
  | nil => rfl
  | cons op ops ih =>
    have hop : id ≠ op.1 := fun e => h op (List.mem_cons_self _ _) e.symm
    have hrest : ∀ o ∈ ops, o.1 ≠ id := fun o ho => h o (List.mem_cons_of_mem _ ho)
    rw [List.foldl_cons, ih hrest, getPoints_save_other _ _ _ _ _ hop]

theorem getPoints_save_same (s : MemoryStore) (id : String) (r : Receipt) (p : Int) :
    (s.SaveReceipt id r p).GetPoints id = (p, true) := by
  simp [MemoryStore.SaveReceipt, MemoryStore.GetPoints]

/-- C6: `GetPoints(id)` right after `SaveReceipt(id, receipt, p)` returns `(p, true)`, for
every store state, id, receipt and points. -/
theorem getPoints_after_save (s : MemoryStore) (id : String) (receipt : Receipt) (p : Int) :
    (s.SaveReceipt id receipt p).GetPoints id = (p, true) :=
  getPoints_save_same s id receipt p

/-- C7: on a fresh store every `GetPoints` reports not-found, and so does `GetPoints(id)` on a
store reached from a fresh one by saves none of which used `id`. -/
theorem getPoints_never_saved (id : String) :
    (NewMemoryStore.GetPoints id).2 = false ∧
    ∀ ops : List (String × Receipt × Int), (∀ op ∈ ops, op.1 ≠ id) →
      ((afterSaves ops).GetPoints id).2 = false := by
  refine ⟨rfl, fun ops h => ?_⟩
  unfold afterSaves
  rw [getPoints_foldl_other ops id h]
  rfl

theorem getPoints_never_saved_witness :
    (∀ op ∈ [("a", receiptA, (28 : Int)), ("b", receiptA, 5)], op.1 ≠ "c") ∧
    ((afterSaves [("a", receiptA, 28), ("b", receiptA, 5)]).GetPoints "c").2 = false :=
  ⟨by decide, (getPoints_never_saved "c").2 _ (by decide)⟩

/-- C8: a second `SaveReceipt` with the same id overwrites receipt and points: the state is
that after the second save alone, `GetPoints(id)` is `(p2, true)` and the stored receipt
is `r2`. -/
theorem save_overwrites (s : MemoryStore) (id : String) (r1 r2 : Receipt) (p1 p2 : Int) :
    (s.SaveReceipt id r1 p1).SaveReceipt id r2 p2 = s.SaveReceipt id r2 p2 ∧
    ((s.SaveReceipt id r1 p1).SaveReceipt id r2 p2).GetPoints id = (p2, true) ∧
    ((s.SaveReceipt id r1 p1).SaveReceipt id r2 p2).receipts id = some r2 := by
  refine ⟨?_, ?_, ?_⟩
  · simp only [MemoryStore.SaveReceipt, MemoryStore.mk.injEq]
    constructor <;> funext k <;> by_cases h : k = id <;> simp [h]
  · simp [MemoryStore.SaveReceipt, MemoryStore.GetPoints]
  · simp [MemoryStore.SaveReceipt]

/-- C9: `SaveReceipt` removes nothing: an id found before the call is found after it, with the
same points when it is not the saved id; keys of either map stay keys; and when the two maps
have the same keys before the call (as in a fresh store) they have the same keys after it. -/
theorem save_keeps_entries (s : MemoryStore) (id : String) (r : Receipt) (p : Int) :
    (∀ k, (s.GetPoints k).2 = true → ((s.SaveReceipt id r p).GetPoints k).2 = true) ∧
    (∀ k, k ≠ id → (s.SaveReceipt id r p).GetPoints k = s.GetPoints k) ∧
    (∀ k, (s.receipts k).isSome = true → ((s.SaveReceipt id r p).receipts k).isSome = true) ∧
    (∀ k, (NewMemoryStore.receipts k).isSome = (NewMemoryStore.points k).isSome) ∧
    ((∀ k, (s.receipts k).isSome = (s.points k).isSome) →
      ∀ k, ((s.SaveReceipt id r p).receipts k).isSome
        = ((s.SaveReceipt id r p).points k).isSome) := by
  refine ⟨fun k hk => ?_, fun k hk => getPoints_save_other s id k r p hk, fun k hk => ?_,
    fun k => rfl, fun h k => ?_⟩
  · by_cases e : k = id
    · subst e; rw [getPoints_save_same]
    · rw [getPoints_save_other s id k r p e]; exact hk
  · by_cases e : k = id <;> simp [MemoryStore.SaveReceipt, e, hk]
  · by_cases e : k = id <;> simp [MemoryStore.SaveReceipt, e, h k]

theorem save_keeps_entries_witness :
    ((NewMemoryStore.SaveReceipt "a" receiptA 28).GetPoints "a").2 = true ∧
    (((NewMemoryStore.SaveReceipt "a" receiptA 28).SaveReceipt "b" receiptA 5).GetPoints "a").2
      = true :=
  ⟨by decide, (save_keeps_entries (NewMemoryStore.SaveReceipt "a" receiptA 28) "b" receiptA 5).1
    "a" (by decide)⟩

end store

/-! ## Accumulated violations -/

namespace validator

open models

/-- C10: on a fresh validator, a receipt with an empty retailer and a purchase date after the
current time is rejected, and the recorded violations begin with the one for the retailer
followed by the one for the date, so there are at least two. -/
theorem empty_retailer_future_date (env : Env) (r : Receipt) (t : Time)
    (hret : r.Retailer = "") (hdate : Time.ParseDate r.PurchaseDate = some t)
    (hfut : t.AfterNow env.now = true) :
    New.ValidateReceipt env r = false ∧
    2 ≤ (New.runReceipt env r).Errors.length ∧
    [⟨Message.retailerEmpty⟩, ⟨Message.purchaseDateInFuture⟩]
      <+: (New.runReceipt env r).Errors := by
  have h2 : ((New.validateRetailer env r.Retailer).validatePurchaseDate env r.PurchaseDate).errors
      = [⟨Message.retailerEmpty⟩, ⟨Message.purchaseDateInFuture⟩] := by
    simp [Validator.validateRetailer, Validator.validatePurchaseDate, hret, hdate, hfut,
      Validator.addError, New]
  have hpre : [⟨Message.retailerEmpty⟩, ⟨Message.purchaseDateInFuture⟩]
      <+: (New.runReceipt env r).Errors := by
    unfold Validator.runReceipt Validator.Errors
    rw [← h2]
    exact List.IsPrefix.trans (List.IsPrefix.trans (List.IsPrefix.trans
      (validatePurchaseTime_grows _ _ _ _) (validateItems_grows _ _ _))
      (validatePrice_grows _ _ _ _)) (validateTotalMatchesItems_grows _ _ _ _)
  have hlen : 2 ≤ (New.runReceipt env r).Errors.length := by
    have := hpre.length_le
    simpa using this
  refine ⟨?_, hlen, hpre⟩
  unfold Validator.ValidateReceipt Validator.HasErrors
  unfold Validator.Errors at hlen
  simp only [Bool.not_eq_false', decide_eq_true_eq]
  omega

theorem empty_retailer_future_date_witness :
    receiptEmptyFuture.Retailer = "" ∧
    Time.ParseDate receiptEmptyFuture.PurchaseDate = some ⟨1893456000⟩ ∧
    Time.AfterNow ⟨1893456000⟩ sampleEnv.now = true ∧
    New.ValidateReceipt sampleEnv receiptEmptyFuture = false ∧
    2 ≤ (New.runReceipt sampleEnv receiptEmptyFuture).Errors.length :=
  have h := empty_retailer_future_date sampleEnv receiptEmptyFuture ⟨1893456000⟩
    (by decide!) (by decide!) (by decide!)
  ⟨by decide!, by decide!, by decide!, h.1, h.2.1⟩

end validator

/-! ## The last day of a month -/

theorem marchDays_eq (y doy : Int) :
    marchDays y doy = 365 * y + y / 4 - y / 100 + y / 400 + doy := by
  unfold marchDays
  simp only
  omega

theorem isLeap_iff (y : Int) :
    isLeap y = true ↔ (y % 4 = 0 ∧ (y % 100 ≠ 0 ∨ y % 400 = 0)) := by
  simp [isLeap]

theorem daysIn_cases (m y : Int) :
    (m = 2 → ((y % 4 = 0 ∧ (y % 100 ≠ 0 ∨ y % 400 = 0)) → daysIn m y = 29) ∧
      (¬ (y % 4 = 0 ∧ (y % 100 ≠ 0 ∨ y % 400 = 0)) → daysIn m y = 28)) ∧
    (m = 4 ∨ m = 6 ∨ m = 9 ∨ m = 11 → daysIn m y = 30) ∧
    (m = 1 ∨ m = 3 ∨ m = 5 ∨ m = 7 ∨ m = 8 ∨ m = 10 ∨ m = 12 → daysIn m y = 31) := by
  unfold daysIn
  refine ⟨fun h2 => ⟨fun hl => ?_, fun hl => ?_⟩, fun h => ?_, fun h => ?_⟩
  · rw [if_pos h2, if_pos ((isLeap_iff y).mpr hl)]
  · rw [if_pos h2, if_neg (fun c => hl ((isLeap_iff y).mp c))]
  · rw [if_neg (by omega), if_pos h]
  · rw [if_neg (by omega), if_neg (by omega)]

/-- Day 0 of the next month is the last day of the month: the two day counts agree. -/
theorem daysFromCivil_day0 (y m : Int) (hm0 : 1 ≤ m) (hm1 : m ≤ 12) :
    daysFromCivil y (m + 1) 0 = daysFromCivil y m (daysIn m y) := by
  obtain ⟨hfeb, h30, h31⟩ := daysIn_cases m y
  have hm : m = 1 ∨ m = 2 ∨ m = 3 ∨ m = 4 ∨ m = 5 ∨ m = 6 ∨ m = 7 ∨ m = 8 ∨ m = 9 ∨ m = 10 ∨
      m = 11 ∨ m = 12 := by omega
  unfold daysFromCivil
  simp only [marchDays_eq]
  rcases hm with h | h | h | h | h | h | h | h | h | h | h | h
  all_goals subst h
  all_goals norm_num
  all_goals first
    | (rw [h31 (by norm_num)]; omega)
    | (rw [h30 (by norm_num)]; omega)
    | (by_cases hl : (y % 4 = 0 ∧ (y % 100 ≠ 0 ∨ y % 400 = 0))
       · rw [(hfeb rfl).1 hl]; omega
       · rw [(hfeb rfl).2 hl]; omega)

theorem daysIn_pos (m y : Int) : 1 ≤ daysIn m y := by
  unfold daysIn
  split_ifs <;> omega

/-- The day `time.Date(year, month+1, 0, ...)` falls on is the number of days of the month. -/
theorem lastDay_eq (y m : Int) (hm0 : 1 ≤ m) (hm1 : m ≤ 12) :
    (Time.Date y (m + 1) 0 0 0 0 Time.UTC).Day = daysIn m y := by
  rw [calculator.Date_UTC]
  unfold Time.Day
  simp only
  have e : (daysFromCivil y (m + 1) 0 * 86400 + 0 * 3600 + 0 * 60 + 0) / 86400
      = daysFromCivil y (m + 1) 0 := by omega
  rw [e, daysFromCivil_day0 y m hm0 hm1,
    civil_roundtrip y m (daysIn m y) hm0 hm1 (daysIn_pos m y) (le_refl _)]

/-! ## The purchase date check -/

namespace validator

open models

/-- What a parsed purchase date holds: the date its digits write, at midnight UTC. -/
theorem ParseDate_fields (s : String) (t : Time) (h : Time.ParseDate s = some t) :
    ∃ Y M D : Int, 1 ≤ M ∧ M ≤ 12 ∧ 1 ≤ D ∧ D ≤ daysIn M Y ∧
      t.Year = Y ∧ t.Month = M ∧ t.Day = D ∧ t.unix = daysFromCivil Y M D * 86400 := by
  obtain ⟨y1, y2, y3, y4, s1, m1, m2, s2, d1, d2, _, _, _, _, hm1, hm2, hd1, hd2, ht⟩ :=
    calculator.ParseDate_some s t h
  have hu : t.unix = daysFromCivil (decNat [y1, y2, y3, y4]) (decNat [m1, m2])
      (decNat [d1, d2]) * 86400 := by
    rw [ht, calculator.Date_UTC]
    simp
  have hdiv : t.unix / 86400 = daysFromCivil (decNat [y1, y2, y3, y4]) (decNat [m1, m2])
      (decNat [d1, d2]) := by
    rw [hu]; omega
  have hc := civil_roundtrip (decNat [y1, y2, y3, y4]) (decNat [m1, m2]) (decNat [d1, d2])
    (by omega) (by omega) (by omega) hd2
  refine ⟨decNat [y1, y2, y3, y4], decNat [m1, m2], decNat [d1, d2], by omega, by omega,
    by omega, hd2, ?_, ?_, ?_, hu⟩
  · unfold Time.Year; rw [hdiv, hc]
  · unfold Time.Month; rw [hdiv, hc]
  · unfold Time.Day; rw [hdiv, hc]

/-- The three outcomes of `validatePurchaseDate`: a date that does not parse, a date after the
clock, and any other date, for which nothing is recorded (the day never exceeds the last day
of the month once the date has parsed). -/
theorem validatePurchaseDate_eq (env : Env) (v : Validator) (date : String) :
    (Time.ParseDate date = none →
      v.validatePurchaseDate env date = v.addError Message.invalidPurchaseDate) ∧
    (∀ t, Time.ParseDate date = some t → t.AfterNow env.now = true →
      v.validatePurchaseDate env date = v.addError Message.purchaseDateInFuture) ∧
    (∀ t, Time.ParseDate date = some t → t.AfterNow env.now = false →
      v.validatePurchaseDate env date = v) := by
  refine ⟨fun h => ?_, fun t h hf => ?_, fun t h hf => ?_⟩
  · unfold Validator.validatePurchaseDate; rw [h]
  · unfold Validator.validatePurchaseDate; rw [h]; simp only; rw [if_pos hf]
  · obtain ⟨Y, M, D, hM0, hM1, hD0, hD1, hY, hMo, hDa, _⟩ := ParseDate_fields date t h
    unfold Validator.validatePurchaseDate
    rw [h]
    simp only
    rw [if_neg (by rw [hf]; simp), hY, hMo, hDa, lastDay_eq Y M hM0 hM1, if_neg (by omega)]

end validator

/-! ## Dates written out -/

theorem digitChar_toNat (n : Nat) : (digitChar n).toNat = 48 + n % 10 := by
  unfold digitChar
  have h : n % 10 < 10 := Nat.mod_lt _ (by norm_num)
  generalize n % 10 = k at h
  interval_cases k <;> rfl

theorem isDigit_digitChar (n : Nat) : isDigit (digitChar n) = true := by
  have h : n % 10 < 10 := Nat.mod_lt _ (by norm_num)
  simp only [isDigit, digitChar_toNat, Bool.and_eq_true, decide_eq_true_eq]
  omega

theorem digitVal_digitChar (n : Nat) : digitVal (digitChar n) = n % 10 := by
  unfold digitVal
  rw [digitChar_toNat]
  omega

theorem decNat_four (a b c d : Char) :
    decNat [a, b, c, d] = 1000 * digitVal a + 100 * digitVal b + 10 * digitVal c + digitVal d := by
  simp [decNat]
  ring

/-- What `time.Parse("2006-01-02", s)` returns on a date written out with a month from 01 to
12 and a day from 01 to 31: the date, unless the day is beyond the month. -/
theorem ParseDate_dateString (y m d : Nat) (hy : y ≤ 9999) (hm0 : 1 ≤ m) (hm1 : m ≤ 12)
    (hd0 : 1 ≤ d) (hd1 : d ≤ 31) :
    Time.ParseDate (spec.dateString y m d) =
      if (d : Int) ≤ daysIn m y then some (Time.Date y m d 0 0 0 Time.UTC) else none := by
  have e4 : decNat [digitChar (y / 1000), digitChar (y / 100), digitChar (y / 10), digitChar y]
      = y := by
    rw [decNat_four]; simp only [digitVal_digitChar]; omega
  have em : decNat [digitChar (m / 10), digitChar m] = m := by
    rw [calculator.decNat_two]; simp only [digitVal_digitChar]; omega
  have ed : decNat [digitChar (d / 10), digitChar d] = d := by
    rw [calculator.decNat_two]; simp only [digitVal_digitChar]; omega
  unfold Time.ParseDate spec.dateString
  simp only [e4, em, ed]
  have hdash : (Char.ofNat 45).toNat = 45 := rfl
  rw [if_pos (by simp [isDigit_digitChar, hdash]), if_neg (by omega)]
  by_cases h : (d : Int) ≤ daysIn m y
  · rw [if_neg (by omega), if_pos h]
  · rw [if_pos (by omega), if_neg h]

/-- C17: for a purchase date written as YYYY-MM-DD with a month from 01 to 12 and a day from
01 to 31, `validatePurchaseDate` records a violation (exactly one) if and only if the day
exceeds the last day of that month in that year, or the date is after the current time;
February has 29 days exactly in leap years. -/
theorem purchaseDate_violation_iff (env : Env) (v : validator.Validator) (y m d : Nat)
    (hy : y ≤ 9999) (hm0 : 1 ≤ m) (hm1 : m ≤ 12) (hd0 : 1 ≤ d) (hd1 : d ≤ 31) :
    ((v.validatePurchaseDate env (spec.dateString y m d)).errors ≠ v.errors ↔
      (daysIn m y < d ∨ env.now < daysFromCivil y m d * 86400)) ∧
    ((v.validatePurchaseDate env (spec.dateString y m d)).errors = v.errors ∨
      ∃ msg, (v.validatePurchaseDate env (spec.dateString y m d)).errors
        = v.errors ++ [⟨msg⟩]) ∧
    (daysIn 2 y = if (y : Int) % 4 = 0 ∧ ((y : Int) % 100 ≠ 0 ∨ (y : Int) % 400 = 0)
      then 29 else 28) := by
  obtain ⟨hnone, hfut, hok⟩ := validator.validatePurchaseDate_eq env v (spec.dateString y m d)
  have hparse := ParseDate_dateString y m d hy hm0 hm1 hd0 hd1
  have hleap : daysIn 2 (y : Int) = if (y : Int) % 4 = 0 ∧ ((y : Int) % 100 ≠ 0 ∨
      (y : Int) % 400 = 0) then 29 else 28 := by
    obtain ⟨hfeb, _, _⟩ := daysIn_cases 2 (y : Int)
    by_cases hl : (y : Int) % 4 = 0 ∧ ((y : Int) % 100 ≠ 0 ∨ (y : Int) % 400 = 0)
    · rw [if_pos hl]; exact (hfeb rfl).1 hl
    · rw [if_neg hl]; exact (hfeb rfl).2 hl
  have hne : ∀ msg, (v.addError msg).errors ≠ v.errors := by
    intro msg; simp [validator.Validator.addError]
  by_cases hday : (d : Int) ≤ daysIn m y
  · rw [if_pos hday] at hparse
    have hu : (Time.Date y m d 0 0 0 Time.UTC).unix = daysFromCivil y m d * 86400 := by
      rw [calculator.Date_UTC]; simp
    by_cases hafter : (Time.Date y m d 0 0 0 Time.UTC).AfterNow env.now = true
    · rw [hfut _ hparse hafter]
      refine ⟨⟨fun _ => Or.inr ?_, fun _ => hne _⟩, Or.inr ⟨_, rfl⟩, hleap⟩
      simpa [Time.AfterNow, hu] using hafter
    · have hfalse : (Time.Date y m d 0 0 0 Time.UTC).AfterNow env.now = false := by
        simpa using hafter
      rw [hok _ hparse hfalse]
      refine ⟨⟨fun c => absurd rfl c, fun c => ?_⟩, Or.inl rfl, hleap⟩
      rcases c with c | c
      · omega
      · exact absurd (by simpa [Time.AfterNow, hu] using c) hafter
  · rw [if_neg hday] at hparse
    rw [hnone hparse]
    exact ⟨⟨fun _ => Or.inl (by omega), fun _ => hne _⟩, Or.inr ⟨_, rfl⟩, hleap⟩

theorem purchaseDate_violation_iff_witness :
    (2024 : Nat) ≤ 9999 ∧
    (validator.New.validatePurchaseDate laterEnv "2023-02-29").errors ≠ [] ∧
    (validator.New.validatePurchaseDate laterEnv "2022-04-31").errors ≠ [] ∧
    (validator.New.validatePurchaseDate laterEnv "2024-02-29").errors = [] ∧
    ((validator.New.validatePurchaseDate laterEnv (spec.dateString 2024 2 29)).errors
        ≠ validator.New.errors ↔
      (daysIn 2 2024 < 29 ∨ laterEnv.now < daysFromCivil 2024 2 29 * 86400)) :=
  ⟨by decide, by decide!, by decide!, by decide!,
    (purchaseDate_violation_iff laterEnv validator.New 2024 2 29 (by decide) (by decide)
      (by decide) (by decide) (by decide)).1⟩

/-! ## Which checks record the purchase time in the future -/

namespace validator

open models

theorem future_addError (v : Validator) (m : Message) (hm : m ≠ Message.purchaseTimeInFuture)
    (h : (⟨Message.purchaseTimeInFuture⟩ : ValidationError) ∈ (v.addError m).errors) :
    (⟨Message.purchaseTimeInFuture⟩ : ValidationError) ∈ v.errors := by
  simp only [Validator.addError, List.mem_append, List.mem_singleton] at h
  rcases h with h | h
  · exact h
  · exact absurd (congrArg ValidationError.ErrorMessage h).symm hm

theorem future_ite_addError (v : Validator) (c : Prop) [Decidable c] (m : Message)
    (hm : m ≠ Message.purchaseTimeInFuture)
    (h : (⟨Message.purchaseTimeInFuture⟩ : ValidationError)
      ∈ (if c then v.addError m else v).errors) :
    (⟨Message.purchaseTimeInFuture⟩ : ValidationError) ∈ v.errors := by
  by_cases hc : c
  · rw [if_pos hc] at h; exact future_addError v m hm h
  · rw [if_neg hc] at h; exact h

theorem future_validateRetailer (env : Env) (v : Validator) (retailer : String)
    (h : (⟨Message.purchaseTimeInFuture⟩ : ValidationError)
      ∈ (v.validateRetailer env retailer).errors) :
    (⟨Message.purchaseTimeInFuture⟩ : ValidationError) ∈ v.errors := by
  unfold Validator.validateRetailer at h
  by_cases h0 : retailer.data = []
  · rw [if_pos h0] at h
    exact future_addError v _ (by simp) h
  · rw [if_neg h0] at h
    exact future_ite_addError _ _ _ (by simp) (future_ite_addError _ _ _ (by simp) h)

theorem future_validatePrice (env : Env) (v : Validator) (price field : String)
    (h : (⟨Message.purchaseTimeInFuture⟩ : ValidationError)
      ∈ (v.validatePrice env price field).errors) :
    (⟨Message.purchaseTimeInFuture⟩ : ValidationError) ∈ v.errors := by
  unfold Validator.validatePrice at h
  split at h
  · exact future_addError v _ (by simp) h
  · split at h
    · exact future_addError v _ (by simp) h
    · exact future_ite_addError v _ _ (by simp) h

theorem future_foldl {α : Type} (f : Validator → α → Validator)
    (hf : ∀ v a, (⟨Message.purchaseTimeInFuture⟩ : ValidationError) ∈ (f v a).errors →
      (⟨Message.purchaseTimeInFuture⟩ : ValidationError) ∈ v.errors) (l : List α)
    (v : Validator)
    (h : (⟨Message.purchaseTimeInFuture⟩ : ValidationError) ∈ (l.foldl f v).errors) :
    (⟨Message.purchaseTimeInFuture⟩ : ValidationError) ∈ v.errors := by
  induction l generalizing v with
  | nil => exact h
  | cons a l ih => exact hf v a (ih (f v a) h)

theorem future_validateItems (env : Env) (v : Validator) (items : List Item)
    (h : (⟨Message.purchaseTimeInFuture⟩ : ValidationError)
      ∈ (v.validateItems env items).errors) :
    (⟨Message.purchaseTimeInFuture⟩ : ValidationError) ∈ v.errors := by
  unfold Validator.validateItems at h
  split at h
  · exact future_addError v _ (by simp) h
  · refine future_foldl _ (fun w p hw => ?_) _ v h
    exact future_ite_addError _ _ _ (by simp) (future_ite_addError _ _ _ (by simp)
      (future_validatePrice _ _ _ _ hw))

theorem future_validateTotalMatchesItems (env : Env) (v : Validator) (total : String)
    (items : List Item)
    (h : (⟨Message.purchaseTimeInFuture⟩ : ValidationError)
      ∈ (v.validateTotalMatchesItems env total items).errors) :
    (⟨Message.purchaseTimeInFuture⟩ : ValidationError) ∈ v.errors := by
  unfold Validator.validateTotalMatchesItems at h
  exact future_ite_addError _ _ _ (by simp) h

theorem future_validatePurchaseTime (env : Env) (v : Validator) (timeStr date : String)
    (hv : v.errors ≠ [])
    (h : (⟨Message.purchaseTimeInFuture⟩ : ValidationError)
      ∈ (v.validatePurchaseTime env timeStr date).errors) :
    (⟨Message.purchaseTimeInFuture⟩ : ValidationError) ∈ v.errors := by
  have hhas : v.HasErrors = true := by
    unfold Validator.HasErrors
    simp only [gt_iff_lt, decide_eq_true_eq]
    exact List.length_pos.mpr hv
  unfold Validator.validatePurchaseTime at h
  split at h
  · exact future_addError v _ (by simp) h
  · simp only [hhas, Bool.not_true, Bool.false_eq_true, if_false] at h
    exact future_ite_addError _ _ _ (by simp) (future_ite_addError _ _ _ (by simp) h)

theorem validatePurchaseTime_future (env : Env) (v : Validator) (timeStr date : String)
    (d t : Time) (hv : v.errors = []) (hd : Time.ParseDate date = some d)
    (ht : Time.ParseClock timeStr = some t)
    (hafter : (Time.Date d.Year d.Month d.Day t.Hour t.Minute 0 env.zone).AfterNow env.now
      = true) :
    (⟨Message.purchaseTimeInFuture⟩ : ValidationError)
      ∈ (v.validatePurchaseTime env timeStr date).errors := by
  have hhas : v.HasErrors = false := by
    unfold Validator.HasErrors
    simp [hv]
  have hmem : (⟨Message.purchaseTimeInFuture⟩ : ValidationError)
      ∈ (v.addError Message.purchaseTimeInFuture).errors := by
    simp [Validator.addError]
  unfold Validator.validatePurchaseTime
  rw [ht]
  simp only [hd, Option.getD_some, hhas, Bool.not_false, if_true, hafter]
  exact (List.IsPrefix.trans (ite_addError_grows _ _ _) (ite_addError_grows _ _ _)).subset hmem

/-- C11 (what the code does, against the claim and its own comment): for every receipt whose
purchase date parses and is not in the future, whose purchase time parses, and whose combined
date and time is after the current time, `ValidateReceipt` records the
purchase-time-in-the-future violation when the retailer check has recorded no violation, and
drops it whenever the retailer check has recorded one: the comparison sits under
`if !v.HasErrors()`. -/
theorem timeInFuture_iff_retailer_ok (env : Env) (r : Receipt) (d t : Time)
    (hd : Time.ParseDate r.PurchaseDate = some d) (hnf : d.AfterNow env.now = false)
    (ht : Time.ParseClock r.PurchaseTime = some t)
    (hafter : (Time.Date d.Year d.Month d.Day t.Hour t.Minute 0 env.zone).AfterNow env.now
      = true) :
    (⟨Message.purchaseTimeInFuture⟩ : ValidationError) ∈ (New.runReceipt env r).Errors ↔
      (New.validateRetailer env r.Retailer).errors = [] := by
  have hdate : (New.validateRetailer env r.Retailer).validatePurchaseDate env r.PurchaseDate
      = New.validateRetailer env r.Retailer :=
    (validatePurchaseDate_eq env _ r.PurchaseDate).2.2 d hd hnf
  unfold Validator.runReceipt Validator.Errors
  simp only [Validator.validateTotal, hdate]
  constructor
  · intro h
    by_contra hne
    have h1 := future_validatePurchaseTime env _ _ _ hne
      (future_validateItems env _ _ (future_validatePrice env _ _ _
        (future_validateTotalMatchesItems env _ _ _ h)))
    have h2 := future_validateRetailer env New _ h1
    simp [New] at h2
  · intro hv
    exact (List.IsPrefix.trans (List.IsPrefix.trans (validateItems_grows env _ _)
      (validatePrice_grows env _ _ _)) (validateTotalMatchesItems_grows env _ _ _)).subset
      (validatePurchaseTime_future env _ _ _ d t hv hd ht hafter)

theorem timeInFuture_iff_retailer_ok_witness :
    Time.ParseDate receiptLate.PurchaseDate = some ⟨1699920000⟩ ∧
    Time.ParseClock receiptLate.PurchaseTime = some ⟨-62167132860⟩ ∧
    ((⟨Message.purchaseTimeInFuture⟩ : ValidationError)
        ∈ (New.runReceipt sampleEnv receiptLate).Errors ↔
      (New.validateRetailer sampleEnv receiptLate.Retailer).errors = []) ∧
    (New.validateRetailer sampleEnv receiptLate.Retailer).errors = [] :=
  ⟨by decide!, by decide!,
    timeInFuture_iff_retailer_ok sampleEnv receiptLate ⟨1699920000⟩ ⟨-62167132860⟩
      (by decide!) (by decide!) (by decide!) (by decide!), by decide!⟩

/-- C11, the failing input: the receipt `receiptLateEmpty` has a purchase date that parses and
is not in the future, a purchase time that parses, and a combined date and time after the
current time, yet its empty retailer has recorded a violation and the
purchase-time-in-the-future violation is not recorded; the same receipt with the retailer
"A+B" loses it too, and with the retailer "Target" it is recorded. -/
theorem timeInFuture_dropped_when_retailer_fails :
    Time.ParseDate receiptLateEmpty.PurchaseDate = some ⟨1699920000⟩ ∧
    Time.AfterNow ⟨1699920000⟩ sampleEnv.now = false ∧
    Time.ParseClock receiptLateEmpty.PurchaseTime = some ⟨-62167132860⟩ ∧
    (Time.Date (Time.Year ⟨1699920000⟩) (Time.Month ⟨1699920000⟩) (Time.Day ⟨1699920000⟩)
      (Time.Hour ⟨-62167132860⟩) (Time.Minute ⟨-62167132860⟩) 0 sampleEnv.zone).AfterNow
        sampleEnv.now = true ∧
    (New.validateRetailer sampleEnv receiptLateEmpty.Retailer).errors
      = [⟨Message.retailerEmpty⟩] ∧
    (New.runReceipt sampleEnv receiptLateEmpty).Errors = [⟨Message.retailerEmpty⟩] ∧
    (⟨Message.purchaseTimeInFuture⟩ : ValidationError)
      ∉ (New.runReceipt sampleEnv receiptLateEmpty).Errors ∧
    (receiptLateInvalid.PurchaseDate = receiptLateEmpty.PurchaseDate ∧
      receiptLateInvalid.PurchaseTime = receiptLateEmpty.PurchaseTime) ∧
    (New.runReceipt sampleEnv receiptLateInvalid).Errors = [⟨Message.retailerInvalidChars⟩] ∧
    (New.runReceipt sampleEnv receiptLate).Errors = [⟨Message.purchaseTimeInFuture⟩] := by
  decide!

end validator

/-! ## The identifier check -/

namespace validator

/-- C18 (with the class of the pattern spelled out): for every id string, `ValidateReceiptID`
returns true if and only if the id is non-empty and contains none of the five characters tab,
newline, form feed, carriage return and space, the class the pattern excludes; when it returns
false it records exactly one violation, and when it returns true it records none. -/
theorem validateReceiptID_iff (v : Validator) (id : String) :
    ((v.ValidateReceiptID id).1 = true ↔
      id.data ≠ [] ∧ ∀ c ∈ id.data, c.toNat ∉ [9, 10, 12, 13, 32]) ∧
    (v.ValidateReceiptID id).2.errors =
      (if (v.ValidateReceiptID id).1 = true then v.errors
        else v.errors ++ [⟨Message.idInvalid⟩]) := by
  have hid : validID id.data = true ↔
      id.data ≠ [] ∧ ∀ c ∈ id.data, c.toNat ∉ [9, 10, 12, 13, 32] := by
    unfold validID
    simp only [Bool.and_eq_true, Bool.not_eq_true', List.isEmpty_eq_false, List.all_eq_true,
      isReSpace, Bool.or_eq_false_iff, decide_eq_false_iff_not, List.mem_cons,
      List.mem_singleton, not_or, List.not_mem_nil, or_false, ne_eq, Bool.not_eq_eq_eq_not,
      Bool.not_true, and_assoc]
  unfold Validator.ValidateReceiptID
  by_cases h : validID id.data = true
  · rw [if_neg (by simp [h])]
    exact ⟨⟨fun _ => hid.mp h, fun _ => rfl⟩, by simp⟩
  · rw [if_pos (by simpa using h)]
    refine ⟨⟨fun c => absurd c (by simp), fun c => absurd (hid.mpr c) h⟩, ?_⟩
    simp [Validator.addError]

theorem validateReceiptID_iff_witness :
    (New.ValidateReceiptID "7fb1377b-b223-49d9-a31a-5a02701dd310").1 = true ∧
    (New.ValidateReceiptID "").1 = false ∧
    (New.ValidateReceiptID "a b").1 = false ∧
    (New.ValidateReceiptID "a b").2.errors = [⟨Message.idInvalid⟩] ∧
    ((New.ValidateReceiptID "a\tb").1 = true ↔
      "a\tb".data ≠ [] ∧ ∀ c ∈ "a\tb".data, c.toNat ∉ [9, 10, 12, 13, 32]) :=
  ⟨by decide!, by decide!, by decide!, by decide!, (validateReceiptID_iff New "a\tb").1⟩

/-- C18, the claim as worded fails: the vertical tab U+000B, the next-line character U+0085
and the no-break space U+00A0 are whitespace characters (for `unicode.IsSpace`, which
`strings.TrimSpace` uses), yet `ValidateReceiptID` returns true for an id that contains one of
them, and records nothing. -/
theorem validateReceiptID_accepts_other_spaces :
    isSpace (Char.ofNat 0x0B) = true ∧ isSpace (Char.ofNat 0x85) = true ∧
    isSpace (Char.ofNat 0xA0) = true ∧
    New.ValidateReceiptID (String.mk [Char.ofNat 97, Char.ofNat 0x0B, Char.ofNat 98])
      = (true, New) ∧
    New.ValidateReceiptID (String.mk [Char.ofNat 97, Char.ofNat 0x85, Char.ofNat 98])
      = (true, New) ∧
    New.ValidateReceiptID (String.mk [Char.ofNat 97, Char.ofNat 0xA0, Char.ofNat 98])
      = (true, New) := by
  decide!

end validator

/-! ## No parse failure on an accepted receipt -/

namespace validator

theorem errors_ne_of_append (l : List ValidationError) (a : List ValidationError)
    (ha : a ≠ []) : l ++ a ≠ l := by
  intro h
  have := congrArg List.length h
  simp only [List.length_append] at this
  have hpos := List.length_pos.mpr ha
  omega

theorem ascii_of_retailer_class (c : Char)
    (h : isAsciiLetter c = true ∨ isDigit c = true ∨ c.toNat = 95 ∨ isReSpace c = true ∨
      c.toNat = 45 ∨ c.toNat = 38) : c.toNat < 128 := by
  simp only [isAsciiLetter, isDigit, isReSpace, Bool.or_eq_true, Bool.and_eq_true,
    decide_eq_true_eq] at h
  omega

theorem validRetailer_iff (s : List Char) :
    validRetailer s = true ↔ s ≠ [] ∧ ∀ c ∈ s, (isAsciiLetter c = true ∨ isDigit c = true ∨
      c.toNat = 95 ∨ isReSpace c = true ∨ c.toNat = 45 ∨ c.toNat = 38) := by
  unfold validRetailer isWordChar
  simp only [Bool.and_eq_true, Bool.not_eq_true', List.isEmpty_eq_false, List.all_eq_true,
    Bool.or_eq_true, decide_eq_true_eq, ne_eq]
  constructor
  · rintro ⟨h0, h⟩
    refine ⟨h0, fun c hc => ?_⟩
    have := h c hc
    tauto
  · rintro ⟨h0, h⟩
    refine ⟨h0, fun c hc => ?_⟩
    have := h c hc
    tauto

/-- C14 (what the code does): for every retailer string, the retailer check records at least
one violation if and only if the retailer is empty, or contains a character other than A-Z,
a-z, 0-9, the underscore, whitespace, the hyphen and the ampersand, or contains no
alphanumeric character; so the retailer "A_B" is not rejected. -/
theorem retailer_violation_iff (env : Env) (v : Validator) (retailer : String) :
    ((v.validateRetailer env retailer).errors ≠ v.errors ↔
      (retailer.data = [] ∨
        (∃ c ∈ retailer.data, ¬(isAsciiLetter c = true ∨ isDigit c = true ∨ c.toNat = 95 ∨
          isReSpace c = true ∨ c.toNat = 45 ∨ c.toNat = 38)) ∨
        (∀ c ∈ retailer.data, isAsciiLetter c = false ∧ isDigit c = false))) ∧
    (New.validateRetailer env "A_B").errors = [] := by
  constructor
  · unfold Validator.validateRetailer
    by_cases h0 : retailer.data = []
    · rw [if_pos h0]
      exact ⟨fun _ => Or.inl h0, fun _ => errors_ne_of_append _ _ (by simp)⟩
    · rw [if_neg h0]
      by_cases hv : validRetailer retailer.data = true
      · have hclass := ((validRetailer_iff _).mp hv).2
        have henv : ∀ c ∈ retailer.data, (IsLetter env c || IsNumber env c)
            = (isAsciiLetter c || isDigit c) := by
          intro c hc
          have hlt := ascii_of_retailer_class c (hclass c hc)
          simp [IsLetter, IsNumber, hlt]
        have hany : (retailer.data.any fun char => IsLetter env char || IsNumber env char)
            = retailer.data.any (fun char => isAsciiLetter char || isDigit char) := by
          rw [List.any_eq, List.any_eq]
          refine decide_eq_decide.mpr ⟨?_, ?_⟩
          · rintro ⟨c, hc, h⟩; exact ⟨c, hc, by rw [← henv c hc]; exact h⟩
          · rintro ⟨c, hc, h⟩; exact ⟨c, hc, by rw [henv c hc]; exact h⟩
        simp only [hv, Bool.not_true, Bool.false_eq_true, if_false, hany]
        by_cases ha : (retailer.data.any fun char => isAsciiLetter char || isDigit char) = true
        · rw [if_neg (by simp [ha])]
          refine ⟨fun c => absurd rfl c, fun c => ?_⟩
          rcases c with c | ⟨c, hc, hbad⟩ | c
          · exact absurd c h0
          · exact absurd (hclass c hc) hbad
          · rw [List.any_eq_true] at ha
            obtain ⟨x, hx, hx2⟩ := ha
            have := c x hx
            simp [this.1, this.2] at hx2
        · rw [if_pos (by simpa using ha)]
          refine ⟨fun _ => Or.inr (Or.inr ?_), fun _ => errors_ne_of_append _ _ (by simp)⟩
          intro c hc
          have hf : (retailer.data.any fun char => isAsciiLetter char || isDigit char)
              = false := by simpa using ha
          rw [List.any_eq_false] at hf
          have := hf c hc
          simpa using this
      · have hbad : ∃ c ∈ retailer.data, ¬(isAsciiLetter c = true ∨ isDigit c = true ∨
            c.toNat = 95 ∨ isReSpace c = true ∨ c.toNat = 45 ∨ c.toNat = 38) := by
          by_contra hc
          push_neg at hc
          exact hv ((validRetailer_iff _).mpr ⟨h0, hc⟩)
        have hgrow : v.errors ++ [⟨Message.retailerInvalidChars⟩]
            <+: (if (!(retailer.data.any fun char => IsLetter env char || IsNumber env char))
              = true then (v.addError Message.retailerInvalidChars).addError
                Message.retailerNoAlphanumeric
              else v.addError Message.retailerInvalidChars).errors :=
          ite_addError_grows (v.addError Message.retailerInvalidChars) _ _
        simp only [hv, Bool.not_false, if_true]
        refine ⟨fun _ => Or.inr (Or.inl hbad), fun _ heq => ?_⟩
        rw [heq] at hgrow
        have := hgrow.length_le
        simp at this
  · have hA : ("A_B" : String).data ≠ [] := by decide
    have hv : validRetailer ("A_B" : String).data = true := by decide
    unfold Validator.validateRetailer
    rw [if_neg hA]
    simp only [hv, Bool.not_true, Bool.false_eq_true, if_false]
    have hany : (("A_B" : String).data.any fun char => IsLetter env char || IsNumber env char)
        = true := by
      rw [List.any_eq_true]
      exact ⟨Char.ofNat 65, by decide, by simp [IsLetter, isAsciiLetter]⟩
    rw [hany]
    rfl

end validator

/-! ## The sum of the prices in binary64 -/

namespace F64

theorem round_err (q : ℚ) (h0 : pow2 (-1022) ≤ q) (h1 : q < pow2 1023) :
    ∃ y : ℚ, round q = fin y ∧ -(q / 2 ^ 53) ≤ y - q ∧ y - q ≤ q / 2 ^ 53 := by
  refine ⟨roundMag q, round_of_normal q h0 h1, ?_⟩
  have h := roundMag_err q h0
  rw [abs_le] at h
  exact h

theorem near_range (a q K : ℚ) (ha : 0 ≤ a) (hK : K ≤ 2 ^ 52)
    (h1 : -(K * (a / 2 ^ 53)) ≤ q - a) (h2 : q - a ≤ K * (a / 2 ^ 53)) :
    a / 2 ≤ q ∧ q ≤ 2 * a := by
  have hw : 0 ≤ a / 2 ^ 53 := by positivity
  have hm := mul_le_mul_of_nonneg_right hK hw
  have he : (2 : ℚ) ^ 52 * (a / 2 ^ 53) = a / 2 := by norm_num; ring
  rw [he] at hm
  constructor <;> linarith

theorem near_chain (a q y K : ℚ) (ha : 0 ≤ a) (hK : K ≤ 2 ^ 52)
    (h1 : -(K * (a / 2 ^ 53)) ≤ q - a) (h2 : q - a ≤ K * (a / 2 ^ 53))
    (h3 : -(q / 2 ^ 53) ≤ y - q) (h4 : y - q ≤ q / 2 ^ 53) :
    -((K + 2) * (a / 2 ^ 53)) ≤ y - a ∧ y - a ≤ (K + 2) * (a / 2 ^ 53) := by
  obtain ⟨hq0, hq1⟩ := near_range a q K ha hK h1 h2
  have hq2 : q / 2 ^ 53 ≤ 2 * (a / 2 ^ 53) := by
    have : q / 2 ^ 53 ≤ 2 * a / 2 ^ 53 := div_le_div_of_nonneg_right hq1 (by positivity)
    linarith
  have hq3 : 0 ≤ q / 2 ^ 53 := by
    have : 0 ≤ q := by linarith
    positivity
  constructor
  · have : (K + 2) * (a / 2 ^ 53) = K * (a / 2 ^ 53) + 2 * (a / 2 ^ 53) := by ring
    linarith
  · have : (K + 2) * (a / 2 ^ 53) = K * (a / 2 ^ 53) + 2 * (a / 2 ^ 53) := by ring
    linarith

theorem add_near (k C c : Nat) (x p : ℚ) (hk : 3 * k + 3 ≤ 2 ^ 52) (hA : C + c < 10 ^ 15)
    (hx : |x - (C : ℚ) / 100| ≤ (3 * k : Nat) * ((C : ℚ) / 100 / 2 ^ 53))
    (hp : |p - (c : ℚ) / 100| ≤ (c : ℚ) / 100 / 2 ^ 53) :
    ∃ y : ℚ, add (fin x) (fin p) = fin y ∧
      |y - ((C + c : Nat) : ℚ) / 100|
        ≤ (3 * (k + 1) : Nat) * (((C + c : Nat) : ℚ) / 100 / 2 ^ 53) := by
  rw [abs_le] at hx hp
  obtain ⟨hx1, hx2⟩ := hx
  obtain ⟨hp1, hp2⟩ := hp
  have hC0 : (0 : ℚ) ≤ (C : ℚ) := Nat.cast_nonneg C
  have hc0 : (0 : ℚ) ≤ (c : ℚ) := Nat.cast_nonneg c
  have hk0 : (0 : ℚ) ≤ ((3 * k : Nat) : ℚ) := Nat.cast_nonneg _
  have hcast : ((C + c : Nat) : ℚ) = (C : ℚ) + c := by push_cast; ring
  have hK1 : ((3 * (k + 1) : Nat) : ℚ) = ((3 * k : Nat) : ℚ) + 1 + 2 := by push_cast; ring
  show ∃ y : ℚ, round (x + p) = fin y ∧ _
  by_cases hzero : C + c = 0
  · have hC : C = 0 := by omega
    have hc : c = 0 := by omega
    subst hC; subst hc
    simp only [Nat.cast_zero, zero_div, mul_zero, neg_zero, sub_zero] at hx1 hx2 hp1 hp2
    have hx0 : x = 0 := le_antisymm hx2 hx1
    have hp0 : p = 0 := le_antisymm hp2 hp1
    refine ⟨0, ?_, ?_⟩
    · rw [hx0, hp0]; simp [round]
    · simp
  · have hApos : (1 : ℚ) ≤ (C : ℚ) + c := by
      have : 1 ≤ C + c := by omega
      exact_mod_cast this
    have hAlt : (C : ℚ) + c < 10 ^ 15 := by exact_mod_cast hA
    have hwC : 0 ≤ (C : ℚ) / 100 / 2 ^ 53 := by positivity
    have hwc : 0 ≤ (c : ℚ) / 100 / 2 ^ 53 := by positivity
    have hKle : ((3 * k : Nat) : ℚ) + 1 ≤ 2 ^ 52 := by
      have : 3 * k + 1 ≤ 2 ^ 52 := by omega
      exact_mod_cast this
    -- the exact sum is near the sum of the amounts
    have hsplit : (((3 * k : Nat) : ℚ) + 1) * (((C : ℚ) + c) / 100 / 2 ^ 53)
        = ((3 * k : Nat) : ℚ) * ((C : ℚ) / 100 / 2 ^ 53) + (c : ℚ) / 100 / 2 ^ 53
          + (((3 * k : Nat) : ℚ) * ((c : ℚ) / 100 / 2 ^ 53) + (C : ℚ) / 100 / 2 ^ 53) := by
      ring
    have hrest : 0 ≤ ((3 * k : Nat) : ℚ) * ((c : ℚ) / 100 / 2 ^ 53) + (C : ℚ) / 100 / 2 ^ 53 :=
      add_nonneg (mul_nonneg hk0 hwc) hwC
    have hq1 : -((((3 * k : Nat) : ℚ) + 1) * (((C : ℚ) + c) / 100 / 2 ^ 53))
        ≤ (x + p) - ((C : ℚ) + c) / 100 := by
      rw [hsplit]; linarith
    have hq2 : (x + p) - ((C : ℚ) + c) / 100
        ≤ (((3 * k : Nat) : ℚ) + 1) * (((C : ℚ) + c) / 100 / 2 ^ 53) := by
      rw [hsplit]; linarith
    have ha0 : (0 : ℚ) ≤ ((C : ℚ) + c) / 100 := by positivity
    obtain ⟨hr0, hr1⟩ := near_range _ _ _ ha0 hKle hq1 hq2
    have hlow : pow2 (-1022) ≤ x + p := by
      have := pow2_neg1022_le
      linarith
    have hhigh : x + p < pow2 1023 := by
      have := lt_pow2_1023
      linarith
    obtain ⟨y, hy, hy1, hy2⟩ := round_err (x + p) hlow hhigh
    obtain ⟨hz1, hz2⟩ := near_chain _ _ y _ ha0 hKle hq1 hq2 hy1 hy2
    refine ⟨y, hy, ?_⟩
    rw [abs_le, hcast, hK1]
    exact ⟨hz1, hz2⟩

theorem round_cents (K A : Nat) (x : ℚ) (hK : (K + 2) * A < 2 ^ 52)
    (hx : |x - (A : ℚ) / 100| ≤ (K : ℚ) * ((A : ℚ) / 100 / 2 ^ 53)) :
    div (Round (mul (fin x) (fin 100))) (fin 100) = round ((A : ℚ) / 100) := by
  rw [abs_le] at hx
  obtain ⟨hx1, hx2⟩ := hx
  show div (Round (round (x * 100))) (fin 100) = _
  by_cases hzero : A = 0
  · subst hzero
    simp only [Nat.cast_zero, zero_div, mul_zero, neg_zero, sub_zero] at hx1 hx2
    have hx0 : x = 0 := le_antisymm hx2 hx1
    have hf : Int.floor ((0 : ℚ) + 1 / 2) = 0 := by
      rw [Int.floor_eq_iff]; norm_num
    have h0 : round ((0 : ℚ) * 100) = fin 0 := by simp [round]
    have h1 : round (((0 : Int) : ℚ) / 100) = fin 0 := by simp [round]
    rw [hx0, h0]
    simp only [Round, if_pos (le_refl (0 : ℚ)), hf, div]
    rw [if_neg (by norm_num), h1]
    simp [round]
  · have hA1 : 1 ≤ A := by omega
    have hApos : (1 : ℚ) ≤ (A : ℚ) := by exact_mod_cast hA1
    have hKA : K + 2 ≤ (K + 2) * A := Nat.le_mul_of_pos_right _ (by omega)
    have hKle : (K : ℚ) ≤ 2 ^ 52 := by
      have : K ≤ 2 ^ 52 := by omega
      exact_mod_cast this
    have hAlt : (A : ℚ) < 2 ^ 52 := by
      have h1 : A ≤ (K + 2) * A := Nat.le_mul_of_pos_left _ (by omega)
      have : A < 2 ^ 52 := by omega
      exact_mod_cast this
    have hprod : ((K : ℚ) + 2) * (A : ℚ) < 2 ^ 52 := by exact_mod_cast hK
    have he : (K : ℚ) * ((A : ℚ) / 2 ^ 53) = 100 * ((K : ℚ) * ((A : ℚ) / 100 / 2 ^ 53)) := by
      ring
    have hq1 : -((K : ℚ) * ((A : ℚ) / 2 ^ 53)) ≤ x * 100 - A := by rw [he]; linarith
    have hq2 : x * 100 - A ≤ (K : ℚ) * ((A : ℚ) / 2 ^ 53) := by rw [he]; linarith
    have ha0 : (0 : ℚ) ≤ (A : ℚ) := by linarith
    obtain ⟨hr0, hr1⟩ := near_range _ _ _ ha0 hKle hq1 hq2
    have hlow : pow2 (-1022) ≤ x * 100 := by
      have := pow2_neg1022_le
      linarith
    have hhigh : x * 100 < pow2 1023 := by
      have := lt_pow2_1023
      have h52 : (2 : ℚ) ^ 52 < 10 ^ 16 / 2 := by norm_num
      linarith
    obtain ⟨m, hm, hm1, hm2⟩ := round_err (x * 100) hlow hhigh
    obtain ⟨hz1, hz2⟩ := near_chain _ _ m _ ha0 hKle hq1 hq2 hm1 hm2
    have hhalf : ((K : ℚ) + 2) * ((A : ℚ) / 2 ^ 53) < 1 / 2 := by
      have : ((K : ℚ) + 2) * ((A : ℚ) / 2 ^ 53) = ((K : ℚ) + 2) * (A : ℚ) / 2 ^ 53 := by ring
      rw [this, div_lt_iff₀ (by positivity)]
      norm_num
      linarith
    have hm0 : 0 ≤ m := by linarith
    have hfloor : Int.floor (m + 1 / 2) = (A : Int) := by
      rw [Int.floor_eq_iff]
      push_cast
      constructor <;> linarith
    rw [hm]
    simp only [Round, if_pos hm0, hfloor, div]
    rw [if_neg (by norm_num)]
    push_cast
    rfl

theorem eq_symm (x y : F64) : F64.eq x y = F64.eq y x := by
  cases x <;> cases y <;> simp only [F64.eq]
  · exact decide_eq_decide.mpr eq_comm
  · exact Bool.beq_comm

theorem round_cents_inj (A B : Nat) (hA : A < 10 ^ 15) (hB : B < 10 ^ 15) :
    F64.eq (round ((A : ℚ) / 100)) (round ((B : ℚ) / 100)) = true ↔ A = B := by
  constructor
  · intro h
    have key : ∀ a b : Nat, a < 10 ^ 15 → b < 10 ^ 15 → a < b →
        F64.eq (round ((a : ℚ) / 100)) (round ((b : ℚ) / 100)) = true → False := by
      intro a b ha hb hab hab2
      have hbpos : 0 < b := by omega
      obtain ⟨hrb, herrb, _⟩ := cents_float b hbpos hb
      rw [abs_le] at herrb
      have hbq : (b : ℚ) < 10 ^ 15 := by exact_mod_cast hb
      have habq : (a : ℚ) + 1 ≤ (b : ℚ) := by exact_mod_cast hab
      have ha0 : (0 : ℚ) ≤ (a : ℚ) := Nat.cast_nonneg a
      have hsmall : (b : ℚ) / 100 / 2 ^ 53 < 1 / 400 := by
        rw [div_div, div_lt_iff₀ (by positivity)]
        norm_num
        linarith
      by_cases ha0n : a = 0
      · subst ha0n
        rw [hrb] at hab2
        simp only [Nat.cast_zero, zero_div, round, if_true, F64.eq, decide_eq_true_eq] at hab2
        have hbq1 : (1 : ℚ) ≤ b := by exact_mod_cast hbpos
        linarith [herrb.1]
      · have hapos : 0 < a := by omega
        obtain ⟨hra, herra, _⟩ := cents_float a hapos ha
        rw [abs_le] at herra
        rw [hra, hrb] at hab2
        simp only [F64.eq, decide_eq_true_eq] at hab2
        have hsmalla : (a : ℚ) / 100 / 2 ^ 53 < 1 / 400 := by
          rw [div_div, div_lt_iff₀ (by positivity)]
          norm_num
          linarith
        linarith [herra.2, herrb.1]
    rcases Nat.lt_trichotomy A B with hlt | heq | hgt
    · exact absurd (key A B hA hB hlt h) (by simp)
    · exact heq
    · rw [eq_symm] at h
      exact absurd (key B A hB hA hgt h) (by simp)
  · intro h
    subst h
    cases hra : round ((A : ℚ) / 100) with
    | fin q => simp [F64.eq]
    | inf n => simp [F64.eq]
    | nan => exact absurd hra (round_ne_nan _)

end F64

/-! ## The total against the sum of the prices -/

namespace validator

open models

theorem parse_near (env : Env) (s : String) (hv : validPrice s.data = true)
    (h : spec.cents s < 10 ^ 15) :
    ∃ p : ℚ, ParseFloat env s = (F64.fin p, false) ∧
      F64.round ((spec.cents s : ℚ) / 100) = F64.fin p ∧
      |p - (spec.cents s : ℚ) / 100| ≤ (spec.cents s : ℚ) / 100 / 2 ^ 53 := by
  obtain ⟨hfin, _⟩ := ParseFloat_of_valid env s hv
  by_cases h0 : spec.cents s = 0
  · have hr : F64.round ((spec.cents s : ℚ) / 100) = F64.fin 0 := by
      rw [h0]; simp [F64.round]
    refine ⟨0, hfin 0 hr, hr, ?_⟩
    rw [h0]; simp
  · obtain ⟨hr, herr, _⟩ := F64.cents_float (spec.cents s) (by omega) h
    exact ⟨_, hfin _ hr, hr, herr⟩

theorem sum_near (env : Env) (items : List Item) :
    ∀ (k C : Nat) (x : ℚ), (∀ item ∈ items, validPrice item.Price.data = true) →
      3 * (k + items.length) ≤ 2 ^ 52 → C + spec.itemCents items < 10 ^ 15 →
      |x - (C : ℚ) / 100| ≤ (3 * k : Nat) * ((C : ℚ) / 100 / 2 ^ 53) →
      ∃ y : ℚ, items.foldl (fun sum item => F64.add sum (ParseFloat env item.Price).1)
          (F64.fin x) = F64.fin y ∧
        |y - ((C + spec.itemCents items : Nat) : ℚ) / 100|
          ≤ (3 * (k + items.length) : Nat)
            * (((C + spec.itemCents items : Nat) : ℚ) / 100 / 2 ^ 53) := by
  induction items with
  | nil =>
    intro k C x _ _ _ hx
    exact ⟨x, rfl, by simpa [spec.itemCents] using hx⟩
  | cons item items ih =>
    intro k C x hv hk hC hx
    have hcons : spec.itemCents (item :: items) = spec.cents item.Price + spec.itemCents items := by
      simp [spec.itemCents]
    rw [hcons] at hC
    have hlen : (item :: items).length = items.length + 1 := rfl
    rw [hlen] at hk
    obtain ⟨p, hp, _, hperr⟩ := parse_near env item.Price
      (hv item (List.mem_cons_self _ _)) (by omega)
    obtain ⟨y, hy, hyerr⟩ := F64.add_near k C (spec.cents item.Price) x p (by omega) (by omega)
      hx hperr
    obtain ⟨z, hz, hzerr⟩ := ih (k + 1) (C + spec.cents item.Price) y
      (fun i hi => hv i (List.mem_cons_of_mem _ hi)) (by omega) (by omega) hyerr
    refine ⟨z, ?_, ?_⟩
    · rw [List.foldl_cons, hp]
      show List.foldl _ (F64.add (F64.fin x) (F64.fin p)) items = _
      rw [hy]
      exact hz
    · rw [hcons, hlen]
      have e1 : C + (spec.cents item.Price + spec.itemCents items)
          = C + spec.cents item.Price + spec.itemCents items := by omega
      have e2 : k + (items.length + 1) = k + 1 + items.length := by omega
      rw [e1, e2]
      exact hzerr

theorem totalMatches_eq (env : Env) (total : String) (items : List Item)
    (hv : validPrice total.data = true)
    (hitems : ∀ item ∈ items, validPrice item.Price.data = true)
    (hT : spec.cents total < 10 ^ 15) (hn : items.length < 10 ^ 15)
    (hC : (items.length + 1) * spec.itemCents items < 10 ^ 15) :
    F64.eq
      (F64.div (F64.Round (F64.mul
        (items.foldl (fun sum item => F64.add sum (ParseFloat env item.Price).1) (F64.fin 0))
        (F64.fin 100))) (F64.fin 100))
      (F64.div (F64.Round (F64.mul (ParseFloat env total).1 (F64.fin 100))) (F64.fin 100))
      = decide (spec.itemCents items = spec.cents total) := by
  have hCle : spec.itemCents items ≤ (items.length + 1) * spec.itemCents items :=
    Nat.le_mul_of_pos_left _ (by omega)
  have hC15 : spec.itemCents items < 10 ^ 15 := by omega
  obtain ⟨y, hy, hyerr⟩ := sum_near env items 0 0 0 hitems (by norm_num; omega)
    (by omega) (by simp)
  simp only [Nat.zero_add] at hy hyerr
  obtain ⟨t, ht, _, hterr⟩ := parse_near env total hv hT
  have hsum := F64.round_cents (3 * items.length) (spec.itemCents items) y
    (by
      have : (3 * items.length + 2) * spec.itemCents items
          ≤ 3 * ((items.length + 1) * spec.itemCents items) := by
        have h3 : (3 * items.length + 2) ≤ 3 * (items.length + 1) := by omega
        calc (3 * items.length + 2) * spec.itemCents items
            ≤ 3 * (items.length + 1) * spec.itemCents items := Nat.mul_le_mul_right _ h3
          _ = 3 * ((items.length + 1) * spec.itemCents items) := by ring
      norm_num at this ⊢
      omega) hyerr
  have htot := F64.round_cents 1 (spec.cents total) t (by norm_num; omega)
    (by simpa using hterr)
  rw [hy, ht, hsum, htot]
  by_cases he : spec.itemCents items = spec.cents total
  · rw [decide_eq_true he]
    exact (F64.round_cents_inj _ _ hC15 hT).mpr he
  · rw [decide_eq_false he]
    cases hb : F64.eq (F64.round ((spec.itemCents items : ℚ) / 100))
      (F64.round ((spec.cents total : ℚ) / 100)) with
    | false => rfl
    | true => exact absurd ((F64.round_cents_inj _ _ hC15 hT).mp hb) he

theorem totalMatches_errors (env : Env) (v : Validator) (total : String) (items : List Item)
    (hv : validPrice total.data = true)
    (hitems : ∀ item ∈ items, validPrice item.Price.data = true)
    (hT : spec.cents total < 10 ^ 15) (hn : items.length < 10 ^ 15)
    (hC : (items.length + 1) * spec.itemCents items < 10 ^ 15) :
    (v.validateTotalMatchesItems env total items).errors ≠ v.errors ↔
      spec.cents total ≠ spec.itemCents items := by
  unfold Validator.validateTotalMatchesItems
  simp only [totalMatches_eq env total items hv hitems hT hn hC]
  by_cases he : spec.itemCents items = spec.cents total
  · simp [he]
  · have he2 : ¬ spec.cents total = spec.itemCents items := fun h => he h.symm
    simp [he, he2, Validator.addError]

end validator

namespace validator

open models

theorem itemCents_ge_length (env : Env) (items : List Item)
    (h : ∀ item ∈ items, ItemOk env item) : items.length ≤ spec.itemCents items := by
  induction items with
  | nil => simp
  | cons item items ih =>
    have hpos := (priceOk_float env item.Price (h item (List.mem_cons_self _ _)).2.2).1
    have := ih (fun i hi => h i (List.mem_cons_of_mem _ hi))
    simp only [spec.itemCents, List.map_cons, List.sum_cons, List.length_cons] at this ⊢
    omega

theorem decimalValue_of_valid (s : String) (hv : validPrice s.data = true) :
    spec.decimalValue s = (spec.cents s : ℚ) / 100 := by
  unfold spec.decimalValue
  rw [plainDecimal_of_valid s hv]
  norm_num

theorem itemSum_of_valid (items : List Item)
    (h : ∀ item ∈ items, validPrice item.Price.data = true) :
    spec.itemSum items = (spec.itemCents items : ℚ) / 100 := by
  induction items with
  | nil => simp [spec.itemSum, spec.itemCents]
  | cons item items ih =>
    have h1 := decimalValue_of_valid item.Price (h item (List.mem_cons_self _ _))
    have h2 := ih (fun i hi => h i (List.mem_cons_of_mem _ hi))
    simp only [spec.itemSum, spec.itemCents, List.map_cons, List.sum_cons] at h2 ⊢
    rw [h1, h2]
    push_cast
    ring

theorem round2_cents (c : Nat) : spec.round2 ((c : ℚ) / 100) = (c : ℚ) / 100 := by
  have h0 : (0 : ℚ) ≤ (c : ℚ) / 100 := by positivity
  have hf : Int.floor ((c : ℚ) / 100 * 100 + 1 / 2) = (c : Int) := by
    rw [Int.floor_eq_iff]
    push_cast
    constructor <;> linarith
  unfold spec.round2
  rw [if_pos h0, hf]
  push_cast
  rfl

theorem totalMatches_of_nil (env : Env) (v : Validator) (total : String) (items : List Item)
    (hv : validPrice total.data = true)
    (hitems : ∀ item ∈ items, validPrice item.Price.data = true)
    (hT : spec.cents total < 10 ^ 15) (hn : items.length < 10 ^ 15)
    (hC : (items.length + 1) * spec.itemCents items < 10 ^ 15)
    (hnil : (v.validateTotalMatchesItems env total items).errors = []) :
    spec.cents total = spec.itemCents items := by
  have hprev := nil_of_grows (validateTotalMatchesItems_grows env v total items) hnil
  by_contra hneq
  have := (totalMatches_errors env v total items hv hitems hT hn hC).mpr hneq
  rw [hnil, hprev] at this
  exact this rfl

/-- C12 (within the reach of float64): for every receipt that `ValidateReceipt` accepts,
whose total is below 10^15 cents and whose item prices sum in cents to less than 10^15 over
the number of items plus one, the total in cents equals exactly the sum of the item prices in
cents; the receipt has at least one item, and every price and the total match the money
pattern. -/
theorem accepted_total_eq_sum (env : Env) (r : Receipt)
    (h : New.ValidateReceipt env r = true) (hT : spec.cents r.Total < 10 ^ 15)
    (hC : (r.Items.length + 1) * spec.itemCents r.Items < 10 ^ 15) :
    spec.cents r.Total = spec.itemCents r.Items ∧ r.Items ≠ [] ∧
      validPrice r.Total.data = true ∧ ∀ item ∈ r.Items, validPrice item.Price.data = true := by
  obtain ⟨_, _, _, hne, hitems, htotal⟩ := accepted_facts env r h
  have hvalid : ∀ item ∈ r.Items, validPrice item.Price.data = true :=
    fun item hi => (hitems item hi).2.2.1
  have hlen := itemCents_ge_length env r.Items hitems
  have hn : r.Items.length < 10 ^ 15 := by
    have : spec.itemCents r.Items ≤ (r.Items.length + 1) * spec.itemCents r.Items :=
      Nat.le_mul_of_pos_left _ (by omega)
    omega
  have hnil : (New.runReceipt env r).errors = [] := by
    unfold Validator.ValidateReceipt Validator.HasErrors at h
    simp only [Bool.not_eq_true', decide_eq_false_iff_not, not_lt, Nat.le_zero_eq,
      List.length_eq_zero, gt_iff_lt] at h
    exact h
  unfold Validator.runReceipt at hnil
  simp only at hnil
  exact ⟨totalMatches_of_nil env _ r.Total r.Items htotal.1 hvalid hT hn hC hnil, hne,
    htotal.1, hvalid⟩

theorem accepted_total_eq_sum_witness :
    New.ValidateReceipt sampleEnv receiptA = true ∧ spec.cents receiptA.Total = 3535 ∧
    spec.cents receiptA.Total = spec.itemCents receiptA.Items :=
  ⟨by decide!, by decide!,
    (accepted_total_eq_sum sampleEnv receiptA (by decide!) (by decide!) (by decide!)).1⟩

/-- C12, the claim as worded fails: `ValidateReceipt` accepts the receipt `receiptAbsorbed`,
whose total in cents is one cent less than the sum of its item prices in cents. -/
theorem accepted_total_ne_sum_large :
    New.ValidateReceipt sampleEnv receiptAbsorbed = true ∧
    spec.cents receiptAbsorbed.Total = 10000000000000000000 ∧
    spec.itemCents receiptAbsorbed.Items = 10000000000000000001 ∧
    spec.cents receiptAbsorbed.Total ≠ spec.itemCents receiptAbsorbed.Items := by
  decide!

/-- C13 (for amounts in whole cents): for a total and item prices that each match the money
pattern, with fewer than 10^15 items, the total below 10^15 cents and the summed prices in
cents below 10^15 over the number of items plus one, `validateTotalMatchesItems` records a
violation if and only if the total rounded to 2 decimal places differs from the sum of the item
prices rounded to 2 decimal places, both rounded half away from zero; that is, if and only if
the total and the sum differ. -/
theorem totalMatches_violation_iff (env : Env) (v : Validator) (total : String)
    (items : List Item) (hv : validPrice total.data = true)
    (hitems : ∀ item ∈ items, validPrice item.Price.data = true)
    (hT : spec.cents total < 10 ^ 15) (hn : items.length < 10 ^ 15)
    (hC : (items.length + 1) * spec.itemCents items < 10 ^ 15) :
    ((v.validateTotalMatchesItems env total items).errors ≠ v.errors ↔
      spec.round2 (spec.decimalValue total) ≠ spec.round2 (spec.itemSum items)) ∧
    ((v.validateTotalMatchesItems env total items).errors ≠ v.errors ↔
      spec.cents total ≠ spec.itemCents items) := by
  have hmain := totalMatches_errors env v total items hv hitems hT hn hC
  refine ⟨?_, hmain⟩
  rw [hmain, decimalValue_of_valid total hv, itemSum_of_valid items hitems, round2_cents,
    round2_cents]
  constructor
  · intro hne heq
    apply hne
    have h100 : (spec.cents total : ℚ) = (spec.itemCents items : ℚ) := by linarith
    exact_mod_cast h100
  · intro hne heq
    exact hne (by rw [heq])

theorem totalMatches_violation_iff_witness :
    (New.validateTotalMatchesItems sampleEnv "12.00" [⟨"a", "12.005"⟩]).errors ≠ [] ∧
    (New.validateTotalMatchesItems sampleEnv "12.00" [⟨"a", "11.995"⟩]).errors = [] ∧
    (New.validateTotalMatchesItems sampleEnv "12.00" [⟨"a", "6.00"⟩, ⟨"b", "6.01"⟩]).errors
      ≠ [] ∧
    ((New.validateTotalMatchesItems sampleEnv "12.00"
        [⟨"a", "6.00"⟩, ⟨"b", "6.00"⟩]).errors ≠ New.errors ↔
      spec.cents "12.00" ≠ spec.itemCents [⟨"a", "6.00"⟩, ⟨"b", "6.00"⟩]) :=
  ⟨by decide!, by decide!, by decide!,
    (totalMatches_violation_iff sampleEnv New "12.00" [⟨"a", "6.00"⟩, ⟨"b", "6.00"⟩]
      (by decide!) (by decide!) (by decide!) (by decide!) (by decide!)).2⟩

/-- C13, the claim as worded fails: the single price 1.005 rounds half away from zero to 1.01,
the total, yet `validateTotalMatchesItems` records a violation: it rounds the float64 product
of the sum and 100, which is below 100.5. -/
theorem totalMatches_half_cent :
    spec.itemSum [⟨"a", "1.005"⟩] = 1005 / 1000 ∧
    spec.round2 (spec.itemSum [⟨"a", "1.005"⟩]) = 101 / 100 ∧
    spec.round2 (spec.decimalValue "1.01") = 101 / 100 ∧
    F64.mul (ParseFloat sampleEnv "1.005").1 (F64.fin 100)
      = F64.fin (7072058789855231 / 70368744177664) ∧
    (New.validateTotalMatchesItems sampleEnv "1.01" [⟨"a", "1.005"⟩]).errors ≠ New.errors := by
  decide!

end validator

/-! ## The largest amount a float64 holds -/

namespace F64

theorem roundHalfEven_tie : roundHalfEven ((2 : ℚ) ^ 53 - 1 / 2) = 2 ^ 53 := by decide!

theorem pow2_1024_split : pow2 1024 = 2 ^ 53 * pow2 971 ∧ pow2 970 = 1 / 2 * pow2 971 := by
  decide!

theorem roundMag_top (q : ℚ) (h0 : pow2 1023 ≤ q) (h1 : q < pow2 1024) :
    roundMag q < pow2 1024 ↔ q < pow2 1024 - pow2 970 := by
  have hu := pow2_pos 971
  obtain ⟨e1, e2⟩ := pow2_1024_split
  have hm := roundMag_eq q 1023 h0 (by simpa using h1) (by norm_num)
  have h971 : (1023 : Int) - 52 = 971 := by norm_num
  rw [h971] at hm
  have herr := roundHalfEven_err (q / pow2 971)
  rw [abs_le] at herr
  have hq : q = q / pow2 971 * pow2 971 := by field_simp
  rw [hm, e1, e2]
  constructor
  · intro h
    have h2 : (roundHalfEven (q / pow2 971) : ℚ) < 2 ^ 53 := lt_of_mul_lt_mul_right h hu.le
    have h3 : roundHalfEven (q / pow2 971) < 2 ^ 53 := by exact_mod_cast h2
    have h4 : roundHalfEven (q / pow2 971) ≤ 2 ^ 53 - 1 := by omega
    have h5 : (roundHalfEven (q / pow2 971) : ℚ) ≤ 2 ^ 53 - 1 := by exact_mod_cast h4
    have h6 : q / pow2 971 ≤ 2 ^ 53 - 1 / 2 := by linarith [herr.1]
    rcases lt_or_eq_of_le h6 with h7 | h7
    · have := mul_lt_mul_of_pos_right h7 hu
      rw [← hq] at this
      linarith
    · rw [h7, roundHalfEven_tie] at h3
      exact absurd h3 (lt_irrefl _)
  · intro h
    have h7 : q / pow2 971 < 2 ^ 53 - 1 / 2 := by
      rw [div_lt_iff₀ hu]
      linarith
    have h2 : (roundHalfEven (q / pow2 971) : ℚ) < 2 ^ 53 := by linarith [herr.2]
    exact mul_lt_mul_of_pos_right h2 hu

theorem roundMag_huge (q : ℚ) (h : pow2 1024 ≤ q) : pow2 1024 ≤ roundMag q := by
  have hq0 : 0 < q := lt_of_lt_of_le (pow2_pos _) h
  obtain ⟨s1, s2⟩ := ilog2_spec q hq0
  have he : 1024 ≤ ilog2 q := by
    have := (pow2_lt_iff _ _).mp (lt_of_le_of_lt h s2)
    omega
  have hu := pow2_pos (ilog2 q - 52)
  rw [roundMag_eq q (ilog2 q) s1 s2 (by omega)]
  have herr := roundHalfEven_err (q / pow2 (ilog2 q - 52))
  rw [abs_le] at herr
  have hsplit : pow2 (ilog2 q) = 2 ^ 52 * pow2 (ilog2 q - 52) := by
    have : ilog2 q = 52 + (ilog2 q - 52) := by ring
    conv_lhs => rw [this, pow2_add]
    rw [show (52 : Int) = ((52 : Nat) : Int) from rfl, pow2_natCast]
  have hy : (2 : ℚ) ^ 52 ≤ q / pow2 (ilog2 q - 52) := by
    rw [le_div_iff₀ hu, ← hsplit]
    exact s1
  have h1 : ((2 : ℚ) ^ 52 - 1) < (roundHalfEven (q / pow2 (ilog2 q - 52)) : ℚ) := by
    linarith [herr.1]
  have h2 : (2 : Int) ^ 52 - 1 < roundHalfEven (q / pow2 (ilog2 q - 52)) := by
    exact_mod_cast h1
  have h3 : (2 : Int) ^ 52 ≤ roundHalfEven (q / pow2 (ilog2 q - 52)) := by omega
  have h4 : (2 : ℚ) ^ 52 ≤ (roundHalfEven (q / pow2 (ilog2 q - 52)) : ℚ) := by
    exact_mod_cast h3
  calc pow2 1024 ≤ pow2 (ilog2 q) := (pow2_le_iff _ _).mpr he
    _ = 2 ^ 52 * pow2 (ilog2 q - 52) := hsplit
    _ ≤ _ := mul_le_mul_of_nonneg_right h4 hu.le

theorem round_finite_iff (q : ℚ) (h0 : pow2 (-1022) ≤ q) :
    (∃ x : ℚ, round q = fin x) ↔ q < pow2 1024 - pow2 970 := by
  have hq0 : 0 < q := lt_of_lt_of_le (pow2_pos _) h0
  have hdef : (∃ x : ℚ, round q = fin x) ↔ roundMag q < pow2 1024 := by
    unfold round
    rw [if_neg hq0.ne', abs_of_pos hq0]
    simp only
    by_cases hb : pow2 1024 ≤ roundMag q
    · rw [if_pos hb]
      exact ⟨fun ⟨x, hx⟩ => absurd hx (by simp), fun c => absurd hb (not_le.mpr c)⟩
    · rw [if_neg hb]
      exact ⟨fun _ => not_le.mp hb, fun _ => ⟨_, rfl⟩⟩
  have h970 : pow2 1023 < pow2 1024 - pow2 970 := by
    obtain ⟨e1, e2⟩ := pow2_1024_split
    have e3 : pow2 1023 = 2 ^ 52 * pow2 971 := by decide!
    have hu := pow2_pos 971
    rw [e1, e2, e3]
    have : (2 : ℚ) ^ 53 * pow2 971 - 1 / 2 * pow2 971 - 2 ^ 52 * pow2 971
        = (2 ^ 52 - 1 / 2) * pow2 971 := by ring
    have hpos : 0 < ((2 : ℚ) ^ 52 - 1 / 2) * pow2 971 := mul_pos (by norm_num) hu
    linarith
  rw [hdef]
  by_cases h1 : q < pow2 1023
  · have hr := round_of_normal q h0 h1
    have := hdef.mp ⟨_, hr⟩
    exact ⟨fun _ => lt_trans h1 h970, fun _ => this⟩
  · by_cases h2 : q < pow2 1024
    · exact roundMag_top q (not_lt.mp h1) h2
    · have hbig := roundMag_huge q (not_lt.mp h2)
      have hp := pow2_pos 970
      exact ⟨fun c => absurd hbig (not_le.mpr c), fun c => absurd (not_lt.mp h2)
        (not_le.mpr (by linarith))⟩

end F64

/-! ## The price check -/

namespace validator

open models

theorem validPrice_iff (s : List Char) :
    validPrice s = true ↔ ∃ ip d1 d2, s = ip ++ [Char.ofNat 46, d1, d2] ∧ ip ≠ [] ∧
      (∀ x ∈ ip, isDigit x = true) ∧ isDigit d1 = true ∧ isDigit d2 = true := by
  constructor
  · intro h
    obtain ⟨ip, c, d1, d2, hs, hne, hall, hc, h1, h2, _, _⟩ := validPrice_shape s h
    have hc2 : c = Char.ofNat 46 := char_eq_of_toNat c 46 hc
    exact ⟨ip, d1, d2, by rw [hs, hc2], hne, hall, h1, h2⟩
  · rintro ⟨ip, d1, d2, hs, hne, hall, h1, h2⟩
    have hcn : isDigit (Char.ofNat 46) = false := by decide
    have htake : (ip ++ [Char.ofNat 46, d1, d2]).takeWhile isDigit = ip := by
      rw [List.takeWhile_append_of_pos hall]
      simp [List.takeWhile, hcn]
    have hdrop : (ip ++ [Char.ofNat 46, d1, d2]).dropWhile isDigit
        = [Char.ofNat 46, d1, d2] := by
      rw [List.dropWhile_append_of_pos hall]
      simp [List.dropWhile, hcn]
    unfold validPrice
    rw [hs, hdrop]
    simp only [htake, h1, h2, Bool.and_true, Bool.and_eq_true, Bool.not_eq_true',
      List.isEmpty_eq_false, decide_eq_true_eq]
    exact ⟨by simpa using hne, by decide⟩

theorem validatePrice_cases (env : Env) (v : Validator) (price field : String) :
    (v.validatePrice env price field).errors = v.errors ∨
    ∃ m, (m = Message.invalidPriceFormat ∨ m = Message.invalidPriceValue ∨
        m = Message.priceNotPositive) ∧
      (v.validatePrice env price field).errors = v.errors ++ [⟨m⟩] := by
  unfold Validator.validatePrice
  split
  · exact Or.inr ⟨_, Or.inl rfl, rfl⟩
  · split
    · exact Or.inr ⟨_, Or.inr (Or.inl rfl), rfl⟩
    · split
      · exact Or.inr ⟨_, Or.inr (Or.inr rfl), rfl⟩
      · exact Or.inl rfl

/-- C16 (with the limit of float64): for every string used as an item price or as the total,
`validatePrice` records no violation if and only if the string is one or more decimal digits,
a '.', and exactly two decimal digits, its value is strictly greater than 0, and its value is
below `2^1024 - 2^970`, where float64 overflows; otherwise it records exactly one violation. -/
theorem price_violation_iff (env : Env) (v : Validator) (price field : String) :
    ((v.validatePrice env price field).errors = v.errors ↔
      (validPrice price.data = true ∧ 0 < spec.cents price ∧
        (spec.cents price : ℚ) / 100 < pow2 1024 - pow2 970)) ∧
    (validPrice price.data = true ↔
      ∃ ip d1 d2, price.data = ip ++ [Char.ofNat 46, d1, d2] ∧ ip ≠ [] ∧
        (∀ x ∈ ip, isDigit x = true) ∧ isDigit d1 = true ∧ isDigit d2 = true) ∧
    ((v.validatePrice env price field).errors = v.errors ∨
      ∃ m, (v.validatePrice env price field).errors = v.errors ++ [⟨m⟩]) := by
  refine ⟨?_, validPrice_iff price.data, ?_⟩
  · have hadd : ∀ m, (v.addError m).errors ≠ v.errors :=
      fun m => errors_ne_of_append _ _ (by simp)
    unfold Validator.validatePrice
    by_cases hv : validPrice price.data = true
    · rw [if_neg (by simp [hv])]
      obtain ⟨hfin, hinf⟩ := ParseFloat_of_valid env price hv
      have hlow : 0 < spec.cents price → pow2 (-1022) ≤ (spec.cents price : ℚ) / 100 := by
        intro hpos
        have h1 : (1 : ℚ) ≤ (spec.cents price : ℚ) := by exact_mod_cast hpos
        have := F64.pow2_neg1022_le
        have h2 : (1 : ℚ) / 100 ≤ (spec.cents price : ℚ) / 100 :=
          div_le_div_of_nonneg_right h1 (by norm_num)
        linarith
      cases hr : F64.round ((spec.cents price : ℚ) / 100) with
      | nan => exact absurd hr (round_ne_nan _)
      | inf neg =>
        rw [hinf neg hr]
        simp only
        refine ⟨fun c => absurd c (hadd _), fun ⟨_, hpos, hlt⟩ => ?_⟩
        obtain ⟨x, hx⟩ := (F64.round_finite_iff _ (hlow hpos)).mpr hlt
        rw [hr] at hx
        exact absurd hx (by simp)
      | fin x =>
        rw [hfin x hr]
        simp only
        by_cases hpos : 0 < spec.cents price
        · have hq0 : (0 : ℚ) < (spec.cents price : ℚ) / 100 :=
            lt_of_lt_of_le (pow2_pos _) (hlow hpos)
          have hx := (round_fin_lt _ x hq0 hr).1
          have hxpos : 0 < x := by rw [hx]; exact F64.roundMag_pos _ (hlow hpos)
          have hle : F64.le (F64.fin x) (F64.fin 0) = false := by
            simp only [F64.le, decide_eq_false_iff_not, not_le]
            exact hxpos
          rw [hle]
          simp only [Bool.false_eq_true, if_false, true_iff]
          exact ⟨hv, hpos, (F64.round_finite_iff _ (hlow hpos)).mp ⟨x, hr⟩⟩
        · have h0 : spec.cents price = 0 := by omega
          rw [h0] at hr
          have hx : x = 0 := by
            simp only [Nat.cast_zero, zero_div, F64.round, if_true, F64.fin.injEq] at hr
            exact hr.symm
          have hle : F64.le (F64.fin x) (F64.fin 0) = true := by
            simp [F64.le, hx]
          rw [hle]
          simp only [if_true]
          exact ⟨fun c => absurd c (hadd _), fun ⟨_, c, _⟩ => absurd c hpos⟩
    · rw [if_pos (by simpa using hv)]
      exact ⟨fun c => absurd c (hadd _), fun ⟨c, _⟩ => absurd c hv⟩
  · rcases validatePrice_cases env v price field with h | ⟨m, _, h⟩
    · exact Or.inl h
    · exact Or.inr ⟨m, h⟩

theorem price_violation_iff_witness :
    (New.validatePrice sampleEnv "0.00" "total").errors = [⟨Message.priceNotPositive⟩] ∧
    (New.validatePrice sampleEnv "5" "total").errors = [⟨Message.invalidPriceFormat⟩] ∧
    (New.validatePrice sampleEnv "5.5" "total").errors = [⟨Message.invalidPriceFormat⟩] ∧
    (New.validatePrice sampleEnv "-1.00" "total").errors = [⟨Message.invalidPriceFormat⟩] ∧
    (New.validatePrice sampleEnv "35.35" "total").errors = [] ∧
    ((New.validatePrice sampleEnv "35.35" "total").errors = New.errors ↔
      (validPrice "35.35".data = true ∧ 0 < spec.cents "35.35" ∧
        (spec.cents "35.35" : ℚ) / 100 < pow2 1024 - pow2 970)) :=
  ⟨by decide!, by decide!, by decide!, by decide!, by decide!,
    (price_violation_iff sampleEnv New "35.35" "total").1⟩

/-- C16, the claim as worded fails: the price `priceHuge` is one or more decimal digits, a '.',
and exactly two decimal digits, and its value is strictly greater than 0, yet `validatePrice`
records a violation, because the value does not fit a float64. -/
theorem price_too_large_rejected :
    validPrice priceHuge.data = true ∧ spec.cents priceHuge = 10 ^ 311 ∧
    0 < spec.cents priceHuge ∧
    (New.validatePrice sampleEnv priceHuge "total").errors = [⟨Message.invalidPriceValue⟩] := by
  decide!

end validator

/-! ## The items check -/

namespace validator

open models

theorem validDesc_iff (s : List Char) :
    validDesc s = true ↔ s ≠ [] ∧ ∀ c ∈ s, (isAsciiLetter c = true ∨ isDigit c = true ∨
      c.toNat = 95 ∨ isReSpace c = true ∨ c.toNat = 45) := by
  unfold validDesc isWordChar
  simp only [Bool.and_eq_true, Bool.not_eq_true', List.isEmpty_eq_false, List.all_eq_true,
    Bool.or_eq_true, decide_eq_true_eq, ne_eq]
  constructor
  · rintro ⟨h0, h⟩
    refine ⟨h0, fun c hc => ?_⟩
    have := h c hc
    tauto
  · rintro ⟨h0, h⟩
    refine ⟨h0, fun c hc => ?_⟩
    have := h c hc
    tauto

theorem ite_addError_append (w : Validator) (c : Prop) [Decidable c] (m : Message) :
    (if c then w.addError m else w).errors = w.errors ++ (if c then [⟨m⟩] else []) := by
  by_cases hc : c
  · rw [if_pos hc, if_pos hc]; rfl
  · rw [if_neg hc, if_neg hc]; simp

theorem validatePrice_append (env : Env) (w : Validator) (price field field2 : String) :
    (w.validatePrice env price field).errors
      = w.errors ++ (New.validatePrice env price field2).errors := by
  unfold Validator.validatePrice
  split
  · simp [Validator.addError, New]
  · split
    · simp [Validator.addError, New]
    · split <;> simp [Validator.addError, New]

theorem foldl_errors_append {α : Type} (f : Validator → α → Validator)
    (g : α → List ValidationError) (hf : ∀ w a, (f w a).errors = w.errors ++ g a)
    (l : List α) (v : Validator) : (l.foldl f v).errors = v.errors ++ (l.map g).flatten := by
  induction l generalizing v with
  | nil => simp
  | cons a l ih => rw [List.foldl_cons, ih, hf]; simp

theorem validateItems_single (env : Env) (item : Item) :
    (New.validateItems env [item]).errors
      = (if TrimSpace item.ShortDescription.data = [] then [⟨Message.descriptionEmpty⟩]
          else []) ++
        (if validDesc item.ShortDescription.data = false then
          [⟨Message.descriptionInvalidChars⟩] else []) ++
        (New.validatePrice env item.Price "").errors := by
  unfold Validator.validateItems
  rw [if_neg (by simp)]
  simp only [List.enum_cons, List.enumFrom_nil, List.foldl_cons, List.foldl_nil]
  rw [validatePrice_append env _ _ _ "", ite_addError_append, ite_addError_append]
  simp [New]

theorem validateItems_step (env : Env) (w : Validator) (i : Nat) (item : Item) :
    (Validator.validatePrice env
      (if (!validDesc item.ShortDescription.data) = true then
        (if TrimSpace item.ShortDescription.data = [] then
          w.addError Message.descriptionEmpty else w).addError Message.descriptionInvalidChars
       else (if TrimSpace item.ShortDescription.data = [] then
          w.addError Message.descriptionEmpty else w))
      item.Price ("items[" ++ toString i ++ "].price")).errors
    = w.errors ++ (New.validateItems env [item]).errors := by
  rw [validateItems_single, validatePrice_append env _ _ _ "", ite_addError_append,
    ite_addError_append]
  simp

theorem validateItems_errors_of (env : Env) (v : Validator) (items : List Item)
    (h : items ≠ []) (g : Item → List ValidationError)
    (hg : ∀ (w : Validator) (i : Nat) (item : Item),
      (Validator.validatePrice env
        (if (!validDesc item.ShortDescription.data) = true then
          (if TrimSpace item.ShortDescription.data = [] then
            w.addError Message.descriptionEmpty else w).addError Message.descriptionInvalidChars
         else (if TrimSpace item.ShortDescription.data = [] then
            w.addError Message.descriptionEmpty else w))
        item.Price ("items[" ++ toString i ++ "].price")).errors = w.errors ++ g item) :
    (v.validateItems env items).errors = v.errors ++ (items.map g).flatten := by
  unfold Validator.validateItems
  rw [if_neg (by simpa using h)]
  refine (foldl_errors_append _ (fun p : Nat × Item => g p.2)
    (fun w (p : Nat × Item) => hg w p.1 p.2) _ _).trans ?_
  congr 2
  conv_rhs => rw [← List.enum_map_snd items]
  rw [List.map_map]
  rfl

theorem validateItems_errors (env : Env) (v : Validator) (items : List Item)
    (h : items ≠ []) :
    (v.validateItems env items).errors
      = v.errors ++ (items.map (fun item => (New.validateItems env [item]).errors)).flatten :=
  validateItems_errors_of env v items h _ (validateItems_step env)

theorem price_message_not_description (env : Env) (price field : String) (m : Message)
    (hm : m = Message.descriptionEmpty ∨ m = Message.descriptionInvalidChars) :
    (⟨m⟩ : ValidationError) ∉ (New.validatePrice env price field).errors := by
  rcases validatePrice_cases env New price field with h | ⟨x, hx, h⟩
  · rw [h]; simp [New]
  · rw [h]
    simp only [New, List.nil_append, List.mem_singleton, ValidationError.mk.injEq]
    rcases hm with hm | hm <;> rcases hx with hx | hx | hx <;> rw [hm, hx] <;> simp

/-- C15 (with the underscore the pattern admits): for every non-empty item list,
`validateItems` records the violations of each item in turn, and it records a
short-description violation for an item if and only if its short description is blank after
trimming or contains a character other than A-Z, a-z, 0-9, the underscore, whitespace and
'-'; for an empty item list it records exactly one violation. -/
theorem description_violation_iff (env : Env) (v : Validator) :
    (∀ items : List Item, items ≠ [] → (v.validateItems env items).errors
      = v.errors ++ (items.map (fun item => (New.validateItems env [item]).errors)).flatten) ∧
    (∀ item : Item,
      ((⟨Message.descriptionEmpty⟩ : ValidationError) ∈ (New.validateItems env [item]).errors ∨
        (⟨Message.descriptionInvalidChars⟩ : ValidationError)
          ∈ (New.validateItems env [item]).errors) ↔
      (TrimSpace item.ShortDescription.data = [] ∨
        ∃ c ∈ item.ShortDescription.data, ¬(isAsciiLetter c = true ∨ isDigit c = true ∨
          c.toNat = 95 ∨ isReSpace c = true ∨ c.toNat = 45))) ∧
    (v.validateItems env []).errors = v.errors ++ [⟨Message.noItems⟩] := by
  refine ⟨fun items h => validateItems_errors env v items h, fun item => ?_, rfl⟩
  have hp1 := price_message_not_description env item.Price "" Message.descriptionEmpty
    (Or.inl rfl)
  have hp2 := price_message_not_description env item.Price "" Message.descriptionInvalidChars
    (Or.inr rfl)
  have hempty : item.ShortDescription.data = [] → TrimSpace item.ShortDescription.data = [] := by
    intro h; rw [h]; rfl
  rw [validateItems_single]
  by_cases hb : TrimSpace item.ShortDescription.data = []
  · simp [hb]
  · by_cases hd : validDesc item.ShortDescription.data = true
    · have hclass := ((validDesc_iff _).mp hd).2
      simp only [hb, hd, if_false, Bool.true_eq_false, List.nil_append, false_or]
      constructor
      · intro h
        rcases h with h | h
        · exact absurd h hp1
        · exact absurd h hp2
      · rintro ⟨c, hc, hbad⟩
        exact absurd (hclass c hc) hbad
    · have hd2 : validDesc item.ShortDescription.data = false := by simpa using hd
      have hbad : ∃ c ∈ item.ShortDescription.data, ¬(isAsciiLetter c = true ∨
          isDigit c = true ∨ c.toNat = 95 ∨ isReSpace c = true ∨ c.toNat = 45) := by
        by_contra hc
        push_neg at hc
        have hne : item.ShortDescription.data ≠ [] := fun h0 => hb (hempty h0)
        exact hd ((validDesc_iff _).mpr ⟨hne, hc⟩)
      simp only [hb, hd2, if_false, if_true, List.nil_append, false_or]
      exact ⟨fun _ => hbad, fun _ => Or.inr (by simp)⟩

theorem description_violation_iff_witness :
    (New.validateItems sampleEnv [⟨"Gatorade", "2.25"⟩, ⟨"   ", "2.25"⟩, ⟨"a+b", "2.25"⟩]).errors
      = [⟨Message.descriptionEmpty⟩, ⟨Message.descriptionInvalidChars⟩] ∧
    (New.validateItems sampleEnv []).errors = [⟨Message.noItems⟩] ∧
    (((⟨Message.descriptionEmpty⟩ : ValidationError)
          ∈ (New.validateItems sampleEnv [⟨"a+b", "2.25"⟩]).errors ∨
        (⟨Message.descriptionInvalidChars⟩ : ValidationError)
          ∈ (New.validateItems sampleEnv [⟨"a+b", "2.25"⟩]).errors) ↔
      (TrimSpace "a+b".data = [] ∨
        ∃ c ∈ "a+b".data, ¬(isAsciiLetter c = true ∨ isDigit c = true ∨
          c.toNat = 95 ∨ isReSpace c = true ∨ c.toNat = 45))) :=
  ⟨by decide!, by decide!,
    (description_violation_iff sampleEnv New).2.1 ⟨"a+b", "2.25"⟩⟩

/-- C15, the claim as worded fails: the short description "A_B" contains an underscore, a
character other than A-Z, a-z, 0-9, whitespace and '-', yet `validateItems` records no
violation for the item. -/
theorem description_underscore_accepted :
    (∃ c ∈ "A_B".data, ¬(isAsciiLetter c = true ∨ isDigit c = true ∨ isReSpace c = true ∨
      c.toNat = 45)) ∧
    (New.validateItems sampleEnv [⟨"A_B", "2.25"⟩]).errors = [] := by
  decide!

end validator
